import Mathlib

/-!
# B+ tree index (`btree.h`, `btree.cpp`): shallow embedding

The embedding follows the INTEGER instantiation of the node templates
(`LeafNodeContainer<LeafNodeInt, int>`, `NonLeafNodeContainer<NonLeafNodeInt, int>`);
the DOUBLE and STRING branches of every `switch (attributeType)` repeat the same
statements on another key type.

* keys are `Int` (only compared, never computed with), the sentinel is `-1`;
* page numbers (`PageId`) are `Nat`, with `0` for `Page::INVALID_NUMBER`;
* `Page::SIZE`, `PageId` and `RecordId` are declared in headers outside the two
  source files, so the two array sizes derived from them (`INTARRAYLEAFSIZE`,
  `INTARRAYNONLEAFSIZE`) are parameters, see `Params`;
* the index file is a list of typed pages, page number `i` at position `i - 1`;
  reading a page as the wrong kind of node (a reinterpreting cast in the source)
  is outside the model and reported as `Exc.Stuck`;
* an operation that throws returns the state reached at the `throw` together with
  the exception.
-/

namespace BTree

/-- Record identifier of the base relation (`RecordId`): page number and slot number. -/
structure RecordId where
  page_number : Nat
  slot_number : Nat
deriving DecidableEq

/-- Attribute types (`enum Datatype`). -/
inductive Datatype where
  | INTEGER
  | DOUBLE
  | STRING
deriving DecidableEq

/-- Scan operators (`enum Operator`). -/
inductive Operator where
  | LT
  | LTE
  | GTE
  | GT
deriving DecidableEq

/-- Exceptions an index operation can end with. `InvalidPage` is the failure of the
paged file on a page number it does not hold; `Stuck` marks behaviour the model does
not follow (a page read as the wrong kind of node, a descent that does not end). -/
inductive Exc where
  | BadOpcodes
  | BadScanrange
  | NoSuchKeyFound
  | ScanNotInitialized
  | IndexScanCompleted
  | BadIndexInfo
  | InvalidPage
  | Stuck
deriving DecidableEq

deriving instance DecidableEq for Except

/-- The sentinel of an unoccupied key slot (`LeafNodeInt::invalidKey`,
`NonLeafNodeInt::invalidKey`). -/
def invalidKey : Int := -1

/-- Key and record id handed to the leaf operations (`RIDKeyPair<int>`). -/
structure RIDKeyPair where
  rid : RecordId
  key : Int
deriving DecidableEq

/-- Key and page number handed to the non-leaf operations (`PageKeyPair<int>`). -/
structure PageKeyPair where
  pageNo : Nat
  key : Int
deriving DecidableEq

/-- The comparison `operator<` on `RIDKeyPair`: by key, equal keys by `rid.page_number`. -/
def RIDKeyPair.lt (r1 r2 : RIDKeyPair) : Bool :=
  if r1.key ≠ r2.key then decide (r1.key < r2.key)
  else decide (r1.rid.page_number < r2.rid.page_number)

/-- The comparison `operator<` on `PageKeyPair`: by key only. -/
def PageKeyPair.lt (p1 p2 : PageKeyPair) : Bool :=
  decide (p1.key < p2.key)

/-- The call `sort(pairs.begin(), pairs.end())` on a vector of `RIDKeyPair`: ascending for
`operator<`. `std::sort` leaves the order of equivalent elements open; the model is the
stable insertion sort. -/
def sortRIDKeyPairs (pairs : List RIDKeyPair) : List RIDKeyPair :=
  pairs.insertionSort (fun a b => RIDKeyPair.lt b a = false)

/-- The call `sort(pairs.begin(), pairs.end())` on a vector of `PageKeyPair`, modelled as
the stable insertion sort. -/
def sortPageKeyPairs (pairs : List PageKeyPair) : List PageKeyPair :=
  pairs.insertionSort (fun a b => PageKeyPair.lt b a = false)

/-- Leaf node (`LeafNodeInt`): `keyArray` and `ridArray` have `INTARRAYLEAFSIZE` slots. -/
structure LeafNode where
  keyArray : List Int
  ridArray : List RecordId
  rightSibPageNo : Nat
deriving DecidableEq

/-- Non-leaf node (`NonLeafNodeInt`): `keyArray` has `INTARRAYNONLEAFSIZE` slots and
`pageNoArray` one more. -/
structure NonLeafNode where
  level : Int
  keyArray : List Int
  pageNoArray : List Nat
deriving DecidableEq

/-- The constants the source takes from headers that are not part of it.
`leafSize` is `INTARRAYLEAFSIZE`, `nonLeafSize` is `INTARRAYNONLEAFSIZE`.
`pastEndKey` is the value obtained when `startScan` evaluates
`container.node.getKey(nextEntry)` with `nextEntry` equal to the array size, a read one
slot past `keyArray`, which the language leaves undefined. -/
structure Params where
  leafSize : Nat
  nonLeafSize : Nat
  pastEndKey : LeafNode → Int

/-- The meta page contents (`IndexMetaInfo`). -/
structure IndexMetaInfo where
  relationName : List Nat
  attrByteOffset : Int
  attrType : Datatype
  rootPageNo : Nat
deriving DecidableEq

/-- A page of the index file, by what was last written to it. -/
inductive Page where
  | blank
  | metaInfo (m : IndexMetaInfo)
  | leaf (n : LeafNode)
  | nonLeaf (n : NonLeafNode)
deriving DecidableEq

/-! ## The paged file -/

/-- The call `file->readPage(pid)`. -/
def readPage (file : List Page) (pid : Nat) : Option Page :=
  if pid = 0 then none else file.get? (pid - 1)

/-- The call `file->writePage(pid, page)`. -/
def writePage (file : List Page) (pid : Nat) (page : Page) : List Page :=
  file.set (pid - 1) page

/-- The call `file->allocatePage(pid)`: a new page at the end of the file and its number. -/
def allocatePage (file : List Page) : List Page × Nat :=
  (file ++ [Page.blank], file.length + 1)

/-- Read a page and take it as a leaf node (`LeafNodeContainer::read`). -/
def readLeaf (file : List Page) (pid : Nat) : Except Exc LeafNode :=
  match readPage file pid with
  | none => .error Exc.InvalidPage
  | some (Page.leaf n) => .ok n
  | some _ => .error Exc.Stuck

/-- Read a page and take it as a non-leaf node (`NonLeafNodeContainer::read`). -/
def readNonLeaf (file : List Page) (pid : Nat) : Except Exc NonLeafNode :=
  match readPage file pid with
  | none => .error Exc.InvalidPage
  | some (Page.nonLeaf n) => .ok n
  | some _ => .error Exc.Stuck

/-! ## Leaf nodes -/

/-- The accessor `LeafNodeInt::getKey` at a slot inside the array. -/
def LeafNode.getKey (n : LeafNode) (idx : Nat) : Int :=
  n.keyArray.getD idx invalidKey

/-- The accessor `LeafNodeInt::getRID`. -/
def LeafNode.getRID (n : LeafNode) (idx : Nat) : RecordId :=
  n.ridArray.getD idx ⟨0, 0⟩

/-- The read `container.node.getKey(nextEntry)` made by `startScan`, where `nextEntry` can
be the array size. -/
def LeafNode.getKeyAt (p : Params) (n : LeafNode) (idx : Nat) : Int :=
  if idx < p.leafSize then n.getKey idx else p.pastEndKey n

/-- The method `LeafNodeInt::clear`: every key slot becomes the sentinel; the record ids
stay. -/
def LeafNode.clear (p : Params) (n : LeafNode) : LeafNode :=
  { n with keyArray := List.replicate p.leafSize invalidKey }

/-- The method `LeafNodeInt::isFull`: the last key slot is not the sentinel. -/
def LeafNode.isFull (p : Params) (n : LeafNode) : Bool :=
  decide (n.getKey (p.leafSize - 1) ≠ invalidKey)

/-- The node of `LeafNodeContainer(index, page, PID, true)`: no right sibling, all keys
cleared. The record id slots of the new node are not initialised by the source; they
are taken as zero here. -/
def LeafNode.fresh (p : Params) : LeafNode :=
  { keyArray := List.replicate p.leafSize invalidKey
    ridArray := List.replicate p.leafSize ⟨0, 0⟩
    rightSibPageNo := 0 }

/-- The loop `for (i = 0; getKey(i) != invalidKey() && i < size; i++) pairs.push_back(..)`
over parallel key and rid arrays: the entries before the first sentinel. -/
def occupiedEntries : List Int → List RecordId → List RIDKeyPair
  | k :: ks, r :: rs => if k ≠ invalidKey then ⟨r, k⟩ :: occupiedEntries ks rs else []
  | _, _ => []

/-- The entries a leaf holds, in slot order. -/
def LeafNode.entries (n : LeafNode) : List RIDKeyPair :=
  occupiedEntries n.keyArray n.ridArray

/-- The loop that stores pairs into consecutive slots from `idx` on
(`setKey(keyIdx, ..); setRID(keyIdx, ..); keyIdx++`). -/
def LeafNode.store (n : LeafNode) : Nat → List RIDKeyPair → LeafNode
  | _, [] => n
  | idx, e :: es =>
    LeafNode.store
      { n with keyArray := n.keyArray.set idx e.key, ridArray := n.ridArray.set idx e.rid }
      (idx + 1) es

/-- The loop of `LeafNodeContainer::search`: the first slot whose key is not below `key`
or is the sentinel, and the array size when there is none. (The source tests
`idx < size` last, so at `idx = size` it reads one key past the array before it leaves
the loop; the index it ends with is `size` whatever that read gives.) -/
def searchKeys (key : Int) : List Int → Nat
  | [] => 0
  | k :: ks => if k < key ∧ k ≠ invalidKey then searchKeys key ks + 1 else 0

/-- The index `LeafNodeContainer::search(key, entryIdx)` stores in `entryIdx`. -/
def LeafNode.search (p : Params) (n : LeafNode) (key : Int) : Nat :=
  searchKeys key (n.keyArray.take p.leafSize)

/-- The node written by `LeafNodeContainer::insert(pair)`. -/
def LeafNode.insert (p : Params) (n : LeafNode) (pair : RIDKeyPair) : LeafNode :=
  let pairs := sortRIDKeyPairs (pair :: n.entries)
  (n.clear p).store 0 pairs

/-- The two nodes written by `LeafNodeContainer::split(pair)` and the key it returns:
`rightPID` is the page allocated for the new right node. The left node keeps the first
`size / 2` sorted pairs, the right node takes the pairs at positions `size / 2` to
`size`; the key returned is that of the pair at position `size / 2`. -/
def LeafNode.split (p : Params) (n : LeafNode) (pair : RIDKeyPair) (rightPID : Nat) :
    LeafNode × LeafNode × PageKeyPair :=
  let pairs := sortRIDKeyPairs (pair :: n.entries)
  let half := p.leafSize / 2
  let left := (n.clear p).store 0 (pairs.take half)
  let midKey := (pairs.getD half ⟨⟨0, 0⟩, 0⟩).key
  let right := (LeafNode.fresh p).store 0 ((pairs.drop half).take (p.leafSize + 1 - half))
  ({ left with rightSibPageNo := rightPID },
   { right with rightSibPageNo := n.rightSibPageNo },
   ⟨rightPID, midKey⟩)

/-! ## Non-leaf nodes -/

/-- The accessor `NonLeafNodeInt::getKey`. -/
def NonLeafNode.getKey (n : NonLeafNode) (idx : Nat) : Int :=
  n.keyArray.getD idx invalidKey

/-- The accessor `NonLeafNodeInt::getPageNo`. -/
def NonLeafNode.getPageNo (n : NonLeafNode) (idx : Nat) : Nat :=
  n.pageNoArray.getD idx 0

/-- The method `NonLeafNodeInt::clear`: the loop resets the key slots and the page number
slots `0 .. size - 1`, and the statement after it resets slot `size - 1` again, so the
last page number slot (index `size`) keeps its value. -/
def NonLeafNode.clear (p : Params) (n : NonLeafNode) : NonLeafNode :=
  { n with
    keyArray := List.replicate p.nonLeafSize invalidKey
    pageNoArray := List.replicate p.nonLeafSize 0 ++ n.pageNoArray.drop p.nonLeafSize }

/-- The method `NonLeafNodeInt::isFull`: the last key slot is not the sentinel. -/
def NonLeafNode.isFull (p : Params) (n : NonLeafNode) : Bool :=
  decide (n.getKey (p.nonLeafSize - 1) ≠ invalidKey)

/-- The node of `NonLeafNodeContainer(index, page, PID, true)` after `clear`. The level and
the last page number slot of the new node are not initialised by the source; they are
taken as zero here. -/
def NonLeafNode.fresh (p : Params) : NonLeafNode :=
  { level := 0
    keyArray := List.replicate p.nonLeafSize invalidKey
    pageNoArray := List.replicate (p.nonLeafSize + 1) 0 }

/-- The loop `for (i = 0; getKey(i) != invalidKey() && i < size; i++)` of
`NonLeafNodeContainer::insert`, pairing key `i` with page number `i + 1`; the second
argument is the page number array from slot `1` on. -/
def occupiedChildren : List Int → List Nat → List PageKeyPair
  | k :: ks, c :: cs => if k ≠ invalidKey then ⟨c, k⟩ :: occupiedChildren ks cs else []
  | _, _ => []

/-- The loop `for (i = 0; i < length; i++)` of `NonLeafNodeContainer::split`, pairing every
key slot `i` with page number `i + 1`, sentinel or not. -/
def allChildren : List Int → List Nat → List PageKeyPair
  | k :: ks, c :: cs => ⟨c, k⟩ :: allChildren ks cs
  | _, _ => []

/-- The loop that stores pairs from key slot `idx` on
(`setKey(keyIdx, ..); setPageNo(keyIdx + 1, ..)`). -/
def NonLeafNode.store (n : NonLeafNode) : Nat → List PageKeyPair → NonLeafNode
  | _, [] => n
  | idx, e :: es =>
    NonLeafNode.store
      { n with keyArray := n.keyArray.set idx e.key
               pageNoArray := n.pageNoArray.set (idx + 1) e.pageNo }
      (idx + 1) es

/-- The method `NonLeafNodeInt::setPageNo`. -/
def NonLeafNode.setPageNo (n : NonLeafNode) (idx : Nat) (pid : Nat) : NonLeafNode :=
  { n with pageNoArray := n.pageNoArray.set idx pid }

/-- The method `NonLeafNodeContainer::search`: the page number in the slot of the first
key that is not below `key` or is the sentinel (slot `size` when there is none). -/
def NonLeafNode.search (p : Params) (n : NonLeafNode) (key : Int) : Nat :=
  n.getPageNo (searchKeys key (n.keyArray.take p.nonLeafSize))

/-- The node written by `NonLeafNodeContainer::insert(pair)`. -/
def NonLeafNode.insert (p : Params) (n : NonLeafNode) (pair : PageKeyPair) : NonLeafNode :=
  let firstPID := n.getPageNo 0
  let pairs := sortPageKeyPairs
    (pair :: occupiedChildren (n.keyArray.take p.nonLeafSize) (n.pageNoArray.drop 1))
  ((n.clear p).setPageNo 0 firstPID).store 0 pairs

/-- The two nodes written by `NonLeafNodeContainer::split(pair)` and the pair it returns.
The key returned is read with `node.getKey(keyIdx)` from the left node after it was
cleared and refilled up to slot `length / 2 - 1`. -/
def NonLeafNode.split (p : Params) (n : NonLeafNode) (pair : PageKeyPair) (rightPID : Nat) :
    NonLeafNode × NonLeafNode × PageKeyPair :=
  let length := p.nonLeafSize
  let firstPID := n.getPageNo 0
  let pairs := sortPageKeyPairs
    (pair :: allChildren (n.keyArray.take length) (n.pageNoArray.drop 1))
  let left := ((n.clear p).setPageNo 0 firstPID).store 0 (pairs.take (length / 2))
  let midKey := left.getKey (length / 2)
  let right0 := (NonLeafNode.fresh p).setPageNo 0 (pairs.getD (length / 2) ⟨0, 0⟩).pageNo
  let right := right0.store 0 ((pairs.drop (length / 2 + 1)).take (length - length / 2))
  (left, { right with level := left.level }, ⟨rightPID, midKey⟩)

/-! ## The index -/

/-- The members of `BTreeIndex` the operations read or write. The index is one whose
`attributeType` is `INTEGER`. -/
structure BTreeIndex where
  file : List Page
  metaInfo : IndexMetaInfo
  scanExecuting : Bool
  nextEntry : Nat
  currentPageNum : Nat
  lowValInt : Int
  highValInt : Int
  lowOp : Operator
  highOp : Operator
deriving DecidableEq

/-- The loop of `BTreeIndex::findLeaf(key, vec)`: `cur` is `curNodePID`, `vec` the path so
far. The loop has no bound in the source; `fuel` bounds the number of nodes visited. -/
def findLeafLoop (p : Params) (file : List Page) (key : Int) :
    Nat → Nat → List Nat → Except Exc (Nat × List Nat)
  | 0, _, _ => .error Exc.Stuck
  | fuel + 1, cur, vec =>
    match readNonLeaf file cur with
    | .error e => .error e
    | .ok node =>
      if node.level = 1 then .ok (node.search p key, vec ++ [cur])
      else findLeafLoop p file key fuel (node.search p key) (vec ++ [cur])

/-- The method `BTreeIndex::findLeaf(key, vec)` called with an empty `vec`: the leaf page
and the non-leaf pages visited. -/
def findLeaf (p : Params) (s : BTreeIndex) (key : Int) : Except Exc (Nat × List Nat) :=
  if s.metaInfo.rootPageNo = 2 then .ok (2, [])
  else findLeafLoop p s.file key s.file.length s.metaInfo.rootPageNo []

/-- The loop of the overload `BTreeIndex::findLeaf(key)`, which keeps no path. -/
def findLeafLoop2 (p : Params) (file : List Page) (key : Int) :
    Nat → Nat → Except Exc Nat
  | 0, _ => .error Exc.Stuck
  | fuel + 1, cur =>
    match readNonLeaf file cur with
    | .error e => .error e
    | .ok node =>
      if node.level = 1 then .ok (node.search p key)
      else findLeafLoop2 p file key fuel (node.search p key)

/-- The overload `BTreeIndex::findLeaf(key)` used by `startScan`. -/
def findLeaf2 (p : Params) (s : BTreeIndex) (key : Int) : Except Exc Nat :=
  if s.metaInfo.rootPageNo = 2 then .ok 2
  else findLeafLoop2 p s.file key s.file.length s.metaInfo.rootPageNo

/-- The method `BTreeIndex::insertLeaf`: the file afterwards, the value returned
(`propagateSplit`) and the pair left in `*pk` (`pk` itself when the leaf did not split). -/
def insertLeaf (p : Params) (file : List Page) (key : Int) (rid : RecordId) (nodePID : Nat)
    (pk : PageKeyPair) : Except Exc (List Page × Bool × PageKeyPair) :=
  match readLeaf file nodePID with
  | .error e => .error e
  | .ok node =>
    if node.isFull p then
      let (file1, rightPID) := allocatePage file
      let (left, right, out) := node.split p ⟨rid, key⟩ rightPID
      let file2 := writePage file1 rightPID (Page.leaf right)
      .ok (writePage file2 nodePID (Page.leaf left), true, out)
    else
      .ok (writePage file nodePID (Page.leaf (node.insert p ⟨rid, key⟩)), false, pk)

/-- The method `BTreeIndex::insertNonLeaf`: the file afterwards, the value returned and
the pair left in `*pk`. The local `propagateSplit` starts as `false` and is assigned
only in the branch that does not split, again `false`. -/
def insertNonLeaf (p : Params) (file : List Page) (nodePID : Nat) (pk : PageKeyPair)
    (isAboveLeaf : Bool) : Except Exc (List Page × Bool × PageKeyPair) :=
  match readNonLeaf file nodePID with
  | .error e => .error e
  | .ok node0 =>
    let node := { node0 with level := if isAboveLeaf then 1 else 0 }
    if node.isFull p then
      let (file1, rightPID) := allocatePage file
      let (left, right, out) := node.split p pk rightPID
      let file2 := writePage file1 nodePID (Page.nonLeaf left)
      .ok (writePage file2 rightPID (Page.nonLeaf right), false, out)
    else
      .ok (writePage file nodePID (Page.nonLeaf (node.insert p pk)), false, pk)

/-- The method `BTreeIndex::newRoot`: a new non-leaf page with `leftChildPID` in page
number slot `0` and `pk` inserted becomes the root; the meta page is written. -/
def newRoot (p : Params) (s : BTreeIndex) (pk : PageKeyPair) (leftChildPID : Nat)
    (isAboveLeaf : Bool) : BTreeIndex :=
  let (file1, pid) := allocatePage s.file
  let node0 := { NonLeafNode.fresh p with level := if isAboveLeaf then 1 else 0 }
  let node := (node0.setPageNo 0 leftChildPID).insert p pk
  let file2 := writePage file1 pid (Page.nonLeaf node)
  let metaInfo := { s.metaInfo with rootPageNo := pid }
  { s with file := writePage file2 1 (Page.metaInfo metaInfo), metaInfo := metaInfo }

/-- The loop `while (propagateSplit && nonLeafNodePIDs.size() > 1)` of `insertEntry`.
`stack` is `nonLeafNodePIDs` with its back first. The result is the state of the local
variables when the loop ends: file, stack, `curNodePID`, `*pk`, `isAboveLeaf`,
`propagateSplit`. -/
def propagateLoop (p : Params) :
    List Nat → List Page → Nat → PageKeyPair → Bool → Bool →
    Except Exc (List Page × List Nat × Nat × PageKeyPair × Bool × Bool)
  | top :: next :: rest, file, cur, pk, isAboveLeaf, propagateSplit =>
    if propagateSplit then
      match insertNonLeaf p file top pk isAboveLeaf with
      | .error e => .error e
      | .ok (file1, propagateSplit1, pk1) =>
        propagateLoop p (next :: rest) file1 top pk1
          (if isAboveLeaf then false else isAboveLeaf) propagateSplit1
    else .ok (file, top :: next :: rest, cur, pk, isAboveLeaf, propagateSplit)
  | stack, file, cur, pk, isAboveLeaf, propagateSplit =>
    .ok (file, stack, cur, pk, isAboveLeaf, propagateSplit)

/-- The method `BTreeIndex::insertEntry`. -/
def insertEntry (p : Params) (s : BTreeIndex) (key : Int) (rid : RecordId) :
    BTreeIndex × Except Exc Unit :=
  match findLeaf p s key with
  | .error e => (s, .error e)
  | .ok (leafPID, path) =>
    match insertLeaf p s.file key rid leafPID ⟨0, 0⟩ with
    | .error e => (s, .error e)
    | .ok (file1, propagateSplit1, pk1) =>
      match propagateLoop p path.reverse file1 leafPID pk1 true propagateSplit1 with
      | .error e => ({ s with file := file1 }, .error e)
      | .ok (file2, stack, cur, pk2, isAboveLeaf, propagateSplit2) =>
        let s2 := { s with file := file2 }
        if propagateSplit2 then
          match stack with
          | [] => (newRoot p s2 pk2 cur isAboveLeaf, .ok ())
          | top :: _ =>
            match insertNonLeaf p file2 top pk2 isAboveLeaf with
            | .error e => (s2, .error e)
            | .ok (file3, propagateSplit3, pk3) =>
              let s3 := { s2 with file := file3 }
              if propagateSplit3 then (newRoot p s3 pk3 top false, .ok ())
              else (s3, .ok ())
        else (s2, .ok ())

/-! ## Scans -/

/-- The method `BTreeIndex::scanNext`: the state afterwards and either the record id
stored in `outRid` or the exception thrown. -/
def scanNext (p : Params) (s : BTreeIndex) : BTreeIndex × Except Exc RecordId :=
  if s.scanExecuting = false then (s, .error Exc.ScanNotInitialized)
  else
    match readLeaf s.file s.currentPageNum with
    | .error e => (s, .error e)
    | .ok node =>
      if p.leafSize ≤ s.nextEntry ∨ node.getKey s.nextEntry = invalidKey then
        if node.rightSibPageNo = 0 then (s, .error Exc.IndexScanCompleted)
        else
          let s1 := { s with nextEntry := 0, currentPageNum := node.rightSibPageNo }
          match readLeaf s1.file s1.currentPageNum with
          | .error e => (s1, .error e)
          | .ok node1 =>
            if (s1.highOp = Operator.LT ∧ node1.getKey s1.nextEntry ≥ s1.highValInt) ∨
               (s1.highOp = Operator.LTE ∧ node1.getKey s1.nextEntry > s1.highValInt) then
              (s1, .error Exc.IndexScanCompleted)
            else
              ({ s1 with nextEntry := s1.nextEntry + 1 }, .ok (node1.getRID s1.nextEntry))
      else
        if (s.highOp = Operator.LT ∧ node.getKey s.nextEntry ≥ s.highValInt) ∨
           (s.highOp = Operator.LTE ∧ node.getKey s.nextEntry > s.highValInt) then
          (s, .error Exc.IndexScanCompleted)
        else
          ({ s with nextEntry := s.nextEntry + 1 }, .ok (node.getRID s.nextEntry))

/-- The method `BTreeIndex::startScan`. -/
def startScan (p : Params) (s : BTreeIndex) (lowVal : Int) (lowOpParm : Operator)
    (highVal : Int) (highOpParm : Operator) : BTreeIndex × Except Exc Unit :=
  if lowOpParm = Operator.LT ∨ lowOpParm = Operator.LTE ∨
     highOpParm = Operator.GT ∨ highOpParm = Operator.GTE then
    (s, .error Exc.BadOpcodes)
  else
    let s1 := { s with lowOp := lowOpParm, highOp := highOpParm,
                       lowValInt := lowVal, highValInt := highVal }
    if lowVal > highVal then (s1, .error Exc.BadScanrange)
    else
      let s2 := { s1 with scanExecuting := true }
      match findLeaf2 p s2 lowVal with
      | .error e => (s2, .error e)
      | .ok leafPID =>
        let s3 := { s2 with currentPageNum := leafPID }
        match readLeaf s3.file leafPID with
        | .error e => (s3, .error e)
        | .ok node =>
          let s4 := { s3 with nextEntry := node.search p lowVal }
          if (s4.lowOp = Operator.GT ∧ lowVal = node.getKeyAt p s4.nextEntry) ∨
             node.getKeyAt p s4.nextEntry = invalidKey then
            match scanNext p s4 with
            | (s5, .error e) => (s5, .error e)
            | (s5, .ok _) => (s5, .ok ())
          else (s4, .ok ())

/-- The method `BTreeIndex::endScan`: it throws when no scan is executing and does
nothing else. -/
def endScan (s : BTreeIndex) : BTreeIndex × Except Exc Unit :=
  if s.scanExecuting = false then (s, .error Exc.ScanNotInitialized)
  else (s, .ok ())

/-! ## Building an index and running a scan to its end -/

/-- The index right after the constructor created the file for an empty relation: page 1
is the meta page, page 2 an empty leaf and the root. The constructor does not
initialise the scan members; `scan0` carries their values. -/
def createIndex (p : Params) (relationName : List Nat) (attrByteOffset : Int)
    (scan0 : BTreeIndex) : BTreeIndex :=
  let metaInfo : IndexMetaInfo :=
    { relationName := relationName, attrByteOffset := attrByteOffset,
      attrType := Datatype.INTEGER, rootPageNo := 2 }
  { scan0 with
    file := [Page.metaInfo metaInfo, Page.leaf (LeafNode.fresh p)]
    metaInfo := metaInfo }

/-- A sequence of `insertEntry` calls, each of which has to return normally. -/
def insertAll (p : Params) (s : BTreeIndex) : List (Int × RecordId) → Except Exc BTreeIndex
  | [] => .ok s
  | (key, rid) :: rest =>
    match insertEntry p s key rid with
    | (_, .error e) => .error e
    | (s1, .ok ()) => insertAll p s1 rest

/-- Calls of `scanNext` repeated until one throws, at most `fuel` of them: the record ids
returned, and the exception that ended the run (`none` when `fuel` calls all returned a
record id). -/
def scanAll (p : Params) : Nat → BTreeIndex → List RecordId × Option Exc
  | 0, _ => ([], none)
  | fuel + 1, s =>
    match scanNext p s with
    | (_, .error e) => ([], some e)
    | (s1, .ok rid) => (rid :: (scanAll p fuel s1).1, (scanAll p fuel s1).2)

/-- The keys met when the leaves are walked from page `pid` along `rightSibPageNo`, at
most `fuel` leaves, each leaf read up to its first sentinel. -/
def leafChainEntries (file : List Page) : Nat → Nat → List RIDKeyPair
  | 0, _ => []
  | fuel + 1, pid =>
    match readLeaf file pid with
    | .error _ => []
    | .ok node =>
      node.entries ++ (if node.rightSibPageNo = 0 then []
                       else leafChainEntries file fuel node.rightSibPageNo)

/-! ## Concrete parameters and indexes for the examples -/

/-- Array sizes of an 8192-byte page with 4-byte keys and page numbers and 8-byte record
ids: 682 leaf slots, 1023 non-leaf key slots. A read one past the key array falls on
the page number of the first record id. -/
def pageParams : Params :=
  { leafSize := 682, nonLeafSize := 1023
    pastEndKey := fun n => ((n.ridArray.getD 0 ⟨0, 0⟩).page_number : Int) }

/-- Small array sizes: two slots per leaf, two keys per non-leaf node. -/
def smallParams : Params :=
  { leafSize := 2, nonLeafSize := 2, pastEndKey := fun _ => 0 }

/-- Values for the scan members before any scan was started. -/
def idleScan : BTreeIndex :=
  { file := [], metaInfo := ⟨[], 0, Datatype.INTEGER, 0⟩, scanExecuting := false,
    nextEntry := 0, currentPageNum := 0, lowValInt := 0, highValInt := 0,
    lowOp := Operator.GTE, highOp := Operator.LTE }

/-- A new index over an empty relation. -/
def emptyIndex (p : Params) : BTreeIndex :=
  createIndex p [] 0 idleScan

/-- The record id `(k, 0)`. -/
def ridOf (k : Nat) : RecordId := ⟨k, 0⟩


/-! ## Well-formed nodes and the leaf chain -/

/-- The leaf `n` holds exactly the entries `es`, in this order, in its first slots: its key
array is the keys of `es` followed by sentinels, its rid array starts with the record ids
of `es`, both arrays have `leafSize` slots and no key of `es` is the sentinel. -/
def LeafHolds (p : Params) (n : LeafNode) (es : List RIDKeyPair) : Prop :=
  es.length ≤ p.leafSize ∧ (∀ e ∈ es, e.key ≠ invalidKey) ∧
  n.keyArray = es.map (fun e => e.key) ++ List.replicate (p.leafSize - es.length) invalidKey ∧
  ∃ rest, n.ridArray = es.map (fun e => e.rid) ++ rest ∧ rest.length = p.leafSize - es.length

/-- The non-leaf node `n` has `first` in page number slot `0` and holds exactly the pairs
`cs` behind it: key `i` of `cs` in key slot `i`, its page number in slot `i + 1`, sentinels
in the other key slots. -/
def NodeHolds (p : Params) (n : NonLeafNode) (first : Nat) (cs : List PageKeyPair) : Prop :=
  cs.length ≤ p.nonLeafSize ∧ (∀ c ∈ cs, c.key ≠ invalidKey) ∧
  n.keyArray = cs.map (fun c => c.key) ++ List.replicate (p.nonLeafSize - cs.length) invalidKey ∧
  ∃ rest, n.pageNoArray = first :: (cs.map (fun c => c.pageNo) ++ rest) ∧
    rest.length = p.nonLeafSize - cs.length

/-- The page number of the first leaf of a list of leaves, `next` for the empty list. -/
def firstOr (chain : List (Nat × List RIDKeyPair)) (next : Nat) : Nat :=
  match chain with
  | [] => next
  | (pid, _) :: _ => pid

/-- The pages of `chain` are leaves of `file` holding the listed entries, each linked by
`rightSibPageNo` to the one after it and the last one to `next`. -/
def Chain (p : Params) (file : List Page) :
    List (Nat × List RIDKeyPair) → Nat → Prop
  | [], _ => True
  | (pid, es) :: rest, next =>
    ∃ n, readLeaf file pid = .ok n ∧ LeafHolds p n es ∧
      n.rightSibPageNo = firstOr rest next ∧ Chain p file rest next

/-- The entry `insertEntry(key, rid)` stores. -/
def toPair (e : Int × RecordId) : RIDKeyPair := ⟨e.2, e.1⟩

/-- What holds of the leaves after the entries `ins` were inserted into a new index:
they form a chain from page 2 that ends with sibling `0`, no page is met twice, page 1
is not among them, the file has a page more than the chain, no leaf is empty unless
it is the only one, and the entries of the chain are a rearrangement of `ins`. -/
def LeafInv (p : Params) (file : List Page) (chain : List (Nat × List RIDKeyPair))
    (ins : List (Int × RecordId)) : Prop :=
  firstOr chain 0 = 2 ∧
  Chain p file chain 0 ∧
  (chain.map Prod.fst).Nodup ∧
  (∀ c ∈ chain, c.1 ≠ 1) ∧
  chain.length + 1 ≤ file.length ∧
  (∀ c ∈ chain, c.2 = [] → chain.length = 1) ∧
  List.Perm (chain.map Prod.snd).flatten (ins.map toPair)

/-- What holds of the root: it is page 2, or a non-leaf page of level 1 outside the chain
whose page number slot `0` is page 2, whose other live page numbers are leaves of the
chain and whose keys are keys of `ins`. -/
def RootInv (p : Params) (file : List Page) (root : Nat)
    (chain : List (Nat × List RIDKeyPair)) (ins : List (Int × RecordId)) : Prop :=
  root = 2 ∨
    ∃ node cs, root ≠ 2 ∧ root ≠ 1 ∧ root ∉ chain.map Prod.fst ∧
      readNonLeaf file root = .ok node ∧ node.level = 1 ∧
      NodeHolds p node 2 cs ∧
      (∀ c ∈ cs, c.pageNo ∈ chain.map Prod.fst) ∧
      (∀ c ∈ cs, ∃ e ∈ ins, e.1 = c.key)

/-- The invariant of an index into which the entries `ins` were inserted. -/
def Inv (p : Params) (s : BTreeIndex) (ins : List (Int × RecordId)) : Prop :=
  ∃ chain, LeafInv p s.file chain ins ∧ RootInv p s.file s.metaInfo.rootPageNo chain ins

/-- Values written into consecutive slots of an array from slot `idx` on. -/
def setFrom {α : Type} : List α → Nat → List α → List α
  | l, _, [] => l
  | l, idx, v :: vs => setFrom (l.set idx v) (idx + 1) vs

/-! ## Opening an index, descent from the root, left-packed arrays -/

/-- What the constructor `BTreeIndex::BTreeIndex` leaves behind: the index, the two
members `attributeType` and `attrByteOffset`, which it sets from its arguments, and the
index file name it reports in `outIndexName`, the relation name and the offset. -/
structure OpenedIndex where
  index : BTreeIndex
  attributeType : Datatype
  attrByteOffset : Int
  outIndexName : List Nat × Int
deriving DecidableEq

/-- The constructor `BTreeIndex::BTreeIndex` when the index file exists (its `try` branch):
`file` is the content of the file named by `relationName` and `attrByteOffset`. Page 1 is
read and taken as the meta information; the arguments are stored in the members and
compared with nothing. The scan members are not initialised; `scan0` carries them. -/
def openIndex (file : List Page) (relationName : List Nat) (attrByteOffset : Int)
    (attrType : Datatype) (scan0 : BTreeIndex) : Except Exc OpenedIndex :=
  match readPage file 1 with
  | none => .error Exc.InvalidPage
  | some (Page.metaInfo m) =>
    .ok { index := { scan0 with file := file, metaInfo := m }
          attributeType := attrType
          attrByteOffset := attrByteOffset
          outIndexName := (relationName, attrByteOffset) }
  | some _ => .error Exc.Stuck

/-- The number of key slots before the first sentinel, among the first `size` slots: the
index at which the loops over the keys of a node stop. -/
def keyCount (size : Nat) (keys : List Int) : Nat :=
  ((keys.take size).takeWhile (fun k => decide (k ≠ invalidKey))).length

/-- The page numbers `NonLeafNodeContainer::search` can return: slot `0` and the slots
behind the keys before the first sentinel. -/
def NonLeafNode.children (p : Params) (n : NonLeafNode) : List Nat :=
  n.pageNoArray.take (keyCount p.nonLeafSize n.keyArray + 1)

/-- The leaf pages the descent of `findLeaf` can end on when it starts on the non-leaf page
`pid`, each with the number of non-leaf nodes above it; `fuel` bounds the depth. -/
def reachableLeaves (p : Params) (file : List Page) : Nat → Nat → List (Nat × Nat)
  | 0, _ => []
  | fuel + 1, pid =>
    match readNonLeaf file pid with
    | .error _ => []
    | .ok node =>
      if node.level = 1 then (node.children p).map (fun c => (c, 1))
      else ((node.children p).map (fun c => reachableLeaves p file fuel c)).flatten.map
        (fun c => (c.1, c.2 + 1))

/-- The leaf pages the descent of `findLeaf` can end on from the root recorded in the
meta information, each with the number of non-leaf nodes above it. -/
def leavesFromRoot (p : Params) (s : BTreeIndex) : List (Nat × Nat) :=
  if s.metaInfo.rootPageNo = 2 then [(2, 0)]
  else reachableLeaves p s.file s.file.length s.metaInfo.rootPageNo

/-- The pages met when the leaves are walked from page `pid` along `rightSibPageNo`, at
most `fuel` of them. -/
def leafChainPages (file : List Page) : Nat → Nat → List Nat
  | 0, _ => []
  | fuel + 1, pid =>
    match readLeaf file pid with
    | .error _ => []
    | .ok node =>
      pid :: (if node.rightSibPageNo = 0 then []
              else leafChainPages file fuel node.rightSibPageNo)

/-- No sentinel stands before a key that is not the sentinel, among the `size` slots of a
key array. -/
def LeftPacked (size : Nat) (keys : List Int) : Prop :=
  keys.length = size ∧
  ∀ i j, i < j → j < size → keys.getD i invalidKey = invalidKey →
    keys.getD j invalidKey = invalidKey

/-! ## Order inside the nodes -/

/-- The page `q` is the page of the child of `kids` into whose key range `key` falls: the
child's key is below `key` and no child has a key strictly between them. A child is
listed with the key that stands before its page number in the node. -/
def Routed (kids : List PageKeyPair) (q : Nat) (key : Int) : Prop :=
  ∃ c ∈ kids, q = c.pageNo ∧ c.key < key ∧ ∀ d ∈ kids, c.key < d.key → key ≤ d.key

/-- The children `kids` of a node are distinct leaves of the chain, and every entry of the
leaf of a child has a key that is at least the child's key and below every larger key of
`kids`. -/
def SepAt (chain : List (Nat × List RIDKeyPair)) (kids : List PageKeyPair) : Prop :=
  (kids.map (fun c => c.pageNo)).Nodup ∧
  (∀ c ∈ kids, c.pageNo ∈ chain.map Prod.fst) ∧
  (∀ c ∈ kids, ∀ es, (c.pageNo, es) ∈ chain → ∀ e ∈ es,
    c.key ≤ e.key ∧ ∀ d ∈ kids, c.key < d.key → e.key < d.key)

/-- The root is page 2 and has no pairs, or it is a non-leaf page of level 1 outside the
chain that has page 2 in page number slot `0` and holds the pairs `cs`. -/
def RootAt (p : Params) (file : List Page) (root : Nat)
    (chain : List (Nat × List RIDKeyPair)) (cs : List PageKeyPair) : Prop :=
  (root = 2 ∧ cs = []) ∨
    (root ≠ 2 ∧ root ≠ 1 ∧ root ∉ chain.map Prod.fst ∧
      ∃ node, readNonLeaf file root = .ok node ∧ node.level = 1 ∧ NodeHolds p node 2 cs)

/-- Every non-leaf page other than the root is a node of level 1 whose children, the first
one listed with some key below the node's keys, have strictly ascending keys, satisfy
`SepAt` and are not among the pages `live`. -/
def OrphansSep (p : Params) (file : List Page) (chain : List (Nat × List RIDKeyPair))
    (root : Nat) (live : List Nat) : Prop :=
  ∀ pid node, readNonLeaf file pid = .ok node → pid ≠ root →
    ∃ k0 cs, node.level = 1 ∧ NodeHolds p node k0.pageNo cs ∧ SepAt chain (k0 :: cs) ∧
      ((k0 :: cs).map (fun c => c.key)).Sorted (fun a b => a < b) ∧
      ∀ c ∈ k0 :: cs, c.pageNo ∉ live

/-- The invariant of an index into which entries `ins` with pairwise distinct keys were
inserted: the leaf chain, the root with its pairs `cs`, page 2 listed with a bound `b`
below all keys, and the other non-leaf pages. -/
def SepInv (p : Params) (s : BTreeIndex) (ins : List (Int × RecordId)) : Prop :=
  ∃ chain b cs,
    LeafInv p s.file chain ins ∧
    RootAt p s.file s.metaInfo.rootPageNo chain cs ∧
    SepAt chain (⟨2, b⟩ :: cs) ∧
    ((PageKeyPair.mk 2 b :: cs).map (fun c => c.key)).Sorted (fun a b => a < b) ∧
    (∀ c ∈ cs, c.key ≠ invalidKey) ∧
    (∀ c ∈ cs, ∃ e ∈ ins, e.1 = c.key) ∧
    OrphansSep p s.file chain s.metaInfo.rootPageNo (2 :: cs.map (fun c => c.pageNo))

/-! ## `padStr` -/

/-- The constant `STRINGSIZE`. -/
def STRINGSIZE : Nat := 10

/-- The first loop of `padStr`,
`for (; i < str.length() && i < STRINGSIZE; i++) newStr += str[i];`, from the state
`(i, newStr)`; it runs at most `fuel` times. -/
def padStrCopy (str : List Char) : Nat → Nat → List Char → Nat × List Char
  | 0, i, newStr => (i, newStr)
  | fuel + 1, i, newStr =>
    if i < str.length ∧ i < STRINGSIZE then
      padStrCopy str fuel (i + 1) (newStr ++ [str.getD i (Char.ofNat 0)])
    else (i, newStr)

/-- The second loop of `padStr`, `for (; i < STRINGSIZE; i++) newStr += '\0';`. -/
def padStrFill : Nat → Nat → List Char → List Char
  | 0, _, newStr => newStr
  | fuel + 1, i, newStr =>
    if i < STRINGSIZE then padStrFill fuel (i + 1) (newStr ++ [Char.ofNat 0]) else newStr

/-- The function `padStr`: both loops advance `i` from `0` to at most `STRINGSIZE`, so
`STRINGSIZE` iterations are enough for each. -/
def padStr (str : List Char) : List Char :=
  let r := padStrCopy str STRINGSIZE 0 []
  padStrFill STRINGSIZE r.1 r.2

/-! ## Array sizes and node layout -/

/-- The sizes the array size constants are computed from; they come from headers and
the platform, not from the two source files. `Page::SIZE`, `sizeof(int)`,
`sizeof(PageId)`, `sizeof(double)`, `sizeof(char)`, `sizeof(RecordId)` and the alignment
of `RecordId`; the other types are aligned to their size. -/
structure TypeSizes where
  pageSize : Nat
  sizeInt : Nat
  sizePageId : Nat
  sizeDouble : Nat
  sizeChar : Nat
  sizeRecordId : Nat
  alignRecordId : Nat

/-- The sizes of a 32-bit page layout: 8192-byte pages, 4-byte `int` and
`PageId`, 8-byte `double`, 1-byte `char`, 8-byte `RecordId` aligned to 4. -/
def stdSizes : TypeSizes :=
  { pageSize := 8192, sizeInt := 4, sizePageId := 4, sizeDouble := 8, sizeChar := 1,
    sizeRecordId := 8, alignRecordId := 4 }

/-- The constant `INTARRAYLEAFSIZE`. -/
def INTARRAYLEAFSIZE (t : TypeSizes) : Nat :=
  (t.pageSize - t.sizePageId) / (t.sizeInt + t.sizeRecordId)

/-- The constant `DOUBLEARRAYLEAFSIZE`. -/
def DOUBLEARRAYLEAFSIZE (t : TypeSizes) : Nat :=
  (t.pageSize - t.sizePageId) / (t.sizeDouble + t.sizeRecordId)

/-- The constant `STRINGARRAYLEAFSIZE`. -/
def STRINGARRAYLEAFSIZE (t : TypeSizes) : Nat :=
  (t.pageSize - t.sizePageId) / (10 * t.sizeChar + t.sizeRecordId)

/-- The constant `INTARRAYNONLEAFSIZE`. -/
def INTARRAYNONLEAFSIZE (t : TypeSizes) : Nat :=
  (t.pageSize - t.sizeInt - t.sizePageId) / (t.sizeInt + t.sizePageId)

/-- The constant `DOUBLEARRAYNONLEAFSIZE`. -/
def DOUBLEARRAYNONLEAFSIZE (t : TypeSizes) : Nat :=
  (t.pageSize - t.sizeInt - t.sizePageId) / (t.sizeDouble + t.sizePageId) - 1

/-- The constant `STRINGARRAYNONLEAFSIZE`. -/
def STRINGARRAYNONLEAFSIZE (t : TypeSizes) : Nat :=
  (t.pageSize - t.sizeInt - t.sizePageId) / (10 * t.sizeChar + t.sizePageId)

/-- A data member of a structure: element size, alignment, number of elements. -/
structure Member where
  size : Nat
  align : Nat
  count : Nat

/-- The least multiple of `a` that is at least `off`. -/
def alignUp (off a : Nat) : Nat :=
  (off + a - 1) / a * a

/-- The offset behind the members when each is placed at the next multiple of its
alignment. -/
def membersEnd : Nat → List Member → Nat
  | off, [] => off
  | off, m :: ms => membersEnd (alignUp off m.align + m.size * m.count) ms

/-- The size of a structure with the given members in declaration order: each member at
its alignment, the whole rounded up to the largest alignment. -/
def structSize (ms : List Member) : Nat :=
  alignUp (membersEnd 0 ms) ((ms.map (fun m => m.align)).foldl max 1)

/-- The data members of `LeafNodeInt`: `keyArray`, `ridArray`, `rightSibPageNo`. -/
def leafNodeInt (t : TypeSizes) : List Member :=
  [⟨t.sizeInt, t.sizeInt, INTARRAYLEAFSIZE t⟩,
   ⟨t.sizeRecordId, t.alignRecordId, INTARRAYLEAFSIZE t⟩,
   ⟨t.sizePageId, t.sizePageId, 1⟩]

/-- The data members of `LeafNodeDouble`. -/
def leafNodeDouble (t : TypeSizes) : List Member :=
  [⟨t.sizeDouble, t.sizeDouble, DOUBLEARRAYLEAFSIZE t⟩,
   ⟨t.sizeRecordId, t.alignRecordId, DOUBLEARRAYLEAFSIZE t⟩,
   ⟨t.sizePageId, t.sizePageId, 1⟩]

/-- The data members of `LeafNodeString`; a key is `STRINGSIZE` characters. -/
def leafNodeString (t : TypeSizes) : List Member :=
  [⟨t.sizeChar, t.sizeChar, STRINGARRAYLEAFSIZE t * STRINGSIZE⟩,
   ⟨t.sizeRecordId, t.alignRecordId, STRINGARRAYLEAFSIZE t⟩,
   ⟨t.sizePageId, t.sizePageId, 1⟩]

/-- The data members of `NonLeafNodeInt`: `level`, `keyArray`, `pageNoArray`. -/
def nonLeafNodeInt (t : TypeSizes) : List Member :=
  [⟨t.sizeInt, t.sizeInt, 1⟩,
   ⟨t.sizeInt, t.sizeInt, INTARRAYNONLEAFSIZE t⟩,
   ⟨t.sizePageId, t.sizePageId, INTARRAYNONLEAFSIZE t + 1⟩]

/-- The data members of `NonLeafNodeDouble` with `n` key slots
(`n` is `DOUBLEARRAYNONLEAFSIZE` in the source). -/
def nonLeafNodeDouble (t : TypeSizes) (n : Nat) : List Member :=
  [⟨t.sizeInt, t.sizeInt, 1⟩,
   ⟨t.sizeDouble, t.sizeDouble, n⟩,
   ⟨t.sizePageId, t.sizePageId, n + 1⟩]

/-- The data members of `NonLeafNodeString`. -/
def nonLeafNodeString (t : TypeSizes) : List Member :=
  [⟨t.sizeInt, t.sizeInt, 1⟩,
   ⟨t.sizeChar, t.sizeChar, STRINGARRAYNONLEAFSIZE t * STRINGSIZE⟩,
   ⟨t.sizePageId, t.sizePageId, STRINGARRAYNONLEAFSIZE t + 1⟩]

/-! ## An index for the examples -/

/-- The index with two-slot leaves that holds the keys 1 and 2: page 2 is a full leaf
and the root. -/
def fullLeafIndex : BTreeIndex :=
  { idleScan with
    file := [Page.metaInfo ⟨[], 0, Datatype.INTEGER, 2⟩,
      Page.leaf ⟨[1, 2], [ridOf 1, ridOf 2], 0⟩]
    metaInfo := ⟨[], 0, Datatype.INTEGER, 2⟩ }

/-- The index with two-slot leaves that holds the keys 1, 2, 3 (leaves `1 | 2 3`, root
page 4), in the scan `startScan(1, GTE, 1, LTE)` after the first `scanNext`. -/
def scanInProgress : BTreeIndex :=
  { file := [Page.metaInfo ⟨[], 0, Datatype.INTEGER, 4⟩,
      Page.leaf ⟨[1, -1], [ridOf 1, ridOf 2], 3⟩,
      Page.leaf ⟨[2, 3], [ridOf 2, ridOf 3], 0⟩,
      Page.nonLeaf ⟨1, [2, -1], [2, 3, 0]⟩]
    metaInfo := ⟨[], 0, Datatype.INTEGER, 4⟩
    scanExecuting := true
    nextEntry := 1
    currentPageNum := 2
    lowValInt := 1
    highValInt := 1
    lowOp := Operator.GTE
    highOp := Operator.LTE }

/-- The index with 682-slot leaves after the inserts of the keys 3, -1 (the sentinel) and
7 with the record ids `(3,0)`, `(1,0)`, `(7,0)`: the one leaf holds key 7 in slot 0 and
the sentinel in every other key slot; record id slot 1 still has `(3,0)`. -/
def afterSentinelInsert : BTreeIndex :=
  { idleScan with
    file := [Page.metaInfo ⟨[], 0, Datatype.INTEGER, 2⟩,
      Page.leaf ⟨7 :: List.replicate 681 (-1),
        ridOf 7 :: ridOf 3 :: List.replicate 680 ⟨0, 0⟩, 0⟩]
    metaInfo := ⟨[], 0, Datatype.INTEGER, 2⟩ }

end BTree

/-! # Theorems -/

namespace BTree

/-! ## Lists and arrays -/

theorem getD_replicate_self {α : Type} (a : α) (n idx : Nat) :
    (List.replicate n a).getD idx a = a := by
  induction n generalizing idx with
  | zero => simp
  | succ n ih =>
    cases idx with
    | zero => simp [List.replicate_succ]
    | succ i => simp [List.replicate_succ]

theorem fresh_getKey (p : Params) (idx : Nat) : (LeafNode.fresh p).getKey idx = invalidKey := by
  unfold LeafNode.getKey LeafNode.fresh
  exact getD_replicate_self _ _ _

theorem fresh_search (p : Params) (key : Int) : (LeafNode.fresh p).search p key = 0 := by
  unfold LeafNode.search LeafNode.fresh
  cases h : p.leafSize with
  | zero => simp [searchKeys]
  | succ n => simp [List.replicate_succ, searchKeys]

theorem setFrom_eq {α : Type} (vs : List α) :
    ∀ (l : List α) (idx : Nat), idx + vs.length ≤ l.length →
      setFrom l idx vs = l.take idx ++ vs ++ l.drop (idx + vs.length) := by
  induction vs with
  | nil => intro l idx _; simp [setFrom]
  | cons v vs ih =>
    intro l idx hlen
    simp only [setFrom, List.length_cons] at hlen ⊢
    rw [ih _ _ (by simp; omega)]
    have hidx : idx < l.length := by omega
    rw [List.set_eq_take_append_cons_drop, if_pos hidx]
    have h1 : (List.take idx l ++ v :: List.drop (idx + 1) l).take (idx + 1)
        = List.take idx l ++ [v] := by
      rw [List.take_append_eq_append_take]
      simp [List.length_take, Nat.min_eq_left (Nat.le_of_lt hidx)]
    have h2 : (List.take idx l ++ v :: List.drop (idx + 1) l).drop
        (idx + 1 + vs.length) = List.drop (idx + (vs.length + 1)) l := by
      rw [List.drop_append_eq_append_drop]
      simp [List.length_take, Nat.min_eq_left (Nat.le_of_lt hidx)]
      have : idx + 1 + vs.length - idx = (vs.length) + 1 := by omega
      rw [List.drop_eq_nil_of_le (by simp; omega), this]
      simp [List.drop_drop]
      congr 1
      omega
    rw [h1, h2]
    simp

theorem setFrom_length {α : Type} (vs : List α) :
    ∀ (l : List α) (idx : Nat), (setFrom l idx vs).length = l.length := by
  induction vs with
  | nil => intro l idx; rfl
  | cons v vs ih => intro l idx; simp [setFrom, ih]

theorem leafStore_eq (es : List RIDKeyPair) :
    ∀ (n : LeafNode) (idx : Nat),
      n.store idx es =
        { keyArray := setFrom n.keyArray idx (es.map (fun e => e.key))
          ridArray := setFrom n.ridArray idx (es.map (fun e => e.rid))
          rightSibPageNo := n.rightSibPageNo } := by
  induction es with
  | nil => intro n idx; rfl
  | cons e es ih =>
    intro n idx
    simp only [LeafNode.store, List.map_cons, setFrom]
    rw [ih]

theorem NonleafStore_eq (cs : List PageKeyPair) :
    ∀ (n : NonLeafNode) (idx : Nat),
      n.store idx cs =
        { level := n.level
          keyArray := setFrom n.keyArray idx (cs.map (fun c => c.key))
          pageNoArray := setFrom n.pageNoArray (idx + 1) (cs.map (fun c => c.pageNo)) } := by
  induction cs with
  | nil => intro n idx; rfl
  | cons c cs ih =>
    intro n idx
    simp only [NonLeafNode.store, List.map_cons, setFrom]
    rw [ih]

theorem occupiedEntries_sentinels (m : Nat) (rs : List RecordId) :
    occupiedEntries (List.replicate m invalidKey) rs = [] := by
  cases m with
  | zero => simp [occupiedEntries]
  | succ m =>
    cases rs with
    | nil => simp [occupiedEntries, List.replicate_succ]
    | cons r rs => simp [occupiedEntries, List.replicate_succ]

theorem occupiedEntries_holds (es : List RIDKeyPair) (m : Nat) (rest : List RecordId)
    (hkeys : ∀ e ∈ es, e.key ≠ invalidKey) :
    occupiedEntries (es.map (fun e => e.key) ++ List.replicate m invalidKey)
      (es.map (fun e => e.rid) ++ rest) = es := by
  induction es with
  | nil => simpa using occupiedEntries_sentinels m rest
  | cons e es ih =>
    have h1 : e.key ≠ invalidKey := hkeys e (List.mem_cons_self _ _)
    have h2 : ∀ x ∈ es, x.key ≠ invalidKey := fun x hx => hkeys x (List.mem_cons_of_mem _ hx)
    have h3 := ih h2
    simp [occupiedEntries, h1, h3]

theorem LeafHolds.entries_eq {p : Params} {n : LeafNode} {es : List RIDKeyPair}
    (h : LeafHolds p n es) : n.entries = es := by
  obtain ⟨_, hkeys, hk, rest, hr, _⟩ := h
  unfold LeafNode.entries
  rw [hk, hr]
  exact occupiedEntries_holds es _ rest hkeys

/-- Storing `es` from slot `0` into a leaf whose keys were just cleared. -/
theorem leafHolds_store {p : Params} {n : LeafNode} {es : List RIDKeyPair}
    (hk : n.keyArray = List.replicate p.leafSize invalidKey)
    (hr : n.ridArray.length = p.leafSize)
    (hlen : es.length ≤ p.leafSize) (hkeys : ∀ e ∈ es, e.key ≠ invalidKey) :
    LeafHolds p (n.store 0 es) es := by
  refine ⟨hlen, hkeys, ?_, ?_⟩
  · rw [leafStore_eq]
    simp only
    rw [setFrom_eq _ _ _ (by simp [hk]; omega), hk]
    simp
  · rw [leafStore_eq]
    simp only
    rw [setFrom_eq _ _ _ (by simp [hr]; omega)]
    refine ⟨n.ridArray.drop es.length, by simp, by simp [hr]⟩

theorem leafHolds_fresh (p : Params) : LeafHolds p (LeafNode.fresh p) [] := by
  refine ⟨by simp, by simp, by simp [LeafNode.fresh], ?_⟩
  exact ⟨List.replicate p.leafSize ⟨0, 0⟩, by simp [LeafNode.fresh], by simp⟩

theorem LeafHolds.ridArray_length {p : Params} {n : LeafNode} {es : List RIDKeyPair}
    (h : LeafHolds p n es) : n.ridArray.length = p.leafSize := by
  obtain ⟨hlen, _, _, rest, hr, hrest⟩ := h
  rw [hr]
  simp [hrest]
  omega

theorem sortRIDKeyPairs_perm (l : List RIDKeyPair) : List.Perm (sortRIDKeyPairs l) l :=
  List.perm_insertionSort _ l

theorem sortPageKeyPairs_perm (l : List PageKeyPair) : List.Perm (sortPageKeyPairs l) l :=
  List.perm_insertionSort _ l

/-- The method `isFull` on a leaf that holds `es`: true exactly when every slot is taken. -/
theorem LeafHolds.isFull_iff_length {p : Params} {n : LeafNode} {es : List RIDKeyPair}
    (h : LeafHolds p n es) (hsize : 0 < p.leafSize) :
    n.isFull p = true ↔ es.length = p.leafSize := by
  obtain ⟨hlen, hkeys, hk, _⟩ := h
  unfold LeafNode.isFull LeafNode.getKey
  rw [hk]
  simp only [decide_eq_true_eq]
  constructor
  · intro hne
    by_contra hlt
    apply hne
    have hlt' : es.length < p.leafSize := by omega
    rw [List.getD_append_right _ _ _ _ (by simp; omega)]
    exact getD_replicate_self _ _ _
  · intro heq
    rw [heq]
    simp only [Nat.sub_self, List.replicate_zero, List.append_nil]
    have hidx : p.leafSize - 1 < (es.map (fun e => e.key)).length := by simp; omega
    rw [List.getD_eq_getElem _ _ hidx]
    simp only [List.getElem_map]
    exact hkeys _ (List.getElem_mem _)

/-! ## Leaf insert and leaf split on a well-formed leaf -/

theorem LeafHolds.insert_holds {p : Params} {n : LeafNode} {es : List RIDKeyPair}
    (h : LeafHolds p n es) (hroom : es.length < p.leafSize) (pair : RIDKeyPair)
    (hkey : pair.key ≠ invalidKey) :
    LeafHolds p (n.insert p pair) (sortRIDKeyPairs (pair :: es)) ∧
      (n.insert p pair).rightSibPageNo = n.rightSibPageNo := by
  have hperm := sortRIDKeyPairs_perm (pair :: es)
  unfold LeafNode.insert
  rw [h.entries_eq]
  refine ⟨leafHolds_store rfl ?_ ?_ ?_, ?_⟩
  · exact h.ridArray_length
  · rw [hperm.length_eq]
    simp
    omega
  · intro e he
    rcases List.mem_cons.1 (hperm.mem_iff.1 he) with h1 | h1
    · rw [h1]; exact hkey
    · exact h.2.1 e h1
  · simp only [leafStore_eq]
    rfl

theorem LeafHolds.split {p : Params} {n : LeafNode} {es : List RIDKeyPair}
    (h : LeafHolds p n es) (hfull : es.length = p.leafSize) (hsize : 2 ≤ p.leafSize)
    (pair : RIDKeyPair) (hkey : pair.key ≠ invalidKey) (rightPID : Nat) :
    LeafHolds p (n.split p pair rightPID).1
        ((sortRIDKeyPairs (pair :: es)).take (p.leafSize / 2)) ∧
      LeafHolds p (n.split p pair rightPID).2.1
        ((sortRIDKeyPairs (pair :: es)).drop (p.leafSize / 2)) ∧
      (n.split p pair rightPID).1.rightSibPageNo = rightPID ∧
      (n.split p pair rightPID).2.1.rightSibPageNo = n.rightSibPageNo ∧
      (n.split p pair rightPID).2.2.pageNo = rightPID ∧
      (∃ e ∈ pair :: es, (n.split p pair rightPID).2.2.key = e.key) ∧
      (sortRIDKeyPairs (pair :: es)).take (p.leafSize / 2) ≠ [] ∧
      (sortRIDKeyPairs (pair :: es)).drop (p.leafSize / 2) ≠ [] := by
  have hperm := sortRIDKeyPairs_perm (pair :: es)
  have hlen : (sortRIDKeyPairs (pair :: es)).length = p.leafSize + 1 := by
    rw [hperm.length_eq]; simp [hfull]
  have hhalf1 : 1 ≤ p.leafSize / 2 := by omega
  have hhalf2 : p.leafSize / 2 < p.leafSize := by omega
  have hvalid : ∀ e ∈ sortRIDKeyPairs (pair :: es), e.key ≠ invalidKey := by
    intro e he
    rcases List.mem_cons.1 (hperm.mem_iff.1 he) with h1 | h1
    · rw [h1]; exact hkey
    · exact h.2.1 e h1
  have hdrop : ((sortRIDKeyPairs (pair :: es)).drop (p.leafSize / 2)).take
      (p.leafSize + 1 - p.leafSize / 2) = (sortRIDKeyPairs (pair :: es)).drop (p.leafSize / 2) := by
    apply List.take_of_length_le
    simp [hlen]
  unfold LeafNode.split
  rw [h.entries_eq]
  dsimp only
  rw [hdrop]
  refine ⟨?_, ?_, rfl, rfl, rfl, ?_, ?_, ?_⟩
  · have h1 : LeafHolds p ((n.clear p).store 0 ((sortRIDKeyPairs (pair :: es)).take
        (p.leafSize / 2))) ((sortRIDKeyPairs (pair :: es)).take (p.leafSize / 2)) := by
      refine leafHolds_store rfl h.ridArray_length ?_ ?_
      · simp [hlen]; omega
      · intro e he
        exact hvalid e (List.mem_of_mem_take he)
    exact h1
  · have h1 : LeafHolds p ((LeafNode.fresh p).store 0 ((sortRIDKeyPairs (pair :: es)).drop
        (p.leafSize / 2))) ((sortRIDKeyPairs (pair :: es)).drop (p.leafSize / 2)) := by
      refine leafHolds_store rfl (by simp [LeafNode.fresh]) ?_ ?_
      · simp [hlen]; omega
      · intro e he
        exact hvalid e (List.mem_of_mem_drop he)
    exact h1
  · have hidx : p.leafSize / 2 < (sortRIDKeyPairs (pair :: es)).length := by omega
    refine ⟨(sortRIDKeyPairs (pair :: es))[p.leafSize / 2], ?_, ?_⟩
    · exact hperm.mem_iff.1 (List.getElem_mem _)
    · rw [List.getD_eq_getElem _ _ hidx]
  · intro hnil
    have := congrArg List.length hnil
    simp [hlen] at this
    omega
  · intro hnil
    have := congrArg List.length hnil
    simp [hlen] at this
    omega

/-! ## Non-leaf insert, split and search on a well-formed node -/

theorem occupiedChildren_sentinels (m : Nat) (cs : List Nat) :
    occupiedChildren (List.replicate m invalidKey) cs = [] := by
  cases m with
  | zero => simp [occupiedChildren]
  | succ m =>
    cases cs with
    | nil => simp [occupiedChildren, List.replicate_succ]
    | cons c cs => simp [occupiedChildren, List.replicate_succ]

theorem occupiedChildren_holds (cs : List PageKeyPair) (m : Nat) (rest : List Nat)
    (hkeys : ∀ c ∈ cs, c.key ≠ invalidKey) :
    occupiedChildren (cs.map (fun c => c.key) ++ List.replicate m invalidKey)
      (cs.map (fun c => c.pageNo) ++ rest) = cs := by
  induction cs with
  | nil => simpa using occupiedChildren_sentinels m rest
  | cons c cs ih =>
    have h1 : c.key ≠ invalidKey := hkeys c (List.mem_cons_self _ _)
    have h2 : ∀ x ∈ cs, x.key ≠ invalidKey := fun x hx => hkeys x (List.mem_cons_of_mem _ hx)
    have h3 := ih h2
    simp [occupiedChildren, h1, h3]

theorem allChildren_holds (cs : List PageKeyPair) :
    allChildren (cs.map (fun c => c.key)) (cs.map (fun c => c.pageNo)) = cs := by
  induction cs with
  | nil => rfl
  | cons c cs ih => simp [allChildren, ih]

theorem NodeHolds.keyArray_length {p : Params} {n : NonLeafNode} {first : Nat}
    {cs : List PageKeyPair} (h : NodeHolds p n first cs) :
    n.keyArray.length = p.nonLeafSize := by
  obtain ⟨hlen, _, hk, _⟩ := h
  rw [hk]
  simp
  omega

theorem NodeHolds.pageNoArray_length {p : Params} {n : NonLeafNode} {first : Nat}
    {cs : List PageKeyPair} (h : NodeHolds p n first cs) :
    n.pageNoArray.length = p.nonLeafSize + 1 := by
  obtain ⟨hlen, _, _, rest, hr, hrest⟩ := h
  rw [hr]
  simp [hrest]
  omega

theorem NodeHolds.getPageNo_zero {p : Params} {n : NonLeafNode} {first : Nat}
    {cs : List PageKeyPair} (h : NodeHolds p n first cs) : n.getPageNo 0 = first := by
  obtain ⟨_, _, _, rest, hr, _⟩ := h
  unfold NonLeafNode.getPageNo
  rw [hr]
  rfl

theorem NodeHolds.occupied_eq {p : Params} {n : NonLeafNode} {first : Nat}
    {cs : List PageKeyPair} (h : NodeHolds p n first cs) :
    occupiedChildren (n.keyArray.take p.nonLeafSize) (n.pageNoArray.drop 1) = cs := by
  have hlen := h.keyArray_length
  obtain ⟨_, hkeys, hk, rest, hr, _⟩ := h
  rw [List.take_of_length_le (by omega), hk, hr]
  simpa using occupiedChildren_holds cs _ rest hkeys

theorem NodeHolds.all_eq {p : Params} {n : NonLeafNode} {first : Nat}
    {cs : List PageKeyPair} (h : NodeHolds p n first cs) (hfull : cs.length = p.nonLeafSize) :
    allChildren (n.keyArray.take p.nonLeafSize) (n.pageNoArray.drop 1) = cs := by
  have hlen := h.keyArray_length
  obtain ⟨_, hkeys, hk, rest, hr, hrest⟩ := h
  have hnil : rest = [] := by
    apply List.eq_nil_of_length_eq_zero
    omega
  rw [List.take_of_length_le (by omega), hk, hr, hnil, hfull]
  simpa using allChildren_holds cs

/-- Storing `cs` from slot `0` into a node whose keys were just cleared and whose page
number slot `0` is `first`. -/
theorem nodeHolds_store {p : Params} {n : NonLeafNode} {first : Nat} {junk : List Nat}
    (cs : List PageKeyPair)
    (hk : n.keyArray = List.replicate p.nonLeafSize invalidKey)
    (hp : n.pageNoArray = first :: junk) (hjunk : junk.length = p.nonLeafSize)
    (hlen : cs.length ≤ p.nonLeafSize) (hkeys : ∀ c ∈ cs, c.key ≠ invalidKey) :
    NodeHolds p (n.store 0 cs) first cs ∧ (n.store 0 cs).level = n.level := by
  refine ⟨⟨hlen, hkeys, ?_, ?_⟩, ?_⟩
  · rw [NonleafStore_eq]
    simp only
    rw [setFrom_eq _ _ _ (by simp [hk]; omega), hk]
    simp
  · rw [NonleafStore_eq]
    simp only
    rw [setFrom_eq _ _ _ (by simp [hp, hjunk]; omega), hp]
    refine ⟨junk.drop cs.length, ?_, by simp [hjunk]⟩
    simp [Nat.add_comm 1 cs.length]
  · rw [NonleafStore_eq]

/-- The node after `clear` and `setPageNo(0, first)`. -/
theorem clear_setPageNo {p : Params} (n : NonLeafNode) (first : Nat)
    (hlen : n.pageNoArray.length = p.nonLeafSize + 1) (hsize : 1 ≤ p.nonLeafSize) :
    ((n.clear p).setPageNo 0 first).keyArray = List.replicate p.nonLeafSize invalidKey ∧
    (∃ junk, ((n.clear p).setPageNo 0 first).pageNoArray = first :: junk ∧
      junk.length = p.nonLeafSize) ∧
    ((n.clear p).setPageNo 0 first).level = n.level := by
  refine ⟨rfl, ?_, rfl⟩
  unfold NonLeafNode.clear NonLeafNode.setPageNo
  simp only
  obtain ⟨m, hm⟩ : ∃ m, p.nonLeafSize = m + 1 := ⟨p.nonLeafSize - 1, by omega⟩
  rw [hm, List.replicate_succ]
  refine ⟨List.replicate m 0 ++ List.drop (m + 1) n.pageNoArray, by simp, ?_⟩
  simp [hlen, hm]

theorem NodeHolds.insert_node {p : Params} {n : NonLeafNode} {first : Nat}
    {cs : List PageKeyPair} (h : NodeHolds p n first cs) (hroom : cs.length < p.nonLeafSize)
    (pk : PageKeyPair) (hkey : pk.key ≠ invalidKey) :
    NodeHolds p (n.insert p pk) first (sortPageKeyPairs (pk :: cs)) ∧
      (n.insert p pk).level = n.level := by
  have hperm := sortPageKeyPairs_perm (pk :: cs)
  obtain ⟨hk, ⟨junk, hp, hjunk⟩, hlev⟩ :=
    clear_setPageNo (p := p) n first h.pageNoArray_length (by omega)
  unfold NonLeafNode.insert
  rw [h.occupied_eq, h.getPageNo_zero]
  dsimp only
  have hst := nodeHolds_store (sortPageKeyPairs (pk :: cs)) hk hp hjunk
    (by rw [hperm.length_eq]; simp; omega)
    (by
      intro c hc
      rcases List.mem_cons.1 (hperm.mem_iff.1 hc) with h1 | h1
      · rw [h1]; exact hkey
      · exact h.2.1 c h1)
  exact ⟨hst.1, by rw [hst.2, hlev]⟩

theorem NodeHolds.split_left {p : Params} {n : NonLeafNode} {first : Nat}
    {cs : List PageKeyPair} (h : NodeHolds p n first cs) (hfull : cs.length = p.nonLeafSize)
    (hsize : 1 ≤ p.nonLeafSize) (pk : PageKeyPair) (hkey : pk.key ≠ invalidKey)
    (rightPID : Nat) :
    NodeHolds p (n.split p pk rightPID).1 first
        ((sortPageKeyPairs (pk :: cs)).take (p.nonLeafSize / 2)) ∧
      (n.split p pk rightPID).1.level = n.level := by
  have hperm := sortPageKeyPairs_perm (pk :: cs)
  obtain ⟨hk, ⟨junk, hp, hjunk⟩, hlev⟩ :=
    clear_setPageNo (p := p) n first h.pageNoArray_length hsize
  unfold NonLeafNode.split
  dsimp only
  rw [h.all_eq hfull, h.getPageNo_zero]
  have hst := nodeHolds_store
    ((sortPageKeyPairs (pk :: cs)).take (p.nonLeafSize / 2)) hk hp hjunk
    (by simp; omega)
    (by
      intro c hc
      rcases List.mem_cons.1 (hperm.mem_iff.1 (List.mem_of_mem_take hc)) with h1 | h1
      · rw [h1]; exact hkey
      · exact h.2.1 c h1)
  exact ⟨hst.1, by rw [hst.2, hlev]⟩

theorem NodeHolds.isFull_iff_count {p : Params} {n : NonLeafNode} {first : Nat}
    {cs : List PageKeyPair} (h : NodeHolds p n first cs) (hsize : 0 < p.nonLeafSize) :
    n.isFull p = true ↔ cs.length = p.nonLeafSize := by
  obtain ⟨hlen, hkeys, hk, _⟩ := h
  unfold NonLeafNode.isFull NonLeafNode.getKey
  rw [hk]
  simp only [decide_eq_true_eq]
  constructor
  · intro hne
    by_contra hlt
    apply hne
    rw [List.getD_append_right _ _ _ _ (by simp; omega)]
    exact getD_replicate_self _ _ _
  · intro heq
    rw [heq]
    simp only [Nat.sub_self, List.replicate_zero, List.append_nil]
    have hidx : p.nonLeafSize - 1 < (cs.map (fun c => c.key)).length := by simp; omega
    rw [List.getD_eq_getElem _ _ hidx]
    simp only [List.getElem_map]
    exact hkeys _ (List.getElem_mem _)

theorem searchKeys_le (key : Int) (ks : List Int) (m : Nat) :
    searchKeys key (ks ++ List.replicate m invalidKey) ≤ ks.length := by
  induction ks with
  | nil =>
    cases m with
    | zero => simp [searchKeys]
    | succ m => simp [searchKeys, List.replicate_succ]
  | cons k ks ih =>
    have h1 : searchKeys key (k :: (ks ++ List.replicate m invalidKey))
        ≤ searchKeys key (ks ++ List.replicate m invalidKey) + 1 := by
      simp only [searchKeys]
      split <;> omega
    simp only [List.cons_append, List.length_cons]
    omega

/-- The page `search` returns on a well-formed node is its slot `0` page or one of the
pages of its pairs. -/
theorem NodeHolds.search_mem {p : Params} {n : NonLeafNode} {first : Nat}
    {cs : List PageKeyPair} (h : NodeHolds p n first cs) (key : Int) :
    n.search p key = first ∨ n.search p key ∈ cs.map (fun c => c.pageNo) := by
  have hlen := h.keyArray_length
  obtain ⟨_, hkeys, hk, rest, hr, hrest⟩ := h
  unfold NonLeafNode.search NonLeafNode.getPageNo
  rw [List.take_of_length_le (by omega), hk, hr]
  have hle := searchKeys_le key (cs.map (fun c => c.key)) (p.nonLeafSize - cs.length)
  simp only [List.length_map] at hle
  generalize searchKeys key (cs.map (fun c => c.key) ++
    List.replicate (p.nonLeafSize - cs.length) invalidKey) = j at hle
  cases j with
  | zero => exact Or.inl rfl
  | succ j =>
    right
    have hj : j < (cs.map (fun c => c.pageNo)).length := by simp; omega
    simp only [List.getD_cons_succ]
    rw [List.getD_append _ _ _ _ hj, List.getD_eq_getElem _ _ hj]
    exact List.getElem_mem _

/-- A key below every key of the node is sent to the page of slot `0`. -/
theorem NodeHolds.search_low {p : Params} {n : NonLeafNode} {first : Nat}
    {cs : List PageKeyPair} (h : NodeHolds p n first cs) (key : Int)
    (hlow : ∀ c ∈ cs, key < c.key) : n.search p key = first := by
  have hlen := h.keyArray_length
  obtain ⟨_, hkeys, hk, rest, hr, hrest⟩ := h
  unfold NonLeafNode.search NonLeafNode.getPageNo
  rw [List.take_of_length_le (by omega), hk, hr]
  have hzero : searchKeys key (cs.map (fun c => c.key) ++
      List.replicate (p.nonLeafSize - cs.length) invalidKey) = 0 := by
    cases cs with
    | nil =>
      cases p.nonLeafSize - ([] : List PageKeyPair).length with
      | zero => simp [searchKeys]
      | succ m => simp [searchKeys, List.replicate_succ]
    | cons c cs =>
      have := hlow c (List.mem_cons_self _ _)
      simp only [List.map_cons, List.cons_append, searchKeys]
      rw [if_neg (by omega)]
  rw [hzero]
  rfl

/-! ## The paged file: reads after writes -/

theorem length_writePage (file : List Page) (pid : Nat) (pg : Page) :
    (writePage file pid pg).length = file.length := by
  simp [writePage]

theorem readPage_writePage_same {file : List Page} {pid : Nat} (pg : Page)
    (h0 : pid ≠ 0) (hle : pid ≤ file.length) :
    readPage (writePage file pid pg) pid = some pg := by
  unfold readPage writePage
  rw [if_neg h0]
  simp [List.getElem?_set]
  omega

theorem readPage_writePage_ne {file : List Page} {pid q : Nat} (pg : Page)
    (hq : q ≠ 0) (hne : pid ≠ q) :
    readPage (writePage file q pg) pid = readPage file pid := by
  unfold readPage writePage
  by_cases h0 : pid = 0
  · simp [h0]
  · rw [if_neg h0, if_neg h0]
    simp only [List.get?_eq_getElem?]
    rw [List.getElem?_set_ne]
    omega

theorem readPage_append {file : List Page} {pid : Nat} (ext : List Page)
    (hle : pid ≤ file.length) :
    readPage (file ++ ext) pid = readPage file pid := by
  unfold readPage
  by_cases h0 : pid = 0
  · simp [h0]
  · rw [if_neg h0, if_neg h0]
    simp only [List.get?_eq_getElem?]
    rw [List.getElem?_append_left (by omega)]

theorem readPage_some_le {file : List Page} {pid : Nat} {pg : Page}
    (h : readPage file pid = some pg) : pid ≠ 0 ∧ pid ≤ file.length := by
  unfold readPage at h
  by_cases h0 : pid = 0
  · simp [h0] at h
  · rw [if_neg h0] at h
    simp only [List.get?_eq_getElem?] at h
    have := (List.getElem?_eq_some_iff.1 h).1
    exact ⟨h0, by omega⟩

theorem readLeaf_ok_le {file : List Page} {pid : Nat} {n : LeafNode}
    (h : readLeaf file pid = .ok n) : pid ≠ 0 ∧ pid ≤ file.length := by
  unfold readLeaf at h
  split at h
  · simp at h
  · rename_i h1; exact readPage_some_le h1
  · simp at h

theorem readNonLeaf_ok_le {file : List Page} {pid : Nat} {n : NonLeafNode}
    (h : readNonLeaf file pid = .ok n) : pid ≠ 0 ∧ pid ≤ file.length := by
  unfold readNonLeaf at h
  split at h
  · simp at h
  · rename_i h1; exact readPage_some_le h1
  · simp at h

theorem readLeaf_writePage_same {file : List Page} {pid : Nat} (n : LeafNode)
    (h0 : pid ≠ 0) (hle : pid ≤ file.length) :
    readLeaf (writePage file pid (Page.leaf n)) pid = .ok n := by
  unfold readLeaf
  rw [readPage_writePage_same _ h0 hle]

theorem readNonLeaf_writePage_same {file : List Page} {pid : Nat} (n : NonLeafNode)
    (h0 : pid ≠ 0) (hle : pid ≤ file.length) :
    readNonLeaf (writePage file pid (Page.nonLeaf n)) pid = .ok n := by
  unfold readNonLeaf
  rw [readPage_writePage_same _ h0 hle]

theorem readLeaf_writePage_ne {file : List Page} {pid q : Nat} (pg : Page)
    (hq : q ≠ 0) (hne : pid ≠ q) :
    readLeaf (writePage file q pg) pid = readLeaf file pid := by
  unfold readLeaf
  rw [readPage_writePage_ne _ hq hne]

theorem readNonLeaf_writePage_ne {file : List Page} {pid q : Nat} (pg : Page)
    (hq : q ≠ 0) (hne : pid ≠ q) :
    readNonLeaf (writePage file q pg) pid = readNonLeaf file pid := by
  unfold readNonLeaf
  rw [readPage_writePage_ne _ hq hne]

theorem readLeaf_append {file : List Page} {pid : Nat} (ext : List Page)
    (hle : pid ≤ file.length) : readLeaf (file ++ ext) pid = readLeaf file pid := by
  unfold readLeaf
  rw [readPage_append _ hle]

theorem readNonLeaf_append {file : List Page} {pid : Nat} (ext : List Page)
    (hle : pid ≤ file.length) : readNonLeaf (file ++ ext) pid = readNonLeaf file pid := by
  unfold readNonLeaf
  rw [readPage_append _ hle]

/-! ## The leaf chain under writes -/

theorem Chain.congr {p : Params} {file file1 : List Page} :
    ∀ {chain : List (Nat × List RIDKeyPair)} {next : Nat},
      (∀ c ∈ chain, readLeaf file1 c.1 = readLeaf file c.1) →
      Chain p file chain next → Chain p file1 chain next := by
  intro chain
  induction chain with
  | nil => intro next _ _; trivial
  | cons c rest ih =>
    intro next hsame h
    obtain ⟨pid, es⟩ := c
    obtain ⟨n, hrd, hholds, hsib, hrest⟩ := h
    refine ⟨n, ?_, hholds, hsib, ih (fun c hc => hsame c (List.mem_cons_of_mem _ hc)) hrest⟩
    rw [hsame (pid, es) (List.mem_cons_self _ _)]
    exact hrd

theorem Chain.mem_le {p : Params} {file : List Page} :
    ∀ {chain : List (Nat × List RIDKeyPair)} {next : Nat},
      Chain p file chain next → ∀ c ∈ chain, c.1 ≠ 0 ∧ c.1 ≤ file.length := by
  intro chain
  induction chain with
  | nil => intro next _ c hc; simp at hc
  | cons c rest ih =>
    intro next h c1 hc1
    obtain ⟨pid, es⟩ := c
    obtain ⟨n, hrd, _, _, hrest⟩ := h
    rcases List.mem_cons.1 hc1 with h1 | h1
    · rw [h1]; exact readLeaf_ok_le hrd
    · exact ih hrest c1 h1

theorem firstOr_append (a b : List (Nat × List RIDKeyPair)) (next : Nat) :
    firstOr (a ++ b) next = firstOr a (firstOr b next) := by
  cases a with
  | nil => rfl
  | cons c a => obtain ⟨pid, es⟩ := c; rfl

theorem Chain.append {p : Params} {file : List Page} :
    ∀ {a b : List (Nat × List RIDKeyPair)} {next : Nat},
      Chain p file (a ++ b) next ↔ Chain p file a (firstOr b next) ∧ Chain p file b next := by
  intro a
  induction a with
  | nil => intro b next; simp [Chain]
  | cons c a ih =>
    intro b next
    obtain ⟨pid, es⟩ := c
    constructor
    · rintro ⟨n, hrd, hholds, hsib, hrest⟩
      exact ⟨⟨n, hrd, hholds, hsib.trans (firstOr_append a b next), (ih.1 hrest).1⟩,
        (ih.1 hrest).2⟩
    · rintro ⟨⟨n, hrd, hholds, hsib, hrest⟩, hb⟩
      exact ⟨n, hrd, hholds, hsib.trans (firstOr_append a b next).symm, ih.2 ⟨hrest, hb⟩⟩

/-- A write to a page outside the chain leaves the chain as it is. -/
theorem Chain.write_other {p : Params} {file : List Page}
    {chain : List (Nat × List RIDKeyPair)} {next : Nat} (q : Nat) (pg : Page)
    (hq : q ≠ 0) (hout : ∀ c ∈ chain, c.1 ≠ q) (h : Chain p file chain next) :
    Chain p (writePage file q pg) chain next :=
  Chain.congr (fun c hc => readLeaf_writePage_ne pg hq (hout c hc)) h

/-- New pages at the end of the file leave the chain as it is. -/
theorem Chain.append_file {p : Params} {file : List Page}
    {chain : List (Nat × List RIDKeyPair)} {next : Nat} (ext : List Page)
    (h : Chain p file chain next) : Chain p (file ++ ext) chain next :=
  Chain.congr (fun c hc => readLeaf_append ext (h.mem_le c hc).2) h

/-! ## One `insertEntry` on the leaves -/

theorem insertLeaf_room {p : Params} {file : List Page} {pid : Nat} {n : LeafNode}
    (key : Int) (rid : RecordId) (pk : PageKeyPair)
    (hrd : readLeaf file pid = .ok n) (hfull : n.isFull p = false) :
    insertLeaf p file key rid pid pk
      = .ok (writePage file pid (Page.leaf (n.insert p ⟨rid, key⟩)), false, pk) := by
  unfold insertLeaf
  rw [hrd]
  simp [hfull]

theorem insertLeaf_full {p : Params} {file : List Page} {pid : Nat} {n : LeafNode}
    (key : Int) (rid : RecordId) (pk : PageKeyPair)
    (hrd : readLeaf file pid = .ok n) (hfull : n.isFull p = true) :
    insertLeaf p file key rid pid pk
      = .ok (writePage
              (writePage (file ++ [Page.blank]) (file.length + 1)
                (Page.leaf (n.split p ⟨rid, key⟩ (file.length + 1)).2.1))
              pid (Page.leaf (n.split p ⟨rid, key⟩ (file.length + 1)).1),
            true, (n.split p ⟨rid, key⟩ (file.length + 1)).2.2) := by
  unfold insertLeaf
  rw [hrd]
  simp [hfull, allocatePage]

theorem insertNonLeaf_room {p : Params} {file : List Page} {pid : Nat} {n : NonLeafNode}
    (pk : PageKeyPair) (isAboveLeaf : Bool)
    (hrd : readNonLeaf file pid = .ok n)
    (hfull : NonLeafNode.isFull p { n with level := if isAboveLeaf then 1 else 0 } = false) :
    insertNonLeaf p file pid pk isAboveLeaf
      = .ok (writePage file pid (Page.nonLeaf
          (NonLeafNode.insert p { n with level := if isAboveLeaf then 1 else 0 } pk)),
        false, pk) := by
  unfold insertNonLeaf
  rw [hrd]
  simp [hfull]

theorem insertNonLeaf_full {p : Params} {file : List Page} {pid : Nat} {n : NonLeafNode}
    (pk : PageKeyPair) (isAboveLeaf : Bool)
    (hrd : readNonLeaf file pid = .ok n)
    (hfull : NonLeafNode.isFull p { n with level := if isAboveLeaf then 1 else 0 } = true) :
    insertNonLeaf p file pid pk isAboveLeaf
      = .ok (writePage
              (writePage (file ++ [Page.blank]) pid
                (Page.nonLeaf (NonLeafNode.split p
                  { n with level := if isAboveLeaf then 1 else 0 } pk (file.length + 1)).1))
              (file.length + 1)
              (Page.nonLeaf (NonLeafNode.split p
                { n with level := if isAboveLeaf then 1 else 0 } pk (file.length + 1)).2.1),
            false,
            (NonLeafNode.split p
              { n with level := if isAboveLeaf then 1 else 0 } pk (file.length + 1)).2.2) := by
  unfold insertNonLeaf
  rw [hrd]
  simp [hfull, allocatePage]

theorem firstOr_eq (chain : List (Nat × List RIDKeyPair)) (next : Nat) :
    firstOr chain next = (chain.map Prod.fst).headD next := by
  cases chain with
  | nil => rfl
  | cons c rest => obtain ⟨pid, es⟩ := c; rfl

theorem perm_insert_middle {α : Type} {a b l l1 target : List α} {x : α}
    (hsort : List.Perm l1 (x :: l)) (h : List.Perm (a ++ (l ++ b)) target) :
    List.Perm (a ++ (l1 ++ b)) (target ++ [x]) := by
  have h1 : List.Perm (a ++ (l1 ++ b)) (a ++ (x :: l ++ b)) :=
    List.Perm.append_left a (List.Perm.append_right b hsort)
  have h2 : List.Perm (a ++ (x :: l ++ b)) (x :: (a ++ (l ++ b))) := by
    simp
  have h3 : List.Perm (x :: (a ++ (l ++ b))) (x :: target) := List.Perm.cons x h
  exact ((h1.trans h2).trans h3).trans (List.perm_append_singleton x target).symm

/-- The leaf found for the key has room: the chain after `LeafNodeContainer::insert`. -/
theorem LeafInv.insert_room {p : Params} {file : List Page}
    {pre post : List (Nat × List RIDKeyPair)} {pid : Nat} {es : List RIDKeyPair}
    {ins : List (Int × RecordId)} {n : LeafNode}
    (h : LeafInv p file (pre ++ (pid, es) :: post) ins)
    (hrd : readLeaf file pid = .ok n) (hroom : es.length < p.leafSize)
    (e : Int × RecordId) (hkey : e.1 ≠ invalidKey) :
    LeafInv p (writePage file pid (Page.leaf (n.insert p (toPair e))))
      (pre ++ (pid, sortRIDKeyPairs (toPair e :: es)) :: post) (ins ++ [e]) := by
  obtain ⟨hfirst, hchain, hnodup, hne1, hlen, hnonempty, hperm⟩ := h
  have hparts := Chain.append.1 hchain
  obtain ⟨n1, hrd1, hholds, hsib, hpost⟩ := hparts.2
  have hn : n1 = n := by
    rw [hrd] at hrd1
    exact (Except.ok.inj hrd1).symm
  rw [hn] at hholds hsib
  have hpid := readLeaf_ok_le hrd
  have hins := hholds.insert_holds hroom (toPair e) hkey
  have hsort := sortRIDKeyPairs_perm (toPair e :: es)
  simp only [List.map_append, List.map_cons, List.nodup_append, List.nodup_cons] at hnodup
  have hpre_ne : ∀ c ∈ pre, c.1 ≠ pid := by
    intro c hc heq
    exact hnodup.2.2 (List.mem_map_of_mem Prod.fst hc) (by rw [heq]; simp)
  have hpost_ne : ∀ c ∈ post, c.1 ≠ pid := by
    intro c hc heq
    exact hnodup.2.1.1 (by rw [← heq]; exact List.mem_map_of_mem Prod.fst hc)
  refine ⟨?_, ?_, ?_, ?_, ?_, ?_, ?_⟩
  · rw [firstOr_eq] at hfirst ⊢
    cases pre with
    | nil => simpa using hfirst
    | cons c pre => simpa using hfirst
  · refine Chain.append.2 ⟨Chain.write_other pid _ hpid.1 hpre_ne hparts.1, ?_⟩
    exact ⟨_, readLeaf_writePage_same _ hpid.1 hpid.2, hins.1, hins.2.trans hsib,
      Chain.write_other pid _ hpid.1 hpost_ne hpost⟩
  · simpa [List.nodup_append] using hnodup
  · intro c hc
    simp only [List.mem_append, List.mem_cons] at hc
    rcases hc with hc | hc | hc
    · exact hne1 c (by simp [hc])
    · rw [hc]; exact hne1 (pid, es) (by simp)
    · exact hne1 c (by simp [hc])
  · simp only [length_writePage]
    simpa using hlen
  · intro c hc hnil
    simp only [List.mem_append, List.mem_cons] at hc
    rcases hc with hc | hc | hc
    · have := hnonempty c (by simp [hc]) hnil
      simp only [List.length_append, List.length_cons] at this ⊢
      exact this
    · exfalso
      rw [hc] at hnil
      have h0 : sortRIDKeyPairs (toPair e :: es) = [] := hnil
      have := hsort.length_eq
      rw [h0] at this
      simp at this
    · have := hnonempty c (by simp [hc]) hnil
      simp only [List.length_append, List.length_cons] at this ⊢
      exact this
  · simp only [List.map_append, List.map_cons, List.flatten_append, List.flatten_cons,
      List.map_nil] at hperm ⊢
    exact perm_insert_middle hsort hperm

/-- The leaf found for the key is full: the chain after `LeafNodeContainer::split`, with
the new leaf on the page allocated at the end of the file. -/
theorem LeafInv.insert_full {p : Params} {file : List Page}
    {pre post : List (Nat × List RIDKeyPair)} {pid : Nat} {es : List RIDKeyPair}
    {ins : List (Int × RecordId)} {n : LeafNode}
    (h : LeafInv p file (pre ++ (pid, es) :: post) ins)
    (hrd : readLeaf file pid = .ok n) (hfull : es.length = p.leafSize)
    (hsize : 2 ≤ p.leafSize)
    (e : Int × RecordId) (hkey : e.1 ≠ invalidKey) :
    LeafInv p
      (writePage
        (writePage (file ++ [Page.blank]) (file.length + 1)
          (Page.leaf (n.split p (toPair e) (file.length + 1)).2.1))
        pid (Page.leaf (n.split p (toPair e) (file.length + 1)).1))
      (pre ++ (pid, (sortRIDKeyPairs (toPair e :: es)).take (p.leafSize / 2)) ::
        (file.length + 1, (sortRIDKeyPairs (toPair e :: es)).drop (p.leafSize / 2)) :: post)
      (ins ++ [e]) := by
  obtain ⟨hfirst, hchain, hnodup, hne1, hlen, hnonempty, hperm⟩ := h
  have hparts := Chain.append.1 hchain
  obtain ⟨n1, hrd1, hholds, hsib, hpost⟩ := hparts.2
  have hn : n1 = n := by
    rw [hrd] at hrd1
    exact (Except.ok.inj hrd1).symm
  rw [hn] at hholds hsib
  have hpid := readLeaf_ok_le hrd
  obtain ⟨hleft, hright, hlsib, hrsib, -, -, htake, hdrop⟩ :=
    hholds.split hfull hsize (toPair e) hkey (file.length + 1)
  have hsort := sortRIDKeyPairs_perm (toPair e :: es)
  have hmem := hchain.mem_le
  simp only [List.map_append, List.map_cons, List.nodup_append, List.nodup_cons] at hnodup
  have hpre_ne : ∀ c ∈ pre, c.1 ≠ pid := by
    intro c hc heq
    exact hnodup.2.2 (List.mem_map_of_mem Prod.fst hc) (by rw [heq]; simp)
  have hpost_ne : ∀ c ∈ post, c.1 ≠ pid := by
    intro c hc heq
    exact hnodup.2.1.1 (by rw [← heq]; exact List.mem_map_of_mem Prod.fst hc)
  have hpre_new : ∀ c ∈ pre, c.1 ≠ file.length + 1 := by
    intro c hc
    have := (hmem c (by simp [hc])).2
    omega
  have hpost_new : ∀ c ∈ post, c.1 ≠ file.length + 1 := by
    intro c hc
    have := (hmem c (by simp [hc])).2
    omega
  have hlen1 : (file ++ [Page.blank]).length = file.length + 1 := by simp
  have hkeep : ∀ {chain : List (Nat × List RIDKeyPair)} {next : Nat},
      (∀ c ∈ chain, c.1 ≠ pid) → (∀ c ∈ chain, c.1 ≠ file.length + 1) →
      Chain p file chain next →
      Chain p
        (writePage
          (writePage (file ++ [Page.blank]) (file.length + 1)
            (Page.leaf (n.split p (toPair e) (file.length + 1)).2.1))
          pid (Page.leaf (n.split p (toPair e) (file.length + 1)).1)) chain next := by
    intro chain next h1 h2 hc
    exact Chain.write_other pid _ hpid.1 h1
      (Chain.write_other (file.length + 1) _ (by omega) h2 (Chain.append_file _ hc))
  refine ⟨?_, ?_, ?_, ?_, ?_, ?_, ?_⟩
  · rw [firstOr_eq] at hfirst ⊢
    cases pre with
    | nil => simpa using hfirst
    | cons c pre => simpa using hfirst
  · refine Chain.append.2 ⟨?_, ?_⟩
    · exact hkeep hpre_ne hpre_new hparts.1
    · refine ⟨_, readLeaf_writePage_same _ hpid.1 (by rw [length_writePage, hlen1]; omega),
        hleft, hlsib, ?_⟩
      refine ⟨_, ?_, hright, hrsib.trans hsib, hkeep hpost_ne hpost_new hpost⟩
      rw [readLeaf_writePage_ne _ hpid.1 (by omega)]
      exact readLeaf_writePage_same _ (by omega) (by rw [hlen1])
  · simp only [List.map_append, List.map_cons, List.nodup_append, List.nodup_cons,
      List.mem_cons, List.mem_map]
    refine ⟨hnodup.1, ⟨?_, ?_, hnodup.2.1.2⟩, ?_⟩
    · rintro (h1 | ⟨c, hc, h1⟩)
      · omega
      · exact hpost_ne c hc h1
    · rintro ⟨c, hc, h1⟩
      exact hpost_new c hc h1
    · intro a ha hb
      rcases List.mem_cons.1 hb with hb | hb
      · exact hnodup.2.2 ha (by rw [hb]; simp)
      · rcases List.mem_cons.1 hb with hb | hb
        · obtain ⟨c, hc, h1⟩ := List.mem_map.1 ha
          exact hpre_new c hc (by rw [h1, hb])
        · exact hnodup.2.2 ha (List.mem_cons_of_mem _ hb)
  · intro c hc
    simp only [List.mem_append, List.mem_cons] at hc
    rcases hc with hc | hc | hc | hc
    · exact hne1 c (by simp [hc])
    · rw [hc]; exact hne1 (pid, es) (by simp)
    · rw [hc]
      simp only
      simp only [List.length_append, List.length_cons] at hlen
      omega
    · exact hne1 c (by simp [hc])
  · simp only [length_writePage, hlen1, List.length_append, List.length_cons] at hlen ⊢
    omega
  · intro c hc hnil
    exfalso
    simp only [List.mem_append, List.mem_cons] at hc
    rcases hc with hc | hc | hc | hc
    · have := hnonempty c (by simp [hc]) hnil
      simp only [List.length_append, List.length_cons] at this
      have hpos : 0 < pre.length := List.length_pos_of_mem hc
      omega
    · rw [hc] at hnil
      exact htake hnil
    · rw [hc] at hnil
      exact hdrop hnil
    · have := hnonempty c (by simp [hc]) hnil
      simp only [List.length_append, List.length_cons] at this
      have hpos : 0 < post.length := List.length_pos_of_mem hc
      omega
  · simp only [List.map_append, List.map_cons, List.flatten_append, List.flatten_cons,
      List.map_nil] at hperm ⊢
    have hsort' : List.Perm
        ((sortRIDKeyPairs (toPair e :: es)).take (p.leafSize / 2) ++
          (sortRIDKeyPairs (toPair e :: es)).drop (p.leafSize / 2)) (toPair e :: es) := by
      rw [List.take_append_drop]
      exact hsort
    have := perm_insert_middle (a := (pre.map Prod.snd).flatten)
      (b := (post.map Prod.snd).flatten) hsort' hperm
    rw [List.append_assoc] at this
    exact this

/-! ## One `insertEntry` on the whole index -/

theorem LeafInv.write_outside {p : Params} {file : List Page}
    {chain : List (Nat × List RIDKeyPair)} {ins : List (Int × RecordId)}
    (q : Nat) (pg : Page) (hq : q ≠ 0) (hout : ∀ c ∈ chain, c.1 ≠ q)
    (h : LeafInv p file chain ins) : LeafInv p (writePage file q pg) chain ins := by
  obtain ⟨hfirst, hchain, hnodup, hne1, hlen, hnonempty, hperm⟩ := h
  exact ⟨hfirst, Chain.write_other q pg hq hout hchain, hnodup, hne1,
    by rw [length_writePage]; exact hlen, hnonempty, hperm⟩

theorem LeafInv.grow_file {p : Params} {file : List Page}
    {chain : List (Nat × List RIDKeyPair)} {ins : List (Int × RecordId)}
    (ext : List Page) (h : LeafInv p file chain ins) : LeafInv p (file ++ ext) chain ins := by
  obtain ⟨hfirst, hchain, hnodup, hne1, hlen, hnonempty, hperm⟩ := h
  exact ⟨hfirst, Chain.append_file ext hchain, hnodup, hne1,
    by rw [List.length_append]; omega, hnonempty, hperm⟩

theorem LeafInv.head_two {p : Params} {file : List Page}
    {chain : List (Nat × List RIDKeyPair)} {ins : List (Int × RecordId)}
    (h : LeafInv p file chain ins) : ∃ es rest, chain = (2, es) :: rest := by
  obtain ⟨hfirst, -⟩ := h
  cases chain with
  | nil => simp [firstOr] at hfirst
  | cons c rest =>
    obtain ⟨pid, es⟩ := c
    simp only [firstOr] at hfirst
    exact ⟨es, rest, by rw [hfirst]⟩

/-- An entry of the chain comes from an inserted pair. -/
theorem LeafInv.entry_mem {p : Params} {file : List Page}
    {chain : List (Nat × List RIDKeyPair)} {ins : List (Int × RecordId)}
    (h : LeafInv p file chain ins) {c : Nat × List RIDKeyPair} (hc : c ∈ chain)
    {x : RIDKeyPair} (hx : x ∈ c.2) : ∃ e ∈ ins, e.1 = x.key := by
  obtain ⟨-, -, -, -, -, -, hperm⟩ := h
  have hmem : x ∈ (chain.map Prod.snd).flatten :=
    List.mem_flatten.2 ⟨c.2, List.mem_map_of_mem Prod.snd hc, hx⟩
  obtain ⟨e, he, hex⟩ := List.mem_map.1 (hperm.mem_iff.1 hmem)
  exact ⟨e, he, by rw [← hex]; rfl⟩

/-- The descent of `findLeaf` on an index that satisfies the invariant: it ends on a leaf
of the chain, with an empty path when the root is page 2 and the root as the only path
entry otherwise. -/
theorem findLeaf_of_inv {p : Params} {s : BTreeIndex} {chain : List (Nat × List RIDKeyPair)}
    {ins : List (Int × RecordId)}
    (hleaf : LeafInv p s.file chain ins)
    (hroot : RootInv p s.file s.metaInfo.rootPageNo chain ins) (key : Int) :
    ∃ leafPID path, findLeaf p s key = .ok (leafPID, path) ∧
      leafPID ∈ chain.map Prod.fst ∧
      ((s.metaInfo.rootPageNo = 2 ∧ path = []) ∨
        (s.metaInfo.rootPageNo ≠ 2 ∧ path = [s.metaInfo.rootPageNo])) := by
  obtain ⟨es0, rest0, hhead⟩ := hleaf.head_two
  have h2mem : 2 ∈ chain.map Prod.fst := by rw [hhead]; simp
  by_cases h2 : s.metaInfo.rootPageNo = 2
  · refine ⟨2, [], ?_, h2mem, Or.inl ⟨h2, rfl⟩⟩
    unfold findLeaf
    rw [if_pos h2]
  · rcases hroot with hroot | ⟨node, cs, -, -, -, hrd, hlevel, hholds, hchildren, -⟩
    · exact absurd hroot h2
    · have hlen := hleaf.2.2.2.2.1
      obtain ⟨m, hm⟩ : ∃ m, s.file.length = m + 1 := ⟨s.file.length - 1, by omega⟩
      refine ⟨node.search p key, [s.metaInfo.rootPageNo], ?_, ?_, Or.inr ⟨h2, rfl⟩⟩
      · unfold findLeaf
        rw [if_neg h2, hm]
        unfold findLeafLoop
        rw [hrd]
        simp [hlevel]
      · rcases hholds.search_mem key with h1 | h1
        · rw [h1]; exact h2mem
        · obtain ⟨c, hc, hc1⟩ := List.mem_map.1 h1
          rw [← hc1]
          exact hchildren c hc

/-- The root step of `insertEntry` after a leaf split below a non-leaf root: the pair is
merged into the root, or the root is split and keeps its first half. -/
theorem insertNonLeaf_root {p : Params} {file : List Page} {root : Nat}
    {chain : List (Nat × List RIDKeyPair)} {ins : List (Int × RecordId)}
    {node : NonLeafNode} {cs : List PageKeyPair} (pk : PageKeyPair)
    (hsize : 1 ≤ p.nonLeafSize)
    (hleaf : LeafInv p file chain ins)
    (hr2 : root ≠ 2) (hr1 : root ≠ 1) (hrout : root ∉ chain.map Prod.fst)
    (hrd : readNonLeaf file root = .ok node) (hholds : NodeHolds p node 2 cs)
    (hchildren : ∀ c ∈ cs, c.pageNo ∈ chain.map Prod.fst)
    (hkeys : ∀ c ∈ cs, ∃ e ∈ ins, e.1 = c.key)
    (hpk : pk.key ≠ invalidKey) (hpkpage : pk.pageNo ∈ chain.map Prod.fst)
    (hpkkey : ∃ e ∈ ins, e.1 = pk.key) :
    ∃ file1 pk1, insertNonLeaf p file root pk true = .ok (file1, false, pk1) ∧
      LeafInv p file1 chain ins ∧ RootInv p file1 root chain ins := by
  have hroot := readNonLeaf_ok_le hrd
  have hmem := hleaf.2.1.mem_le
  have hout : ∀ c ∈ chain, c.1 ≠ root := by
    intro c hc heq
    exact hrout (by rw [← heq]; exact List.mem_map_of_mem Prod.fst hc)
  have hholds1 : NodeHolds p { node with level := if true = true then 1 else 0 } 2 cs := hholds
  by_cases hfull : NonLeafNode.isFull p { node with level := if true = true then 1 else 0 } = true
  · have hcs : cs.length = p.nonLeafSize := (hholds1.isFull_iff_count (by omega)).1 hfull
    obtain ⟨hleft, hlevel⟩ := hholds1.split_left hcs hsize pk hpk (file.length + 1)
    have hperm := sortPageKeyPairs_perm (pk :: cs)
    refine ⟨_, _, insertNonLeaf_full pk true hrd hfull, ?_, ?_⟩
    · refine LeafInv.write_outside _ _ (by omega) ?_
        (LeafInv.write_outside root _ hroot.1 hout (hleaf.grow_file _))
      intro c hc
      have := (hmem c hc).2
      omega
    · refine Or.inr ⟨_, _, hr2, hr1, hrout, ?_, hlevel, hleft, ?_, ?_⟩
      · rw [readNonLeaf_writePage_ne _ (by omega) (by omega)]
        exact readNonLeaf_writePage_same _ hroot.1 (by rw [List.length_append]; omega)
      · intro c hc
        rcases List.mem_cons.1 (hperm.mem_iff.1 (List.mem_of_mem_take hc)) with h1 | h1
        · rw [h1]; exact hpkpage
        · exact hchildren c h1
      · intro c hc
        rcases List.mem_cons.1 (hperm.mem_iff.1 (List.mem_of_mem_take hc)) with h1 | h1
        · rw [h1]; exact hpkkey
        · exact hkeys c h1
  · have hfull' : NonLeafNode.isFull p { node with level := if true = true then 1 else 0 }
        = false := by simpa using hfull
    have hcs : cs.length < p.nonLeafSize := by
      have := mt (hholds1.isFull_iff_count (by omega)).2 hfull
      have := hholds1.1
      omega
    obtain ⟨hins, hlevel⟩ := hholds1.insert_node hcs pk hpk
    have hperm := sortPageKeyPairs_perm (pk :: cs)
    refine ⟨_, _, insertNonLeaf_room pk true hrd hfull', ?_, ?_⟩
    · exact LeafInv.write_outside root _ hroot.1 hout hleaf
    · refine Or.inr ⟨_, _, hr2, hr1, hrout, readNonLeaf_writePage_same _ hroot.1 hroot.2,
        hlevel, hins, ?_, ?_⟩
      · intro c hc
        rcases List.mem_cons.1 (hperm.mem_iff.1 hc) with h1 | h1
        · rw [h1]; exact hpkpage
        · exact hchildren c h1
      · intro c hc
        rcases List.mem_cons.1 (hperm.mem_iff.1 hc) with h1 | h1
        · rw [h1]; exact hpkkey
        · exact hkeys c h1

theorem nodeHolds_newRoot (p : Params) (level : Int) (left : Nat) :
    NodeHolds p (NonLeafNode.setPageNo { NonLeafNode.fresh p with level := level } 0 left)
      left [] := by
  refine ⟨by simp, by simp, by simp [NonLeafNode.setPageNo, NonLeafNode.fresh], ?_⟩
  refine ⟨List.replicate p.nonLeafSize 0, ?_, by simp⟩
  simp [NonLeafNode.setPageNo, NonLeafNode.fresh, List.replicate_succ]

/-- The method `newRoot` after the split of the root leaf (page 2). -/
theorem newRoot_inv {p : Params} {s : BTreeIndex} {chain : List (Nat × List RIDKeyPair)}
    {ins : List (Int × RecordId)} (pk : PageKeyPair)
    (hsize : 1 ≤ p.nonLeafSize)
    (hleaf : LeafInv p s.file chain ins)
    (hpk : pk.key ≠ invalidKey) (hpkpage : pk.pageNo ∈ chain.map Prod.fst)
    (hpkkey : ∃ e ∈ ins, e.1 = pk.key) :
    Inv p (newRoot p s pk 2 true) ins := by
  have hmem := hleaf.2.1.mem_le
  have hlen := hleaf.2.2.2.2.1
  obtain ⟨es0, rest0, hhead⟩ := hleaf.head_two
  have hlen2 : 2 ≤ s.file.length := by
    rw [hhead] at hlen
    simp only [List.length_cons] at hlen
    omega
  obtain ⟨hins, hlevel⟩ := (nodeHolds_newRoot p (if true = true then 1 else 0) 2).insert_node
    (by simp; omega) pk hpk
  have hperm := sortPageKeyPairs_perm [pk]
  have hnew : ∀ c ∈ chain, c.1 ≠ s.file.length + 1 := by
    intro c hc
    have := (hmem c hc).2
    omega
  refine ⟨chain, ?_, ?_⟩
  · show LeafInv p (writePage (writePage (s.file ++ [Page.blank]) (s.file.length + 1) _) 1 _)
      chain ins
    exact LeafInv.write_outside 1 _ (by omega) hleaf.2.2.2.1
      (LeafInv.write_outside _ _ (by omega) hnew (hleaf.grow_file _))
  · show RootInv p (writePage (writePage (s.file ++ [Page.blank]) (s.file.length + 1) _) 1 _)
      (s.file.length + 1) chain ins
    refine Or.inr ⟨_, _, by omega, by omega, ?_, ?_, hlevel, hins, ?_, ?_⟩
    · intro hin
      obtain ⟨c, hc, hc1⟩ := List.mem_map.1 hin
      exact hnew c hc hc1
    · rw [readNonLeaf_writePage_ne _ (by omega) (by omega)]
      exact readNonLeaf_writePage_same _ (by omega) (by rw [List.length_append]; simp)
    · intro c hc
      have := hperm.mem_iff.1 hc
      simp only [List.mem_singleton] at this
      rw [this]; exact hpkpage
    · intro c hc
      have := hperm.mem_iff.1 hc
      simp only [List.mem_singleton] at this
      rw [this]; exact hpkkey

/-- One `insertEntry` with a key that is not the sentinel returns normally and keeps the
invariant, with the new entry added to the inserted ones; it does not touch the scan
members. -/
theorem insertEntry_inv {p : Params} (hsize : 2 ≤ p.leafSize) (hnsize : 1 ≤ p.nonLeafSize)
    {s : BTreeIndex} {ins : List (Int × RecordId)} (hinv : Inv p s ins)
    (key : Int) (rid : RecordId) (hkey : key ≠ invalidKey) :
    ∃ s1, insertEntry p s key rid = (s1, .ok ()) ∧ Inv p s1 (ins ++ [(key, rid)]) := by
  obtain ⟨chain, hleaf, hroot⟩ := hinv
  obtain ⟨leafPID, path, hfind, hmemPID, hpath⟩ := findLeaf_of_inv hleaf hroot key
  obtain ⟨c, hc, hc1⟩ := List.mem_map.1 hmemPID
  obtain ⟨pre, post, hsplit⟩ := List.append_of_mem hc
  obtain ⟨pid, es⟩ := c
  simp only at hc1
  subst hc1
  subst hsplit
  have hparts := Chain.append.1 hleaf.2.1
  obtain ⟨n, hrd, hholds, hsib, hpost⟩ := hparts.2
  have hloop : ∀ (file1 : List Page) (pk : PageKeyPair) (b : Bool),
      propagateLoop p path.reverse file1 pid pk true b
        = .ok (file1, path.reverse, pid, pk, true, b) := by
    intro file1 pk b
    rcases hpath with ⟨-, hp⟩ | ⟨-, hp⟩ <;> rw [hp] <;> simp [propagateLoop]
  by_cases hfull : n.isFull p = true
  · -- the leaf is full and splits
    have hes : es.length = p.leafSize := (hholds.isFull_iff_length (by omega)).1 hfull
    have hleaf2 := hleaf.insert_full hrd hes hsize (key, rid) hkey
    obtain ⟨-, -, -, -, hpkpage, hpkkey, -, -⟩ :=
      hholds.split hes hsize (toPair (key, rid)) hkey (s.file.length + 1)
    have hpkvalid : (n.split p (toPair (key, rid)) (s.file.length + 1)).2.2.key ≠ invalidKey := by
      obtain ⟨x, hx, hxk⟩ := hpkkey
      rw [hxk]
      rcases List.mem_cons.1 hx with h1 | h1
      · rw [h1]; exact hkey
      · exact hholds.2.1 x h1
    have hpkins : ∃ e ∈ ins ++ [(key, rid)],
        e.1 = (n.split p (toPair (key, rid)) (s.file.length + 1)).2.2.key := by
      obtain ⟨x, hx, hxk⟩ := hpkkey
      rcases List.mem_cons.1 hx with h1 | h1
      · exact ⟨(key, rid), by simp, by rw [hxk, h1]; rfl⟩
      · obtain ⟨e, he, hek⟩ := hleaf.entry_mem hc (x := x) h1
        exact ⟨e, by simp [he], by rw [hxk, hek]⟩
    have hpkmem : (n.split p (toPair (key, rid)) (s.file.length + 1)).2.2.pageNo ∈
        (pre ++ (pid, (sortRIDKeyPairs (toPair (key, rid) :: es)).take (p.leafSize / 2)) ::
          (s.file.length + 1, (sortRIDKeyPairs (toPair (key, rid) :: es)).drop
            (p.leafSize / 2)) :: post).map Prod.fst := by
      rw [hpkpage]; simp
    have hids : ∀ x, x ∈ (pre ++ (pid, es) :: post).map Prod.fst →
        x ∈ (pre ++ (pid, (sortRIDKeyPairs (toPair (key, rid) :: es)).take (p.leafSize / 2)) ::
          (s.file.length + 1, (sortRIDKeyPairs (toPair (key, rid) :: es)).drop
            (p.leafSize / 2)) :: post).map Prod.fst := by
      intro x hx
      simp only [List.map_append, List.map_cons, List.mem_append, List.mem_cons] at hx ⊢
      tauto
    rcases hpath with ⟨hr2, hp⟩ | ⟨hr2, hp⟩
    · -- the root is the leaf: a new root is made
      refine ⟨newRoot p
        { s with
          file := (writePage
            (writePage (s.file ++ [Page.blank]) (s.file.length + 1)
              (Page.leaf (n.split p (toPair (key, rid)) (s.file.length + 1)).2.1))
            pid (Page.leaf (n.split p (toPair (key, rid)) (s.file.length + 1)).1)) }
        (n.split p (toPair (key, rid)) (s.file.length + 1)).2.2 2 true, ?_, ?_⟩
      · have hpid2 : pid = 2 := by
          unfold findLeaf at hfind
          rw [if_pos hr2] at hfind
          simp at hfind
          exact hfind.1.symm
        unfold insertEntry
        rw [hfind]
        dsimp only
        rw [insertLeaf_full key rid _ hrd hfull]
        dsimp only
        rw [hloop]
        simp only [if_true, hp, List.reverse_nil, hpid2]
        rfl
      · exact newRoot_inv _ hnsize hleaf2 hpkvalid hpkmem hpkins
    · -- the root is a non-leaf node: the pair goes into it
      rcases hroot with hroot | ⟨node, cs, -, hr1, hrout, hrdroot, hlevel, hnode, hchildren, hkeys⟩
      · exact absurd hroot hr2
      · have hrle := readNonLeaf_ok_le hrdroot
        have hrpid : s.metaInfo.rootPageNo ≠ pid := by
          intro heq
          exact hrout (by rw [heq]; simp)
        have hrdroot2 : readNonLeaf
            (writePage
              (writePage (s.file ++ [Page.blank]) (s.file.length + 1)
                (Page.leaf (n.split p (toPair (key, rid)) (s.file.length + 1)).2.1))
              pid (Page.leaf (n.split p (toPair (key, rid)) (s.file.length + 1)).1))
            s.metaInfo.rootPageNo = .ok node := by
          rw [readNonLeaf_writePage_ne _ (readLeaf_ok_le hrd).1 hrpid,
            readNonLeaf_writePage_ne _ (by omega) (by omega),
            readNonLeaf_append _ hrle.2]
          exact hrdroot
        have hrout2 : s.metaInfo.rootPageNo ∉
            (pre ++ (pid, (sortRIDKeyPairs (toPair (key, rid) :: es)).take (p.leafSize / 2)) ::
              (s.file.length + 1, (sortRIDKeyPairs (toPair (key, rid) :: es)).drop
                (p.leafSize / 2)) :: post).map Prod.fst := by
          intro hin
          simp only [List.map_append, List.map_cons, List.mem_append, List.mem_cons] at hin
          apply hrout
          simp only [List.map_append, List.map_cons, List.mem_append, List.mem_cons]
          rcases hin with h1 | h1 | h1 | h1
          · exact Or.inl h1
          · exact Or.inr (Or.inl h1)
          · omega
          · exact Or.inr (Or.inr h1)
        obtain ⟨file3, pk3, hnl, hleaf3, hroot3⟩ :=
          insertNonLeaf_root (n.split p (toPair (key, rid)) (s.file.length + 1)).2.2 hnsize
            hleaf2 hr2 hr1 hrout2 hrdroot2 hnode
            (fun c hc => hids _ (hchildren c hc))
            (fun c hc => by
              obtain ⟨e, he, hek⟩ := hkeys c hc
              exact ⟨e, by simp [he], hek⟩)
            hpkvalid hpkmem hpkins
        refine ⟨{ s with file := file3 }, ?_, ⟨_, hleaf3, hroot3⟩⟩
        unfold insertEntry
        rw [hfind]
        dsimp only
        rw [insertLeaf_full key rid _ hrd hfull]
        dsimp only
        rw [hloop]
        simp only [if_true, hp, List.reverse_cons, List.reverse_nil, List.nil_append]
        have hnl' := hnl
        simp only [toPair] at hnl'
        rw [hnl']
        simp
  · -- the leaf has room
    have hfull' : n.isFull p = false := by simpa using hfull
    have hes : es.length < p.leafSize := by
      have := mt (hholds.isFull_iff_length (by omega)).2 hfull
      have := hholds.1
      omega
    have hleaf1 := hleaf.insert_room hrd hes (key, rid) hkey
    refine ⟨{ s with file := writePage s.file pid (Page.leaf (n.insert p ⟨rid, key⟩)) }, ?_,
      ⟨_, hleaf1, ?_⟩⟩
    · unfold insertEntry
      rw [hfind]
      dsimp only
      rw [insertLeaf_room key rid _ hrd hfull']
      dsimp only
      rw [hloop]
      simp
    · rcases hroot with hroot | ⟨node, cs, hr2, hr1, hrout, hrdroot, hlevel, hnode, hchildren, hkeys⟩
      · exact Or.inl hroot
      · have hrpid : s.metaInfo.rootPageNo ≠ pid := by
          intro heq
          exact hrout (by rw [heq]; simp)
        refine Or.inr ⟨node, cs, hr2, hr1, ?_, ?_, hlevel, hnode, ?_, ?_⟩
        · simpa using hrout
        · show readNonLeaf (writePage s.file pid _) s.metaInfo.rootPageNo = .ok node
          rw [readNonLeaf_writePage_ne _ (readLeaf_ok_le hrd).1 hrpid]
          exact hrdroot
        · intro c hc
          simpa using hchildren c hc
        · intro c hc
          obtain ⟨e, he, hek⟩ := hkeys c hc
          exact ⟨e, by simp [he], hek⟩

/-! ## A sequence of inserts -/

theorem inv_createIndex (p : Params) (relationName : List Nat) (attrByteOffset : Int)
    (scan0 : BTreeIndex) : Inv p (createIndex p relationName attrByteOffset scan0) [] := by
  refine ⟨[(2, [])], ⟨rfl, ?_, by simp, by simp, by simp [createIndex], by simp, by simp⟩,
    Or.inl rfl⟩
  exact ⟨LeafNode.fresh p, rfl, leafHolds_fresh p, rfl, trivial⟩

theorem insertAll_inv {p : Params} (hsize : 2 ≤ p.leafSize) (hnsize : 1 ≤ p.nonLeafSize)
    (rest : List (Int × RecordId)) :
    ∀ (s : BTreeIndex) (done : List (Int × RecordId)), Inv p s done →
      (∀ e ∈ rest, e.1 ≠ invalidKey) →
      ∃ s1, insertAll p s rest = .ok s1 ∧ Inv p s1 (done ++ rest) := by
  induction rest with
  | nil =>
    intro s done hinv _
    exact ⟨s, rfl, by simpa using hinv⟩
  | cons e rest ih =>
    intro s done hinv hkeys
    obtain ⟨key, rid⟩ := e
    obtain ⟨s1, hstep, hinv1⟩ := insertEntry_inv hsize hnsize hinv key rid
      (hkeys (key, rid) (List.mem_cons_self _ _))
    obtain ⟨s2, hrest, hinv2⟩ := ih s1 (done ++ [(key, rid)]) hinv1
      (fun x hx => hkeys x (List.mem_cons_of_mem _ hx))
    refine ⟨s2, ?_, by simpa using hinv2⟩
    simp only [insertAll]
    rw [hstep]
    exact hrest

/-! ## `scanNext` along the chain -/

theorem LeafHolds.getKey_at {p : Params} {n : LeafNode} {done todo : List RIDKeyPair}
    {x : RIDKeyPair} (h : LeafHolds p n (done ++ x :: todo)) :
    n.getKey done.length = x.key ∧ n.getRID done.length = x.rid ∧
      done.length < p.leafSize ∧ x.key ≠ invalidKey := by
  obtain ⟨hlen, hkeys, hk, rest, hr, _⟩ := h
  simp only [List.length_append, List.length_cons] at hlen
  refine ⟨?_, ?_, by omega, hkeys x (by simp)⟩
  · unfold LeafNode.getKey
    rw [hk]
    simp only [List.map_append, List.map_cons, List.append_assoc]
    rw [List.getD_append_right _ _ _ _ (by simp)]
    simp
  · unfold LeafNode.getRID
    rw [hr]
    simp only [List.map_append, List.map_cons, List.append_assoc]
    rw [List.getD_append_right _ _ _ _ (by simp)]
    simp

theorem LeafHolds.getKey_end {p : Params} {n : LeafNode} {es : List RIDKeyPair}
    (h : LeafHolds p n es) : n.getKey es.length = invalidKey := by
  obtain ⟨_, _, hk, _⟩ := h
  unfold LeafNode.getKey
  rw [hk, List.getD_append_right _ _ _ _ (by simp)]
  exact getD_replicate_self _ _ _

theorem scanNext_emit {p : Params} {s : BTreeIndex} {n : LeafNode}
    (hexec : s.scanExecuting = true) (hrd : readLeaf s.file s.currentPageNum = .ok n)
    (hin : s.nextEntry < p.leafSize) (hkey : n.getKey s.nextEntry ≠ invalidKey)
    (hhigh : ¬ ((s.highOp = Operator.LT ∧ n.getKey s.nextEntry ≥ s.highValInt) ∨
      (s.highOp = Operator.LTE ∧ n.getKey s.nextEntry > s.highValInt))) :
    scanNext p s = ({ s with nextEntry := s.nextEntry + 1 }, .ok (n.getRID s.nextEntry)) := by
  unfold scanNext
  rw [if_neg (by simp [hexec]), hrd]
  dsimp only
  rw [if_neg (by
    intro h
    rcases h with h | h
    · omega
    · exact hkey h), if_neg hhigh]

theorem scanNext_end {p : Params} {s : BTreeIndex} {n : LeafNode}
    (hexec : s.scanExecuting = true) (hrd : readLeaf s.file s.currentPageNum = .ok n)
    (hkey : n.getKey s.nextEntry = invalidKey) (hsib : n.rightSibPageNo = 0) :
    scanNext p s = (s, .error Exc.IndexScanCompleted) := by
  unfold scanNext
  rw [if_neg (by simp [hexec]), hrd]
  dsimp only
  rw [if_pos (Or.inr hkey), if_pos hsib]

theorem scanNext_hop {p : Params} {s : BTreeIndex} {n n1 : LeafNode}
    (hexec : s.scanExecuting = true) (hrd : readLeaf s.file s.currentPageNum = .ok n)
    (hkey : n.getKey s.nextEntry = invalidKey) (hsib : n.rightSibPageNo ≠ 0)
    (hrd1 : readLeaf s.file n.rightSibPageNo = .ok n1)
    (hhigh : ¬ ((s.highOp = Operator.LT ∧ n1.getKey 0 ≥ s.highValInt) ∨
      (s.highOp = Operator.LTE ∧ n1.getKey 0 > s.highValInt))) :
    scanNext p s
      = ({ s with nextEntry := 1, currentPageNum := n.rightSibPageNo },
         .ok (n1.getRID 0)) := by
  unfold scanNext
  rw [if_neg (by simp [hexec]), hrd]
  dsimp only
  rw [if_pos (Or.inr hkey), if_neg hsib]
  simp only [hrd1]
  rw [if_neg hhigh]

/-- With the cursor on a leaf of the chain, behind the entries `done` of that leaf, and
every entry from there on passing the high bound, repeated `scanNext` calls return the
record ids of the remaining entries of the chain in order and then end with
`IndexScanCompleted`. -/
theorem scanAll_chain {p : Params} {file : List Page} (hop : Operator) (hval : Int)
    (rest : List (Nat × List RIDKeyPair)) :
    ∀ (pid : Nat) (todo done : List RIDKeyPair),
      Chain p file ((pid, done ++ todo) :: rest) 0 →
      (∀ c ∈ rest, c.2 ≠ []) →
      (∀ x ∈ todo ++ (rest.map Prod.snd).flatten,
        ¬ ((hop = Operator.LT ∧ x.key ≥ hval) ∨ (hop = Operator.LTE ∧ x.key > hval))) →
      ∀ (s : BTreeIndex), s.file = file → s.scanExecuting = true → s.highOp = hop →
        s.highValInt = hval → s.currentPageNum = pid → s.nextEntry = done.length →
      ∀ fuel, (todo ++ (rest.map Prod.snd).flatten).length < fuel →
        scanAll p fuel s
          = ((todo ++ (rest.map Prod.snd).flatten).map (fun x => x.rid),
             some Exc.IndexScanCompleted) := by
  induction rest with
  | nil =>
    intro pid todo
    induction todo with
    | nil =>
      intro done hchain _ _ s hfile hexec _ _ hcur hnext fuel hfuel
      obtain ⟨n, hrd, hholds, hsib, -⟩ := hchain
      obtain ⟨f, hf⟩ : ∃ f, fuel = f + 1 := ⟨fuel - 1, by omega⟩
      rw [hf]
      simp only [scanAll]
      rw [scanNext_end hexec (by rw [hfile, hcur]; exact hrd)
        (by rw [hnext]; simpa using hholds.getKey_end) hsib]
      simp
    | cons x todo ih =>
      intro done hchain hne hpass s hfile hexec hhop hhval hcur hnext fuel hfuel
      have hchain' := hchain
      obtain ⟨n, hrd, hholds, hsib, -⟩ := hchain
      obtain ⟨hk, hr, hin, hvalid⟩ := hholds.getKey_at
      obtain ⟨f, hf⟩ : ∃ f, fuel = f + 1 := ⟨fuel - 1, by omega⟩
      rw [hf]
      simp only [scanAll]
      rw [scanNext_emit hexec (by rw [hfile, hcur]; exact hrd) (by rw [hnext]; exact hin)
        (by rw [hnext, hk]; exact hvalid)
        (by rw [hnext, hk, hhop, hhval]; exact hpass x (by simp))]
      dsimp only
      have hrec := ih (done ++ [x]) (by simpa using hchain') hne
        (fun y hy => hpass y (by
          simp only [List.mem_append, List.mem_cons] at hy ⊢
          tauto))
        { s with nextEntry := s.nextEntry + 1 } hfile hexec hhop hhval hcur
        (by simp [hnext]) f (by
          simp only [List.length_append, List.length_cons] at hfuel ⊢
          omega)
      rw [hrec]
      simp [hnext, hr]
  | cons c rest ihrest =>
    intro pid todo
    induction todo with
    | nil =>
      intro done hchain hne hpass s hfile hexec hhop hhval hcur hnext fuel hfuel
      obtain ⟨pid1, es1⟩ := c
      obtain ⟨n, hrd, hholds, hsib, hrest⟩ := hchain
      have hrest' := hrest
      obtain ⟨n1, hrd1, hholds1, hsib1, -⟩ := hrest
      have hes1 : es1 ≠ [] := hne (pid1, es1) (List.mem_cons_self _ _)
      obtain ⟨y, es1', hy⟩ := List.exists_cons_of_ne_nil hes1
      subst hy
      have hsibval : n.rightSibPageNo = pid1 := hsib
      obtain ⟨hk, hr, hin, hvalid⟩ :=
        @LeafHolds.getKey_at p n1 [] es1' y (by simpa using hholds1)
      simp only [List.length_nil] at hk hr
      obtain ⟨f, hf⟩ : ∃ f, fuel = f + 1 := ⟨fuel - 1, by omega⟩
      rw [hf]
      simp only [scanAll]
      rw [scanNext_hop hexec (by rw [hfile, hcur]; exact hrd)
        (by rw [hnext]; simpa using hholds.getKey_end)
        (by rw [hsibval]; exact (readLeaf_ok_le hrd1).1)
        (by rw [hfile, hsibval]; exact hrd1)
        (by rw [hk, hhop, hhval]; exact hpass y (by simp))]
      dsimp only
      have hrec := ihrest pid1 es1' [y] (by simpa using hrest')
        (fun c hc => hne c (List.mem_cons_of_mem _ hc))
        (fun z hz => hpass z (by
          simp only [List.nil_append, List.map_cons, List.flatten_cons, List.mem_append,
            List.mem_cons] at hz ⊢
          tauto))
        { s with nextEntry := 1, currentPageNum := n.rightSibPageNo } hfile hexec hhop hhval
        hsibval rfl f (by
          simp only [List.nil_append, List.map_cons, List.flatten_cons, List.length_append,
            List.length_cons] at hfuel ⊢
          omega)
      rw [hrec]
      simp [hr]
    | cons x todo ih =>
      intro done hchain hne hpass s hfile hexec hhop hhval hcur hnext fuel hfuel
      have hchain' := hchain
      obtain ⟨n, hrd, hholds, hsib, -⟩ := hchain
      obtain ⟨hk, hr, hin, hvalid⟩ := hholds.getKey_at
      obtain ⟨f, hf⟩ : ∃ f, fuel = f + 1 := ⟨fuel - 1, by omega⟩
      rw [hf]
      simp only [scanAll]
      rw [scanNext_emit hexec (by rw [hfile, hcur]; exact hrd) (by rw [hnext]; exact hin)
        (by rw [hnext, hk]; exact hvalid)
        (by rw [hnext, hk, hhop, hhval]; exact hpass x (by simp))]
      dsimp only
      have hrec := ih (done ++ [x]) (by simpa using hchain') hne
        (fun y hy => hpass y (by
          simp only [List.mem_append, List.mem_cons] at hy ⊢
          tauto))
        { s with nextEntry := s.nextEntry + 1 } hfile hexec hhop hhval hcur
        (by simp [hnext]) f (by
          simp only [List.length_append, List.length_cons] at hfuel ⊢
          omega)
      rw [hrec]
      simp [hnext, hr]

/-! ## The scan over all keys -/

theorem leafChainEntries_chain {p : Params} {file : List Page}
    (chain : List (Nat × List RIDKeyPair)) :
    ∀ (fuel pid : Nat), Chain p file chain 0 → chain ≠ [] → firstOr chain 0 = pid →
      chain.length ≤ fuel →
      leafChainEntries file fuel pid = (chain.map Prod.snd).flatten := by
  induction chain with
  | nil => intro fuel pid _ hne; exact absurd rfl hne
  | cons c rest ih =>
    intro fuel pid hchain _ hfirst hfuel
    obtain ⟨pid1, es⟩ := c
    have hpid : pid1 = pid := hfirst
    subst hpid
    obtain ⟨n, hrd, hholds, hsib, hrest⟩ := hchain
    obtain ⟨f, hf⟩ : ∃ f, fuel = f + 1 := ⟨fuel - 1, by simp at hfuel; omega⟩
    rw [hf]
    simp only [leafChainEntries]
    rw [hrd]
    simp only [hholds.entries_eq, List.map_cons, List.flatten_cons]
    cases rest with
    | nil =>
      have : n.rightSibPageNo = 0 := hsib
      simp [this]
    | cons c1 rest1 =>
      obtain ⟨pid2, es2⟩ := c1
      have hsib2 : n.rightSibPageNo = pid2 := hsib
      have hne0 : pid2 ≠ 0 := by
        obtain ⟨n2, hrd2, -⟩ := hrest
        exact (readLeaf_ok_le hrd2).1
      rw [hsib2, if_neg hne0]
      rw [ih f pid2 hrest (by simp) rfl (by simp at hfuel ⊢; omega)]

/-- The scan `startScan` sets up on an index with entries when the low bound is below
every inserted key and the high bound above: it returns normally with the cursor on
slot `0` of page 2. -/
theorem startScan_below_all {p : Params} (hsize : 2 ≤ p.leafSize) {s : BTreeIndex}
    {ins : List (Int × RecordId)} (hinv : Inv p s ins) (hne : ins ≠ [])
    (lowVal highVal : Int) (lowOp highOp : Operator)
    (hlowOp : lowOp = Operator.GT ∨ lowOp = Operator.GTE)
    (hhighOp : highOp = Operator.LT ∨ highOp = Operator.LTE)
    (hlow : ∀ e ∈ ins, lowVal < e.1) (hhigh : ∀ e ∈ ins, e.1 < highVal) :
    startScan p s lowVal lowOp highVal highOp
      = ({ s with lowOp := lowOp, highOp := highOp, lowValInt := lowVal,
                  highValInt := highVal, scanExecuting := true, currentPageNum := 2,
                  nextEntry := 0 }, .ok ()) := by
  obtain ⟨chain, hleaf, hroot⟩ := hinv
  obtain ⟨es0, rest0, hhead⟩ := hleaf.head_two
  subst hhead
  have hops : ¬ (lowOp = Operator.LT ∨ lowOp = Operator.LTE ∨
        highOp = Operator.GT ∨ highOp = Operator.GTE) := by
    rcases hlowOp with h | h <;> rcases hhighOp with h' | h' <;> subst h <;> subst h' <;> simp
  obtain ⟨e0, ins', hins⟩ := List.exists_cons_of_ne_nil hne
  have hrange : ¬ lowVal > highVal := by
    have h1 := hlow e0 (by rw [hins]; simp)
    have h2 := hhigh e0 (by rw [hins]; simp)
    omega
  obtain ⟨n, hrd, hholds, -, -⟩ := hleaf.2.1
  have hes0 : es0 ≠ [] := by
    intro hnil
    have hlen1 := hleaf.2.2.2.2.2.1 (2, es0) (List.mem_cons_self _ _) hnil
    have hperm := hleaf.2.2.2.2.2.2
    simp only [List.length_cons, Nat.add_left_eq_self, List.length_eq_zero] at hlen1
    rw [hlen1, hnil, hins] at hperm
    simpa using hperm.length_eq
  obtain ⟨x, es0', hx⟩ := List.exists_cons_of_ne_nil hes0
  subst hx
  obtain ⟨e, he, hek⟩ := hleaf.entry_mem (List.mem_cons_self _ _) (x := x) (by simp)
  have hxlow : lowVal < x.key := by rw [← hek]; exact hlow e he
  obtain ⟨hk, -, hin, hvalid⟩ := @LeafHolds.getKey_at p n [] es0' x (by simpa using hholds)
  simp only [List.length_nil] at hk hin
  have hsearch : n.search p lowVal = 0 := by
    unfold LeafNode.search
    rw [hholds.2.2.1]
    obtain ⟨m, hm⟩ : ∃ m, p.leafSize = m + 1 := ⟨p.leafSize - 1, by omega⟩
    rw [hm]
    simp only [List.map_cons, List.cons_append, List.take_succ_cons, searchKeys]
    rw [if_neg (by omega)]
  have hfind : ∀ s2 : BTreeIndex, s2.file = s.file → s2.metaInfo = s.metaInfo →
      findLeaf2 p s2 lowVal = .ok 2 := by
    intro s2 hfile hmeta
    unfold findLeaf2
    rw [hfile, hmeta]
    by_cases h2 : s.metaInfo.rootPageNo = 2
    · rw [if_pos h2]
    · rw [if_neg h2]
      rcases hroot with hroot | ⟨node, cs, -, -, -, hrdroot, hlevel, hnode, -, hkeys⟩
      · exact absurd hroot h2
      · have hlen := hleaf.2.2.2.2.1
        obtain ⟨m, hm⟩ : ∃ m, s.file.length = m + 1 := ⟨s.file.length - 1, by omega⟩
        rw [hm]
        unfold findLeafLoop2
        rw [hrdroot]
        simp only [hlevel, if_true]
        rw [hnode.search_low lowVal (fun c hc => by
          obtain ⟨e1, he1, hek1⟩ := hkeys c hc
          rw [← hek1]
          exact hlow e1 he1)]
  unfold startScan
  rw [if_neg hops]
  dsimp only
  rw [if_neg hrange]
  rw [hfind { file := s.file, metaInfo := s.metaInfo, scanExecuting := true,
              nextEntry := s.nextEntry, currentPageNum := s.currentPageNum,
              lowValInt := lowVal, highValInt := highVal, lowOp := lowOp,
              highOp := highOp } rfl rfl]
  dsimp only
  rw [hrd]
  dsimp only
  rw [hsearch]
  have hkeyAt : n.getKeyAt p 0 = x.key := by
    unfold LeafNode.getKeyAt
    rw [if_pos (by omega), hk]
  rw [hkeyAt, if_neg (by
    intro h
    rcases h with h | h
    · omega
    · exact hvalid h)]

/-! ## Exceptions of the scan operations -/

theorem readLeaf_error_cases {file : List Page} {pid : Nat} {e : Exc}
    (h : readLeaf file pid = .error e) : e = Exc.InvalidPage ∨ e = Exc.Stuck := by
  unfold readLeaf at h
  split at h <;> simp at h <;> simp [← h]

theorem readNonLeaf_error_cases {file : List Page} {pid : Nat} {e : Exc}
    (h : readNonLeaf file pid = .error e) : e = Exc.InvalidPage ∨ e = Exc.Stuck := by
  unfold readNonLeaf at h
  split at h <;> simp at h <;> simp [← h]

theorem findLeafLoop2_error_cases (p : Params) (file : List Page) (key : Int) :
    ∀ (fuel : Nat) (cur : Nat) (e : Exc),
      findLeafLoop2 p file key fuel cur = .error e → e = Exc.InvalidPage ∨ e = Exc.Stuck := by
  intro fuel
  induction fuel with
  | zero =>
    intro cur e h
    simp [findLeafLoop2] at h
    exact Or.inr h.symm
  | succ n ih =>
    intro cur e h
    unfold findLeafLoop2 at h
    split at h
    · rename_i e1 h1
      simp at h
      subst h
      exact readNonLeaf_error_cases h1
    · split at h
      · simp at h
      · exact ih _ _ h

theorem findLeaf2_error_cases {p : Params} {s : BTreeIndex} {key : Int} {e : Exc}
    (h : findLeaf2 p s key = .error e) : e = Exc.InvalidPage ∨ e = Exc.Stuck := by
  unfold findLeaf2 at h
  split at h
  · simp at h
  · exact findLeafLoop2_error_cases _ _ _ _ _ _ h

theorem scanNext_error_cases {p : Params} {s : BTreeIndex} {e : Exc}
    (h : (scanNext p s).2 = .error e) :
    e = Exc.ScanNotInitialized ∨ e = Exc.IndexScanCompleted ∨ e = Exc.InvalidPage ∨
      e = Exc.Stuck := by
  unfold scanNext at h
  split at h
  · simp at h; simp [← h]
  · split at h
    · rename_i e1 h1
      simp at h; subst h
      rcases readLeaf_error_cases h1 with h2 | h2 <;> simp [h2]
    · split at h
      · split at h
        · simp at h; simp [← h]
        · dsimp only at h
          split at h
          · rename_i e1 h1
            simp at h; subst h
            rcases readLeaf_error_cases h1 with h2 | h2 <;> simp [h2]
          · split at h
            · simp at h; simp [← h]
            · simp at h
      · split at h
        · simp at h; simp [← h]
        · simp at h

/-- The exceptions of `startScan` by cause: `BadOpcodes` from the operator check,
`BadScanrange` from the range check behind it, and behind both only what the descent,
the page reads and the inner `scanNext` call throw. -/
theorem startScan_error_cases {p : Params} {s : BTreeIndex} {lowVal highVal : Int}
    {lowOp highOp : Operator} {e : Exc}
    (h : (startScan p s lowVal lowOp highVal highOp).2 = .error e) :
    (e = Exc.BadOpcodes ∧
        (lowOp = Operator.LT ∨ lowOp = Operator.LTE ∨
          highOp = Operator.GT ∨ highOp = Operator.GTE)) ∨
    (e = Exc.BadScanrange ∧
        ¬ (lowOp = Operator.LT ∨ lowOp = Operator.LTE ∨
          highOp = Operator.GT ∨ highOp = Operator.GTE) ∧ lowVal > highVal) ∨
    ((e = Exc.ScanNotInitialized ∨ e = Exc.IndexScanCompleted ∨ e = Exc.InvalidPage ∨
        e = Exc.Stuck) ∧
        ¬ (lowOp = Operator.LT ∨ lowOp = Operator.LTE ∨
          highOp = Operator.GT ∨ highOp = Operator.GTE) ∧ ¬ lowVal > highVal) := by
  unfold startScan at h
  split at h
  · rename_i hops
    simp at h; subst h
    exact Or.inl ⟨rfl, hops⟩
  · rename_i hops
    dsimp only at h
    split at h
    · rename_i hrange
      simp at h; subst h
      exact Or.inr (Or.inl ⟨rfl, hops, hrange⟩)
    · rename_i hrange
      refine Or.inr (Or.inr ⟨?_, hops, hrange⟩)
      split at h
      · rename_i e1 h1
        simp at h; subst h
        rcases findLeaf2_error_cases h1 with h2 | h2 <;> simp [h2]
      · split at h
        · rename_i e1 h1
          simp at h; subst h
          rcases readLeaf_error_cases h1 with h2 | h2 <;> simp [h2]
        · split at h
          · split at h
            · rename_i s5 e1 h1
              simp at h; subst h
              exact scanNext_error_cases (by rw [h1])
            · simp at h
          · simp at h

/-! ## The claims -/

/-- C1: with two slots per leaf, after the entries `(1, (1,0))`, `(2, (2,0))`, `(3, (3,0))`
the leaves hold `1 | 2 3`; `startScan(2, GTE, 2, LTE)` returns normally and the scan then
ends at once with `IndexScanCompleted`, so the record id `(2,0)` inserted with key `2` is
not returned. -/
theorem scan_misses_first_key_of_leaf :
    ∃ s s1, insertAll smallParams (emptyIndex smallParams)
        [(1, ridOf 1), (2, ridOf 2), (3, ridOf 3)] = .ok s ∧
      leafChainEntries s.file 2 2 = [⟨ridOf 1, 1⟩, ⟨ridOf 2, 2⟩, ⟨ridOf 3, 3⟩] ∧
      startScan smallParams s 2 Operator.GTE 2 Operator.LTE = (s1, .ok ()) ∧
      scanAll smallParams 4 s1 = ([], some Exc.IndexScanCompleted) := by
  refine ⟨_, _, rfl, ?_, rfl, ?_⟩
  · decide
  · decide

set_option maxRecDepth 100000 in
/-- C2: on an index holding `(5, (1,0))` and `(5, (2,0))`, `startScan(5, GT, 10, LTE)`
returns normally and the first `scanNext` returns `(2,0)`, the record id of an entry
with key `5`, which is not above the low bound `5`. -/
theorem scan_GT_returns_low_key :
    ∃ s s1, insertAll pageParams (emptyIndex pageParams) [(5, ridOf 1), (5, ridOf 2)] = .ok s ∧
      leafChainEntries s.file 1 2 = [⟨ridOf 1, 5⟩, ⟨ridOf 2, 5⟩] ∧
      startScan pageParams s 5 Operator.GT 10 Operator.LTE = (s1, .ok ()) ∧
      (scanNext pageParams s1).2 = .ok (ridOf 2) := by
  refine ⟨_, _, rfl, ?_, rfl, ?_⟩
  · decide
  · decide

/-- C4: for leaves of at least two slots and non-leaf nodes of at least one key, on a
new index into which a non-empty list of entries with non-sentinel keys was inserted
(every `insertEntry` returns normally), a scan with a low bound below every inserted key
and a high bound above every inserted key starts normally, and its `scanNext` calls
return, before `IndexScanCompleted`, the record ids of the entries met on the walk
along the leaf chain from page 2, in that order; these entries are the inserted ones,
each once. -/
theorem full_scan_returns_all (p : Params) (hsize : 2 ≤ p.leafSize)
    (hnsize : 1 ≤ p.nonLeafSize) (relationName : List Nat) (attrByteOffset : Int)
    (scan0 : BTreeIndex) (ins : List (Int × RecordId)) (hne : ins ≠ [])
    (hkeys : ∀ e ∈ ins, e.1 ≠ invalidKey)
    (lowVal highVal : Int) (lowOp highOp : Operator)
    (hlowOp : lowOp = Operator.GT ∨ lowOp = Operator.GTE)
    (hhighOp : highOp = Operator.LT ∨ highOp = Operator.LTE)
    (hlow : ∀ e ∈ ins, lowVal < e.1) (hhigh : ∀ e ∈ ins, e.1 < highVal) :
    ∃ s s1, insertAll p (createIndex p relationName attrByteOffset scan0) ins = .ok s ∧
      startScan p s lowVal lowOp highVal highOp = (s1, .ok ()) ∧
      (∀ fuel, ins.length < fuel →
        scanAll p fuel s1
          = ((leafChainEntries s.file s.file.length 2).map (fun x => x.rid),
             some Exc.IndexScanCompleted)) ∧
      List.Perm ((leafChainEntries s.file s.file.length 2).map (fun x => (x.key, x.rid)))
        ins := by
  obtain ⟨s, hbuild, hinv⟩ := insertAll_inv hsize hnsize ins _ []
    (inv_createIndex p relationName attrByteOffset scan0) hkeys
  simp only [List.nil_append] at hinv
  have hstart := startScan_below_all hsize hinv hne lowVal highVal lowOp highOp
    hlowOp hhighOp hlow hhigh
  obtain ⟨chain, hleaf, hroot⟩ := hinv
  obtain ⟨es0, rest0, hhead⟩ := hleaf.head_two
  subst hhead
  have hperm := hleaf.2.2.2.2.2.2
  have hwalk : leafChainEntries s.file s.file.length 2
      = (((2, es0) :: rest0).map Prod.snd).flatten :=
    leafChainEntries_chain _ _ _ hleaf.2.1 (by simp) rfl (by have := hleaf.2.2.2.2.1; omega)
  have hnonempty : ∀ c ∈ rest0, c.2 ≠ [] := by
    intro c hc hnil
    have := hleaf.2.2.2.2.2.1 c (List.mem_cons_of_mem _ hc) hnil
    have hpos : 0 < rest0.length := List.length_pos_of_mem hc
    simp only [List.length_cons] at this
    omega
  have hpass : ∀ x ∈ es0 ++ (rest0.map Prod.snd).flatten,
      ¬ ((highOp = Operator.LT ∧ x.key ≥ highVal) ∨
        (highOp = Operator.LTE ∧ x.key > highVal)) := by
    intro x hx
    have hmem : x ∈ (((2, es0) :: rest0).map Prod.snd).flatten := by simpa using hx
    obtain ⟨e, he, hex⟩ := List.mem_map.1 (hperm.mem_iff.1 hmem)
    have hlt : x.key < highVal := by
      rw [← hex]
      exact hhigh e he
    intro h
    rcases h with h | h <;> omega
  refine ⟨s, _, hbuild, hstart, ?_, ?_⟩
  · intro fuel hfuel
    rw [hwalk]
    have hlen : (es0 ++ (rest0.map Prod.snd).flatten).length = ins.length := by
      have := hperm.length_eq
      simpa using this
    have := scanAll_chain highOp highVal rest0 2 es0 [] (by simpa using hleaf.2.1)
      hnonempty hpass
      { s with lowOp := lowOp, highOp := highOp, lowValInt := lowVal,
               highValInt := highVal, scanExecuting := true, currentPageNum := 2,
               nextEntry := 0 } rfl rfl rfl rfl rfl rfl fuel (by omega)
    simpa using this
  · rw [hwalk]
    have h1 := hperm.map (fun x : RIDKeyPair => (x.key, x.rid))
    have h2 : (ins.map toPair).map (fun x : RIDKeyPair => (x.key, x.rid)) = ins := by
      rw [List.map_map]
      conv_rhs => rw [← List.map_id ins]
      apply List.map_congr_left
      intro e _
      rfl
    rw [h2] at h1
    exact h1

/-- C4, at an example: four entries in two-slot leaves, scanned with the bounds `0` and
`9`. -/
theorem full_scan_returns_all_witness :
    2 ≤ smallParams.leafSize ∧ 1 ≤ smallParams.nonLeafSize ∧
    ([(3, ridOf 3), (1, ridOf 1), (4, ridOf 4), (2, ridOf 2)] : List (Int × RecordId)) ≠ [] ∧
    ∃ s s1, insertAll smallParams (createIndex smallParams [] 0 idleScan)
        [(3, ridOf 3), (1, ridOf 1), (4, ridOf 4), (2, ridOf 2)] = .ok s ∧
      startScan smallParams s 0 Operator.GT 9 Operator.LT = (s1, .ok ()) ∧
      (∀ fuel, ([(3, ridOf 3), (1, ridOf 1), (4, ridOf 4), (2, ridOf 2)] :
          List (Int × RecordId)).length < fuel →
        scanAll smallParams fuel s1
          = ((leafChainEntries s.file s.file.length 2).map (fun x => x.rid),
             some Exc.IndexScanCompleted)) ∧
      List.Perm ((leafChainEntries s.file s.file.length 2).map (fun x => (x.key, x.rid)))
        [(3, ridOf 3), (1, ridOf 1), (4, ridOf 4), (2, ridOf 2)] :=
  ⟨by decide, by decide, by decide,
    full_scan_returns_all smallParams (by decide) (by decide) [] 0 idleScan
      [(3, ridOf 3), (1, ridOf 1), (4, ridOf 4), (2, ridOf 2)] (by decide) (by decide)
      0 9 Operator.GT Operator.LT (Or.inl rfl) (Or.inl rfl) (by decide) (by decide)⟩

/-- C5: with two slots per leaf and two keys per non-leaf node, after the keys `1` to `6`
inserted in ascending order the walk along the leaf chain meets the keys
`1, 2, 6, 3, 4, 5`: the third leaf split fills the root, the root split that follows
is not propagated, and key `6` is then placed in the leaf of key `2`. With the entries
`(1, (1,0))`, `(5, (1,0))`, `(7, (1,0))`, `(5, (9,0))` the walk meets `(5, (9,0))` before
`(5, (1,0))`. -/
theorem leaf_chain_out_of_order :
    (∃ s, insertAll smallParams (emptyIndex smallParams)
        [(1, ridOf 1), (2, ridOf 2), (3, ridOf 3), (4, ridOf 4), (5, ridOf 5), (6, ridOf 6)]
          = .ok s ∧
      (leafChainEntries s.file 8 2).map (fun e => e.key) = [1, 2, 6, 3, 4, 5]) ∧
    (∃ s, insertAll smallParams (emptyIndex smallParams)
        [(1, ridOf 1), (5, ridOf 1), (7, ridOf 1), (5, ridOf 9)] = .ok s ∧
      leafChainEntries s.file 8 2
        = [⟨ridOf 1, 1⟩, ⟨ridOf 9, 5⟩, ⟨ridOf 1, 5⟩, ⟨ridOf 1, 7⟩]) := by
  refine ⟨⟨_, rfl, ?_⟩, ⟨_, rfl, ?_⟩⟩
  · decide
  · decide

/-- C6: `startScan` ends with `BadOpcodes` exactly when the low operator is not `GT` or
`GTE` or the high operator is not `LT` or `LTE`, whatever the two bounds are, and then the
index, scan members included, is what it was before the call. -/
theorem startScan_BadOpcodes_iff (p : Params) (s : BTreeIndex) (lowVal highVal : Int)
    (lowOp highOp : Operator) :
    ((startScan p s lowVal lowOp highVal highOp).2 = .error Exc.BadOpcodes ↔
      (¬ (lowOp = Operator.GT ∨ lowOp = Operator.GTE) ∨
        ¬ (highOp = Operator.LT ∨ highOp = Operator.LTE))) ∧
    ((¬ (lowOp = Operator.GT ∨ lowOp = Operator.GTE) ∨
        ¬ (highOp = Operator.LT ∨ highOp = Operator.LTE)) ↔
      startScan p s lowVal lowOp highVal highOp = (s, .error Exc.BadOpcodes)) := by
  have hops : (¬ (lowOp = Operator.GT ∨ lowOp = Operator.GTE) ∨
        ¬ (highOp = Operator.LT ∨ highOp = Operator.LTE)) ↔
      (lowOp = Operator.LT ∨ lowOp = Operator.LTE ∨
        highOp = Operator.GT ∨ highOp = Operator.GTE) := by
    cases lowOp <;> cases highOp <;> simp
  have hthrow : (lowOp = Operator.LT ∨ lowOp = Operator.LTE ∨
        highOp = Operator.GT ∨ highOp = Operator.GTE) →
      startScan p s lowVal lowOp highVal highOp = (s, .error Exc.BadOpcodes) := by
    intro h
    unfold startScan
    rw [if_pos h]
  have hback : (startScan p s lowVal lowOp highVal highOp).2 = .error Exc.BadOpcodes →
      (lowOp = Operator.LT ∨ lowOp = Operator.LTE ∨
        highOp = Operator.GT ∨ highOp = Operator.GTE) := by
    intro h
    rcases startScan_error_cases h with h1 | h1 | h1
    · exact h1.2
    · exact absurd h1.1 (by decide)
    · rcases h1.1 with h2 | h2 | h2 | h2 <;> exact absurd h2 (by decide)
  refine ⟨⟨fun h => hops.2 (hback h), fun h => by rw [hthrow (hops.1 h)]⟩,
    ⟨fun h => hthrow (hops.1 h), fun h => hops.2 (hback (by rw [h]))⟩⟩

/-- C7: with a low operator `GT` or `GTE` and a high operator `LT` or `LTE`, `startScan`
ends with `BadScanrange` exactly when `lowVal > highVal`; equal bounds never give
`BadScanrange`. -/
theorem startScan_BadScanrange_iff (p : Params) (s : BTreeIndex) (lowVal highVal : Int)
    (lowOp highOp : Operator)
    (hlow : lowOp = Operator.GT ∨ lowOp = Operator.GTE)
    (hhigh : highOp = Operator.LT ∨ highOp = Operator.LTE) :
    ((startScan p s lowVal lowOp highVal highOp).2 = .error Exc.BadScanrange ↔
      lowVal > highVal) ∧
    (lowVal = highVal →
      (startScan p s lowVal lowOp highVal highOp).2 ≠ .error Exc.BadScanrange) := by
  have hops : ¬ (lowOp = Operator.LT ∨ lowOp = Operator.LTE ∨
        highOp = Operator.GT ∨ highOp = Operator.GTE) := by
    rcases hlow with h | h <;> rcases hhigh with h' | h' <;> subst h <;> subst h' <;> simp
  have hiff : (startScan p s lowVal lowOp highVal highOp).2 = .error Exc.BadScanrange ↔
      lowVal > highVal := by
    constructor
    · intro h
      rcases startScan_error_cases h with h1 | h1 | h1
      · exact absurd h1.1 (by decide)
      · exact h1.2.2
      · rcases h1.1 with h2 | h2 | h2 | h2 <;> exact absurd h2 (by decide)
    · intro h
      unfold startScan
      rw [if_neg hops]
      dsimp only
      rw [if_pos h]
  refine ⟨hiff, fun heq h => ?_⟩
  have := hiff.1 h
  omega

/-- C7, at an example: bounds `7 > 3` with operators `GTE`, `LTE` on a new index. -/
theorem startScan_BadScanrange_iff_witness :
    (Operator.GTE = Operator.GT ∨ Operator.GTE = Operator.GTE) ∧
    (Operator.LTE = Operator.LT ∨ Operator.LTE = Operator.LTE) ∧
    (((startScan pageParams (emptyIndex pageParams) 7 Operator.GTE 3 Operator.LTE).2
        = .error Exc.BadScanrange ↔ (7 : Int) > 3) ∧
      ((7 : Int) = 3 →
        (startScan pageParams (emptyIndex pageParams) 7 Operator.GTE 3 Operator.LTE).2
          ≠ .error Exc.BadScanrange)) :=
  ⟨Or.inr rfl, Or.inr rfl,
    startScan_BadScanrange_iff pageParams (emptyIndex pageParams) 7 3 Operator.GTE Operator.LTE
      (Or.inr rfl) (Or.inr rfl)⟩

set_option maxRecDepth 100000 in
/-- C8: two scans whose bounds no stored key satisfies, on indexes with 682-slot leaves.
On a new index without entries `startScan(5, GTE, 10, LTE)`, valid operators and
`5 <= 10`, does not return normally: it ends with `IndexScanCompleted`, thrown by the
`scanNext` call it makes on the sentinel slot, and not with `NoSuchKeyFound`. On the
index that holds the keys 1 and 2 the same call ends in the same way. -/
theorem startScan_without_match_throws :
    (startScan pageParams (emptyIndex pageParams) 5 Operator.GTE 10 Operator.LTE).2
        = .error Exc.IndexScanCompleted ∧
    (startScan pageParams (emptyIndex pageParams) 5 Operator.GTE 10 Operator.LTE).2
        ≠ .ok () ∧
    (startScan pageParams (emptyIndex pageParams) 5 Operator.GTE 10 Operator.LTE).2
        ≠ .error Exc.NoSuchKeyFound ∧
    ∃ s, insertAll pageParams (emptyIndex pageParams) [(1, ridOf 1), (2, ridOf 2)] = .ok s ∧
      leafChainEntries s.file 1 2 = [⟨ridOf 1, 1⟩, ⟨ridOf 2, 2⟩] ∧
      (startScan pageParams s 5 Operator.GTE 10 Operator.LTE).2
        = .error Exc.IndexScanCompleted ∧
      (startScan pageParams s 5 Operator.GTE 10 Operator.LTE).2 ≠ .ok () ∧
      (startScan pageParams s 5 Operator.GTE 10 Operator.LTE).2
        ≠ .error Exc.NoSuchKeyFound := by
  have h : (startScan pageParams (emptyIndex pageParams) 5 Operator.GTE 10 Operator.LTE).2
      = .error Exc.IndexScanCompleted := by decide
  refine ⟨h, by rw [h]; decide, by rw [h]; decide, _, rfl, ?_, ?_, ?_, ?_⟩ <;> decide

/-- What `startScan` does on every newly created index without entries (leaf array size
at least 1), for every low operator `GT` or `GTE`, high operator `LT` or `LTE` and
`lowVal <= highVal`: it ends with `IndexScanCompleted`, thrown by the `scanNext` call it
makes on finding the sentinel in the first slot; `scanExecuting` is true afterwards, and
the next `scanNext` call ends with `IndexScanCompleted` as well and changes nothing. -/
theorem startScan_empty_index (p : Params) (relationName : List Nat) (attrByteOffset : Int)
    (scan0 : BTreeIndex) (lowVal highVal : Int) (lowOp highOp : Operator)
    (hsize : 0 < p.leafSize)
    (hlow : lowOp = Operator.GT ∨ lowOp = Operator.GTE)
    (hhigh : highOp = Operator.LT ∨ highOp = Operator.LTE)
    (hrange : lowVal ≤ highVal) :
    ∃ s1, startScan p (createIndex p relationName attrByteOffset scan0)
        lowVal lowOp highVal highOp = (s1, .error Exc.IndexScanCompleted) ∧
      s1.scanExecuting = true ∧
      s1.file = (createIndex p relationName attrByteOffset scan0).file ∧
      scanNext p s1 = (s1, .error Exc.IndexScanCompleted) := by
  have hops : ¬ (lowOp = Operator.LT ∨ lowOp = Operator.LTE ∨
        highOp = Operator.GT ∨ highOp = Operator.GTE) := by
    rcases hlow with h | h <;> rcases hhigh with h' | h' <;> subst h <;> subst h' <;> simp
  have hrange' : ¬ lowVal > highVal := by omega
  have hkey : (LeafNode.fresh p).getKeyAt p 0 = invalidKey := by
    unfold LeafNode.getKeyAt
    rw [if_pos hsize]
    exact fresh_getKey p 0
  have hnext : ∀ s : BTreeIndex, s.scanExecuting = true →
      s.file = (createIndex p relationName attrByteOffset scan0).file →
      s.currentPageNum = 2 → s.nextEntry = 0 →
      scanNext p s = (s, .error Exc.IndexScanCompleted) := by
    intro s h1 h2 h3 h4
    unfold scanNext
    rw [if_neg (by simp [h1])]
    have hrd : readLeaf s.file s.currentPageNum = .ok (LeafNode.fresh p) := by
      rw [h2, h3]
      rfl
    rw [hrd]
    dsimp only
    rw [if_pos (Or.inr (by rw [h4]; exact fresh_getKey p 0))]
    rw [if_pos (by rfl)]
  refine ⟨{ createIndex p relationName attrByteOffset scan0 with
      lowOp := lowOp, highOp := highOp, lowValInt := lowVal, highValInt := highVal,
      scanExecuting := true, currentPageNum := 2, nextEntry := 0 }, ?_, rfl, rfl,
    hnext _ rfl rfl rfl rfl⟩
  · unfold startScan
    rw [if_neg hops]
    dsimp only
    rw [if_neg hrange']
    have hfl : findLeaf2 p
        { createIndex p relationName attrByteOffset scan0 with
          lowOp := lowOp, highOp := highOp, lowValInt := lowVal, highValInt := highVal,
          scanExecuting := true } lowVal = .ok 2 := by
      unfold findLeaf2
      rw [if_pos (by rfl)]
    rw [hfl]
    dsimp only
    have hrd : readLeaf (createIndex p relationName attrByteOffset scan0).file 2
        = .ok (LeafNode.fresh p) := rfl
    rw [hrd]
    dsimp only
    rw [fresh_search, if_pos (Or.inr hkey)]
    rw [hnext { file := (createIndex p relationName attrByteOffset scan0).file,
                metaInfo := (createIndex p relationName attrByteOffset scan0).metaInfo,
                scanExecuting := true, nextEntry := 0, currentPageNum := 2,
                lowValInt := lowVal, highValInt := highVal, lowOp := lowOp,
                highOp := highOp } rfl rfl rfl rfl]

/-- The theorem `startScan_empty_index` at an example: a new index with 682-slot leaves,
scan `[5, 10]` with `GTE`, `LTE`. -/
theorem startScan_empty_index_witness :
    0 < pageParams.leafSize ∧
    (Operator.GTE = Operator.GT ∨ Operator.GTE = Operator.GTE) ∧
    (Operator.LTE = Operator.LT ∨ Operator.LTE = Operator.LTE) ∧
    (5 : Int) ≤ 10 ∧
    ∃ s1, startScan pageParams (createIndex pageParams [] 0 idleScan)
        5 Operator.GTE 10 Operator.LTE = (s1, .error Exc.IndexScanCompleted) ∧
      s1.scanExecuting = true ∧
      s1.file = (createIndex pageParams [] 0 idleScan).file ∧
      scanNext pageParams s1 = (s1, .error Exc.IndexScanCompleted) :=
  ⟨by decide, Or.inr rfl, Or.inr rfl, by decide,
    startScan_empty_index pageParams [] 0 idleScan 5 10 Operator.GTE Operator.LTE
      (by decide) (Or.inr rfl) (Or.inr rfl) (by decide)⟩

/-- C9: while `scanExecuting` is false, `scanNext` and `endScan` both end with
`ScanNotInitialized` and leave the index, file and members, as it was. -/
theorem scanNext_endScan_not_initialized (p : Params) (s : BTreeIndex)
    (h : s.scanExecuting = false) :
    scanNext p s = (s, .error Exc.ScanNotInitialized) ∧
    endScan s = (s, .error Exc.ScanNotInitialized) := by
  constructor
  · unfold scanNext
    rw [if_pos h]
  · unfold endScan
    rw [if_pos h]

/-- C9, at an example: a new index on which no scan was started. -/
theorem scanNext_endScan_not_initialized_witness :
    (emptyIndex pageParams).scanExecuting = false ∧
    (scanNext pageParams (emptyIndex pageParams)
        = (emptyIndex pageParams, .error Exc.ScanNotInitialized) ∧
      endScan (emptyIndex pageParams)
        = (emptyIndex pageParams, .error Exc.ScanNotInitialized)) :=
  ⟨rfl, scanNext_endScan_not_initialized pageParams (emptyIndex pageParams) rfl⟩

set_option maxRecDepth 100000 in
/-- C10: `endScan` leaves every member as it was, `scanExecuting` included. On an index
holding the entry `(5, (1,0))`, after `startScan(5, GTE, 5, LTE)` the call `endScan()`
returns normally with `scanExecuting` still true, and the `scanNext` after it returns the
record id `(1,0)` where `ScanNotInitialized` is due. -/
theorem endScan_keeps_scan_state :
    (∀ s : BTreeIndex, (endScan s).1 = s) ∧
    ∃ s s1, insertAll pageParams (emptyIndex pageParams) [(5, ridOf 1)] = .ok s ∧
      startScan pageParams s 5 Operator.GTE 5 Operator.LTE = (s1, .ok ()) ∧
      endScan s1 = (s1, .ok ()) ∧
      (endScan s1).1.scanExecuting = true ∧
      (scanNext pageParams (endScan s1).1).2 = .ok (ridOf 1) := by
  refine ⟨fun s => ?_, _, _, rfl, rfl, rfl, rfl, ?_⟩
  · unfold endScan
    split <;> rfl
  · decide

/-! ## C11, C12, C13, C18, C19: the code at the inputs where it leaves the claim -/

/-- C11: the constructor compares nothing when the index file exists. Whatever relation
name, offset and attribute type it is given, it returns normally as soon as page 1 of the
file is a meta page, and takes the meta information from the file. On the file of an index
created for relation name `[114]`, offset `0`, type `INTEGER`, the constructor called
with relation name `[114]`, offset `0` and type `DOUBLE` returns normally, with
`attributeType = DOUBLE` next to `meta.attrType = INTEGER`. -/
theorem openIndex_checks_nothing :
    (∀ (file : List Page) (m : IndexMetaInfo) (relationName : List Nat) (attrByteOffset : Int)
        (attrType : Datatype) (scan0 : BTreeIndex),
      readPage file 1 = some (Page.metaInfo m) →
      openIndex file relationName attrByteOffset attrType scan0
        = .ok { index := { scan0 with file := file, metaInfo := m }
                attributeType := attrType
                attrByteOffset := attrByteOffset
                outIndexName := (relationName, attrByteOffset) }) ∧
    ∃ opened, openIndex (createIndex smallParams [114] 0 idleScan).file [114] 0
        Datatype.DOUBLE idleScan = .ok opened ∧
      opened.attributeType = Datatype.DOUBLE ∧
      opened.index.metaInfo.attrType = Datatype.INTEGER := by
  refine ⟨?_, _, rfl, rfl, rfl⟩
  intro file m relationName attrByteOffset attrType scan0 h
  unfold openIndex
  rw [h]

/-- C12: with two slots per leaf and two keys per non-leaf node, after the keys `1` to `4`
the root is page 4 and full (keys `2, 3`). The insert of key `5` splits it: the file grows
by the new leaf (page 6) and the new right non-leaf node (page 7), the root page keeps
the key `2` only, and no new root is made: `meta.rootPageNo` is still 4, the meta page
still records 4, and the non-leaf pages 4 and 7 both have level 1. -/
theorem root_split_makes_no_new_root :
    ∃ s4 s5, insertAll smallParams (emptyIndex smallParams)
        [(1, ridOf 1), (2, ridOf 2), (3, ridOf 3), (4, ridOf 4)] = .ok s4 ∧
      s4.metaInfo.rootPageNo = 4 ∧
      readNonLeaf s4.file 4 = .ok ⟨1, [2, 3], [2, 3, 5]⟩ ∧
      NonLeafNode.isFull smallParams ⟨1, [2, 3], [2, 3, 5]⟩ = true ∧
      insertEntry smallParams s4 5 (ridOf 5) = (s5, .ok ()) ∧
      s4.file.length = 5 ∧ s5.file.length = 7 ∧
      readNonLeaf s5.file 4 = .ok ⟨1, [2, -1], [2, 3, 5]⟩ ∧
      readNonLeaf s5.file 7 = .ok ⟨1, [4, -1], [5, 6, 0]⟩ ∧
      s5.metaInfo.rootPageNo = 4 ∧
      readPage s5.file 1 = some (Page.metaInfo ⟨[], 0, Datatype.INTEGER, 4⟩) := by
  refine ⟨_, _, rfl, ?_, ?_, ?_, rfl, ?_, ?_, ?_, ?_, ?_, ?_⟩ <;> decide

/-- C13: with two slots per leaf and two keys per non-leaf node, after the keys `1` to `5`
the sibling chain from page 2 runs over the leaf pages `2, 3, 5, 6`, while the descent
from the root recorded in the meta information (page 4) can end on the pages `2` and `3`
only: the leaves on pages 5 and 6 are not reachable from the root. -/
theorem leaves_unreachable_after_root_split :
    ∃ s, insertAll smallParams (emptyIndex smallParams)
        [(1, ridOf 1), (2, ridOf 2), (3, ridOf 3), (4, ridOf 4), (5, ridOf 5)] = .ok s ∧
      leafChainPages s.file s.file.length 2 = [2, 3, 5, 6] ∧
      s.metaInfo.rootPageNo = 4 ∧
      leavesFromRoot smallParams s = [(2, 1), (3, 1)] ∧
      readNonLeaf s.file 4 = .ok ⟨1, [2, -1], [2, 3, 5]⟩ := by
  refine ⟨_, rfl, ?_, ?_, ?_, ?_⟩ <;> decide

/-- The key slot `size / 2` of a cleared key array into which at most `size / 2` keys
were stored from slot `0` is the sentinel. -/
theorem getD_setFrom_half (size : Nat) (ks : List Int) (hlen : ks.length ≤ size / 2) :
    (setFrom (List.replicate size invalidKey) 0 ks).getD (size / 2) invalidKey
      = invalidKey := by
  rw [setFrom_eq _ _ _ (by simp; omega)]
  simp only [List.take_zero, List.nil_append, Nat.zero_add]
  rw [List.getD_append_right _ _ _ _ hlen, List.drop_replicate]
  exact getD_replicate_self _ _ _

/-- C18: the key `NonLeafNodeContainer::split` returns is read from the left node after
it was cleared and refilled below slot `length / 2`, so it is the sentinel for every node
and every incoming pair. For the full node with keys `2, 3`, page numbers `2, 3, 5` and
the incoming pair `(6, 4)` the sorted pairs are `(3,2), (5,3), (6,4)`, the middle entry
has key `3`, and the pair returned is `(7, -1)`. -/
theorem nonLeaf_split_returns_sentinel :
    (∀ (p : Params) (n : NonLeafNode) (pk : PageKeyPair) (rightPID : Nat),
      (n.split p pk rightPID).2.2.key = invalidKey) ∧
    sortPageKeyPairs (⟨6, 4⟩ :: allChildren [2, 3] [3, 5]) = [⟨3, 2⟩, ⟨5, 3⟩, ⟨6, 4⟩] ∧
    (NonLeafNode.split smallParams ⟨1, [2, 3], [2, 3, 5]⟩ ⟨6, 4⟩ 7).2.2 = ⟨7, -1⟩ := by
  refine ⟨?_, by decide, by decide⟩
  intro p n pk rightPID
  unfold NonLeafNode.split
  dsimp only
  rw [NonleafStore_eq]
  unfold NonLeafNode.getKey NonLeafNode.setPageNo NonLeafNode.clear
  dsimp only
  exact getD_setFrom_half _ _ (by simp)

/-- C19: the value `insertNonLeaf` returns is `false` in every case, also when the node
was full and was split. On the index holding the keys `1` to `4` (two-slot leaves,
two-key nodes, full root on page 4) the insert of key `5` splits the leaf on page 5 and
hands the pair `(6, 4)` to `insertNonLeaf` for the root: the root is split, the file
grows by the page of the new right node, and the value returned is `false`. -/
theorem insertNonLeaf_returns_false :
    (∀ (p : Params) (file file1 : List Page) (nodePID : Nat) (pk pk1 : PageKeyPair)
        (isAboveLeaf b : Bool),
      insertNonLeaf p file nodePID pk isAboveLeaf = .ok (file1, b, pk1) → b = false) ∧
    ∃ s4 file6 file7, insertAll smallParams (emptyIndex smallParams)
        [(1, ridOf 1), (2, ridOf 2), (3, ridOf 3), (4, ridOf 4)] = .ok s4 ∧
      insertLeaf smallParams s4.file 5 (ridOf 5) 5 ⟨0, 0⟩ = .ok (file6, true, ⟨6, 4⟩) ∧
      readNonLeaf file6 4 = .ok ⟨1, [2, 3], [2, 3, 5]⟩ ∧
      NonLeafNode.isFull smallParams ⟨1, [2, 3], [2, 3, 5]⟩ = true ∧
      insertNonLeaf smallParams file6 4 ⟨6, 4⟩ true = .ok (file7, false, ⟨7, -1⟩) ∧
      file7.length = file6.length + 1 ∧
      readNonLeaf file7 7 = .ok ⟨1, [4, -1], [5, 6, 0]⟩ := by
  refine ⟨?_, _, _, _, rfl, rfl, by decide, by decide, rfl, by decide, by decide⟩
  intro p file file1 nodePID pk pk1 isAboveLeaf b h
  unfold insertNonLeaf at h
  cases hrd : readNonLeaf file nodePID with
  | error e =>
    rw [hrd] at h
    simp at h
  | ok node =>
    rw [hrd] at h
    dsimp only at h
    by_cases hf : NonLeafNode.isFull p
        { node with level := if isAboveLeaf = true then 1 else 0 } = true
    · rw [if_pos hf] at h
      simp only [allocatePage, Except.ok.injEq, Prod.mk.injEq] at h
      exact h.2.1.symm
    · rw [if_neg hf] at h
      simp only [Except.ok.injEq, Prod.mk.injEq] at h
      exact h.2.1.symm

/-! ## C16: `isFull` -/

/-- The key in a slot of a left-packed array that lies at or before a slot with a key that
is not the sentinel is itself not the sentinel. -/
theorem LeftPacked.occupied_before {size : Nat} {keys : List Int} (h : LeftPacked size keys)
    {i j : Nat} (hij : i ≤ j) (hj : j < size) (hkey : keys.getD j invalidKey ≠ invalidKey) :
    keys.getD i invalidKey ≠ invalidKey := by
  intro hi
  rcases Nat.lt_or_eq_of_le hij with hlt | heq
  · exact hkey (h.2 i j hlt hj hi)
  · rw [heq] at hi
    exact hkey hi

/-- C16: for every leaf and every non-leaf node `isFull` is true exactly when the key in
the last key slot is not the sentinel; and for a node whose key array (of at least one
slot) is left-packed this is the case exactly when no key slot holds the sentinel. -/
theorem isFull_iff_no_free_slot (p : Params) :
    (∀ n : LeafNode, n.isFull p = true ↔ n.getKey (p.leafSize - 1) ≠ invalidKey) ∧
    (∀ n : NonLeafNode, n.isFull p = true ↔ n.getKey (p.nonLeafSize - 1) ≠ invalidKey) ∧
    (∀ n : LeafNode, 0 < p.leafSize → LeftPacked p.leafSize n.keyArray →
      (n.isFull p = true ↔ ∀ i, i < p.leafSize → n.getKey i ≠ invalidKey)) ∧
    (∀ n : NonLeafNode, 0 < p.nonLeafSize → LeftPacked p.nonLeafSize n.keyArray →
      (n.isFull p = true ↔ ∀ i, i < p.nonLeafSize → n.getKey i ≠ invalidKey)) := by
  refine ⟨?_, ?_, ?_, ?_⟩
  · intro n
    simp [LeafNode.isFull]
  · intro n
    simp [NonLeafNode.isFull]
  · intro n hsize hpacked
    unfold LeafNode.isFull LeafNode.getKey
    simp only [decide_eq_true_eq]
    constructor
    · intro hlast i hi
      exact hpacked.occupied_before (by omega) (by omega) hlast
    · intro hall
      exact hall (p.leafSize - 1) (by omega)
  · intro n hsize hpacked
    unfold NonLeafNode.isFull NonLeafNode.getKey
    simp only [decide_eq_true_eq]
    constructor
    · intro hlast i hi
      exact hpacked.occupied_before (by omega) (by omega) hlast
    · intro hall
      exact hall (p.nonLeafSize - 1) (by omega)

/-! ## C17: the split of the root leaf -/

/-- The key `LeafNodeContainer::split` returns is the key in slot `0` of the new right
leaf. -/
theorem LeafHolds.split_key {p : Params} {n : LeafNode} {es : List RIDKeyPair}
    (h : LeafHolds p n es) (hfull : es.length = p.leafSize) (hsize : 2 ≤ p.leafSize)
    (pair : RIDKeyPair) (hkey : pair.key ≠ invalidKey) (rightPID : Nat) :
    (n.split p pair rightPID).2.2.key = (n.split p pair rightPID).2.1.getKey 0 ∧
      (n.split p pair rightPID).2.2.key ≠ invalidKey := by
  obtain ⟨-, hright, -, -, -, -, -, -⟩ := h.split hfull hsize pair hkey rightPID
  have hlen : (sortRIDKeyPairs (pair :: es)).length = p.leafSize + 1 := by
    rw [(sortRIDKeyPairs_perm (pair :: es)).length_eq]; simp [hfull]
  have hidx : p.leafSize / 2 < (sortRIDKeyPairs (pair :: es)).length := by omega
  have hdrop : (sortRIDKeyPairs (pair :: es)).drop (p.leafSize / 2)
      = (sortRIDKeyPairs (pair :: es))[p.leafSize / 2] ::
        (sortRIDKeyPairs (pair :: es)).drop (p.leafSize / 2 + 1) :=
    List.drop_eq_getElem_cons hidx
  rw [hdrop] at hright
  obtain ⟨hk, -, -, hvalid⟩ := @LeafHolds.getKey_at p _ [] _ _ hright
  have hret : (n.split p pair rightPID).2.2.key
      = (sortRIDKeyPairs (pair :: es))[p.leafSize / 2].key := by
    unfold LeafNode.split
    rw [h.entries_eq]
    dsimp only
    rw [List.getD_eq_getElem _ _ hidx]
  simp only [List.length_nil] at hk
  rw [hret, hk]
  exact ⟨rfl, hvalid⟩

/-- C17: on an index whose root is page 2, a full well-formed leaf (at least two slots,
non-leaf nodes of at least one key), `insertEntry` with a key that is not the sentinel
returns normally after it has put the new right leaf on the first new page and a new root
on the second: a non-leaf node of level 1 with page 2 in page number slot `0`, the new
leaf's page in slot `1`, the key of slot `0` of the new leaf in key slot `0` and the
sentinel in every other key slot. `meta.rootPageNo` is the page of the new root and
page 1 of the file holds this meta information. -/
theorem insertEntry_root_leaf_split (p : Params) (s : BTreeIndex) (n : LeafNode)
    (es : List RIDKeyPair) (key : Int) (rid : RecordId)
    (hsize : 2 ≤ p.leafSize) (hnsize : 1 ≤ p.nonLeafSize)
    (hroot : s.metaInfo.rootPageNo = 2) (hrd : readLeaf s.file 2 = .ok n)
    (hholds : LeafHolds p n es) (hfull : n.isFull p = true) (hkey : key ≠ invalidKey) :
    ∃ s1 node right, insertEntry p s key rid = (s1, .ok ()) ∧
      s1.file.length = s.file.length + 2 ∧
      s1.metaInfo.rootPageNo = s.file.length + 2 ∧
      readPage s1.file 1 = some (Page.metaInfo s1.metaInfo) ∧
      readNonLeaf s1.file (s.file.length + 2) = .ok node ∧
      readLeaf s1.file (s.file.length + 1) = .ok right ∧
      node.level = 1 ∧ node.getPageNo 0 = 2 ∧ node.getPageNo 1 = s.file.length + 1 ∧
      node.getKey 0 = right.getKey 0 ∧ right.getKey 0 ≠ invalidKey ∧
      (∀ i, 1 ≤ i → node.getKey i = invalidKey) := by
  have hes : es.length = p.leafSize := (hholds.isFull_iff_length (by omega)).1 hfull
  have hpid := readLeaf_ok_le hrd
  obtain ⟨hretkey, hretvalid⟩ := hholds.split_key hes hsize ⟨rid, key⟩ hkey (s.file.length + 1)
  obtain ⟨-, -, -, -, hpkpage, -, -, -⟩ :=
    hholds.split hes hsize ⟨rid, key⟩ hkey (s.file.length + 1)
  obtain ⟨hins, hlevel⟩ := (nodeHolds_newRoot p (if true = true then 1 else 0) 2).insert_node
    (by simp; omega) (n.split p ⟨rid, key⟩ (s.file.length + 1)).2.2 hretvalid
  have hsort : sortPageKeyPairs [(n.split p ⟨rid, key⟩ (s.file.length + 1)).2.2]
      = [(n.split p ⟨rid, key⟩ (s.file.length + 1)).2.2] := rfl
  rw [hsort] at hins
  have hstep : insertEntry p s key rid
      = (newRoot p
          { s with
            file := (writePage
              (writePage (s.file ++ [Page.blank]) (s.file.length + 1)
                (Page.leaf (n.split p ⟨rid, key⟩ (s.file.length + 1)).2.1))
              2 (Page.leaf (n.split p ⟨rid, key⟩ (s.file.length + 1)).1)) }
          (n.split p ⟨rid, key⟩ (s.file.length + 1)).2.2 2 true, .ok ()) := by
    have hfind : findLeaf p s key = .ok (2, []) := by
      unfold findLeaf
      rw [if_pos hroot]
    unfold insertEntry
    rw [hfind]
    dsimp only
    rw [insertLeaf_full key rid _ hrd hfull]
    simp [propagateLoop]
  refine ⟨_, (NonLeafNode.setPageNo
      { NonLeafNode.fresh p with level := if true = true then 1 else 0 } 0 2).insert p
      (n.split p ⟨rid, key⟩ (s.file.length + 1)).2.2,
    (n.split p ⟨rid, key⟩ (s.file.length + 1)).2.1, hstep, ?_, ?_, ?_, ?_, ?_, hlevel,
    hins.getPageNo_zero, ?_, ?_, ?_, ?_⟩
  · simp [newRoot, allocatePage, length_writePage]
  · simp [newRoot, allocatePage, length_writePage]
  · simp only [newRoot, allocatePage]
    exact readPage_writePage_same _ (by omega)
      (by simp [length_writePage])
  · simp only [newRoot, allocatePage, length_writePage, List.length_append,
      List.length_singleton]
    rw [readNonLeaf_writePage_ne _ (by omega) (by omega)]
    exact readNonLeaf_writePage_same _ (by omega) (by simp [length_writePage])
  · simp only [newRoot, allocatePage, length_writePage, List.length_append,
      List.length_singleton]
    rw [readLeaf_writePage_ne _ (by omega) (by omega),
      readLeaf_writePage_ne _ (by omega) (by omega),
      readLeaf_append _ (by simp [length_writePage]),
      readLeaf_writePage_ne _ (by omega) (by omega)]
    exact readLeaf_writePage_same _ (by omega) (by simp)
  · obtain ⟨-, -, -, rest, hp, -⟩ := hins
    unfold NonLeafNode.getPageNo
    rw [hp, ← hpkpage]
    rfl
  · obtain ⟨-, -, hk, -⟩ := hins
    unfold NonLeafNode.getKey
    rw [hk, ← hretkey]
    rfl
  · rw [← hretkey]
    exact hretvalid
  · intro i hi
    obtain ⟨-, -, hk, -⟩ := hins
    unfold NonLeafNode.getKey
    rw [hk]
    obtain ⟨j, hj⟩ : ∃ j, i = j + 1 := ⟨i - 1, by omega⟩
    rw [hj]
    simp only [List.map_cons, List.map_nil, List.singleton_append, List.getD_cons_succ]
    exact getD_replicate_self _ _ _

/-- C17, at an example: two-slot leaves, the root leaf holding the keys `1` and `2`, the
insert of key `3`. -/
theorem insertEntry_root_leaf_split_witness :
    2 ≤ smallParams.leafSize ∧ 1 ≤ smallParams.nonLeafSize ∧
    ∃ s, insertAll smallParams (emptyIndex smallParams) [(1, ridOf 1), (2, ridOf 2)] = .ok s ∧
      s.metaInfo.rootPageNo = 2 ∧
      readLeaf s.file 2 = .ok ⟨[1, 2], [ridOf 1, ridOf 2], 0⟩ ∧
      LeafHolds smallParams ⟨[1, 2], [ridOf 1, ridOf 2], 0⟩ [⟨ridOf 1, 1⟩, ⟨ridOf 2, 2⟩] ∧
      LeafNode.isFull smallParams ⟨[1, 2], [ridOf 1, ridOf 2], 0⟩ = true ∧
      (3 : Int) ≠ invalidKey ∧
      ∃ s1 node right, insertEntry smallParams s 3 (ridOf 3) = (s1, .ok ()) ∧
        s1.file.length = s.file.length + 2 ∧
        s1.metaInfo.rootPageNo = s.file.length + 2 ∧
        readPage s1.file 1 = some (Page.metaInfo s1.metaInfo) ∧
        readNonLeaf s1.file (s.file.length + 2) = .ok node ∧
        readLeaf s1.file (s.file.length + 1) = .ok right ∧
        node.level = 1 ∧ node.getPageNo 0 = 2 ∧ node.getPageNo 1 = s.file.length + 1 ∧
        node.getKey 0 = right.getKey 0 ∧ right.getKey 0 ≠ invalidKey ∧
        (∀ i, 1 ≤ i → node.getKey i = invalidKey) :=
  ⟨by decide, by decide, _, rfl, rfl, rfl,
    ⟨by decide, by decide, rfl, [], rfl, rfl⟩, by decide, by decide,
    insertEntry_root_leaf_split smallParams _ ⟨[1, 2], [ridOf 1, ridOf 2], 0⟩
      [⟨ridOf 1, 1⟩, ⟨ridOf 2, 2⟩] 3 (ridOf 3) (by decide) (by decide) rfl rfl
      ⟨by decide, by decide, rfl, [], rfl, rfl⟩ (by decide) (by decide)⟩

/-! ## C20: the distribution of `NonLeafNodeContainer::split` -/

theorem getD_setFrom {α : Type} (d : α) (vs : List α) :
    ∀ (l : List α) (idx i : Nat), idx + vs.length ≤ l.length →
      (setFrom l idx vs).getD i d
        = if idx ≤ i ∧ i < idx + vs.length then vs.getD (i - idx) d else l.getD i d := by
  induction vs with
  | nil =>
    intro l idx i _
    have : ¬ (idx ≤ i ∧ i < idx + ([] : List α).length) := by simp
    rw [if_neg this]
    rfl
  | cons v vs ih =>
    intro l idx i hlen
    simp only [List.length_cons] at hlen
    simp only [setFrom]
    rw [ih _ _ _ (by simp; omega)]
    by_cases h1 : idx + 1 ≤ i ∧ i < idx + 1 + vs.length
    · have h2 : idx ≤ i ∧ i < idx + (v :: vs).length := by simp; omega
      rw [if_pos h1, if_pos h2]
      obtain ⟨j, hj⟩ : ∃ j, i - idx = j + 1 := ⟨i - idx - 1, by omega⟩
      rw [hj, List.getD_cons_succ]
      congr 1
      omega
    · rw [if_neg h1]
      by_cases h3 : i = idx
      · have h2 : idx ≤ i ∧ i < idx + (v :: vs).length := by simp; omega
        rw [if_pos h2, h3, Nat.sub_self]
        have h4 : idx < l.length := by omega
        simp [List.getD_eq_getElem?_getD, List.getElem?_set, h4]
      · have h2 : ¬ (idx ≤ i ∧ i < idx + (v :: vs).length) := by simp; omega
        rw [if_neg h2]
        have h4 : ¬ idx = i := fun h => h3 h.symm
        simp [List.getD_eq_getElem?_getD, List.getElem?_set, h4]

theorem allChildren_eq_range :
    ∀ (ks : List Int) (cs : List Nat), ks.length = cs.length →
      allChildren ks cs
        = (List.range ks.length).map (fun i => ⟨cs.getD i 0, ks.getD i invalidKey⟩)
  | [], [], _ => rfl
  | [], _ :: _, h => by simp at h
  | _ :: _, [], h => by simp at h
  | k :: ks, c :: cs, h => by
    simp only [List.length_cons, Nat.add_right_cancel_iff] at h
    rw [allChildren, allChildren_eq_range ks cs h, List.length_cons, List.range_succ_eq_map]
    simp [List.map_map, Function.comp_def]

theorem sortPageKeyPairs_sorted (l : List PageKeyPair) :
    (sortPageKeyPairs l).Sorted (fun a b => a.key ≤ b.key) := by
  haveI : IsTotal PageKeyPair (fun a b => PageKeyPair.lt b a = false) :=
    ⟨fun a b => by simp only [PageKeyPair.lt, decide_eq_false_iff_not]; omega⟩
  haveI : IsTrans PageKeyPair (fun a b => PageKeyPair.lt b a = false) :=
    ⟨fun a b c => by simp only [PageKeyPair.lt, decide_eq_false_iff_not]; omega⟩
  have h := List.sorted_insertionSort (fun a b => PageKeyPair.lt b a = false) l
  refine List.Pairwise.imp ?_ h
  intro a b
  simp only [PageKeyPair.lt, decide_eq_false_iff_not]
  omega

theorem getD_map_take {α β : Type} (f : α → β) (l : List α) (h i : Nat) (d : α) (e : β)
    (hi : i < h) (hl : h ≤ l.length) :
    ((l.take h).map f).getD i e = f (l.getD i d) := by
  have h1 : i < l.length := by omega
  simp [List.getD_eq_getElem?_getD, List.getElem?_take, hi, h1]

theorem getD_map_drop {α β : Type} (f : α → β) (l : List α) (h i : Nat) (d : α) (e : β)
    (hi : h + i < l.length) :
    ((l.drop h).map f).getD i e = f (l.getD (h + i) d) := by
  simp [List.getD_eq_getElem?_getD, List.getElem?_drop, hi]

/-- C20: for a non-leaf node whose arrays have `N` and `N + 1` slots (`N` at least one),
`NonLeafNodeContainer::split` sorts the incoming pair and the `N` pairs
`(pageNos[i + 1], keys[i])` of the node by key. The left node keeps its page number slot
`0` and gets the first `N / 2` sorted pairs (key in slot `i`, page number in slot
`i + 1`), with the sentinel in every later key slot. Page number slot `0` of the right
node is the page number of the sorted pair at index `N / 2`; the `N - N / 2` pairs behind
it fill the right node from slot `0` in order, with the sentinel in every later key slot;
both nodes have the level of the node that was split. -/
theorem nonLeaf_split_distribution (p : Params) (n : NonLeafNode) (pk : PageKeyPair)
    (rightPID : Nat) (hsize : 1 ≤ p.nonLeafSize)
    (hk : n.keyArray.length = p.nonLeafSize)
    (hp : n.pageNoArray.length = p.nonLeafSize + 1) :
    ∃ pairs : List PageKeyPair,
      pairs.Perm (pk :: (List.range p.nonLeafSize).map
        (fun i => ⟨n.getPageNo (i + 1), n.getKey i⟩)) ∧
      pairs.Sorted (fun a b => a.key ≤ b.key) ∧
      (n.split p pk rightPID).1.getPageNo 0 = n.getPageNo 0 ∧
      (∀ i, i < p.nonLeafSize / 2 →
        (n.split p pk rightPID).1.getKey i = (pairs.getD i ⟨0, 0⟩).key ∧
        (n.split p pk rightPID).1.getPageNo (i + 1) = (pairs.getD i ⟨0, 0⟩).pageNo) ∧
      (∀ i, p.nonLeafSize / 2 ≤ i → (n.split p pk rightPID).1.getKey i = invalidKey) ∧
      (n.split p pk rightPID).2.1.getPageNo 0
        = (pairs.getD (p.nonLeafSize / 2) ⟨0, 0⟩).pageNo ∧
      (∀ i, i < p.nonLeafSize - p.nonLeafSize / 2 →
        (n.split p pk rightPID).2.1.getKey i
          = (pairs.getD (p.nonLeafSize / 2 + 1 + i) ⟨0, 0⟩).key ∧
        (n.split p pk rightPID).2.1.getPageNo (i + 1)
          = (pairs.getD (p.nonLeafSize / 2 + 1 + i) ⟨0, 0⟩).pageNo) ∧
      (∀ i, p.nonLeafSize - p.nonLeafSize / 2 ≤ i →
        (n.split p pk rightPID).2.1.getKey i = invalidKey) ∧
      (n.split p pk rightPID).2.1.level = (n.split p pk rightPID).1.level ∧
      (n.split p pk rightPID).1.level = n.level := by
  have hall : allChildren (n.keyArray.take p.nonLeafSize) (n.pageNoArray.drop 1)
      = (List.range p.nonLeafSize).map (fun i => ⟨n.getPageNo (i + 1), n.getKey i⟩) := by
    rw [List.take_of_length_le (by omega), allChildren_eq_range _ _ (by simp; omega), hk]
    apply List.map_congr_left
    intro i _
    simp [NonLeafNode.getPageNo, NonLeafNode.getKey, List.getD_eq_getElem?_getD,
      List.getElem?_drop, Nat.add_comm]
  have hlen : (sortPageKeyPairs (pk :: allChildren (n.keyArray.take p.nonLeafSize)
      (n.pageNoArray.drop 1))).length = p.nonLeafSize + 1 := by
    rw [(sortPageKeyPairs_perm _).length_eq, hall]
    simp
  obtain ⟨hck, ⟨junk, hcp, hjunk⟩, hlev⟩ :=
    clear_setPageNo (p := p) n (n.getPageNo 0) hp hsize
  unfold NonLeafNode.getPageNo at hck hcp hlev
  have hL : ∀ {β : Type} (f : PageKeyPair → β),
      (((sortPageKeyPairs (pk :: allChildren (n.keyArray.take p.nonLeafSize)
        (n.pageNoArray.drop 1))).take (p.nonLeafSize / 2)).map f).length
        = p.nonLeafSize / 2 := by
    intro β f
    rw [List.length_map, List.length_take, hlen]
    omega
  have htake : ((sortPageKeyPairs (pk :: allChildren (n.keyArray.take p.nonLeafSize)
      (n.pageNoArray.drop 1))).drop (p.nonLeafSize / 2 + 1)).take
        (p.nonLeafSize - p.nonLeafSize / 2)
      = (sortPageKeyPairs (pk :: allChildren (n.keyArray.take p.nonLeafSize)
        (n.pageNoArray.drop 1))).drop (p.nonLeafSize / 2 + 1) := by
    apply List.take_of_length_le
    rw [List.length_drop, hlen]
    omega
  have hR : ∀ {β : Type} (f : PageKeyPair → β),
      (((sortPageKeyPairs (pk :: allChildren (n.keyArray.take p.nonLeafSize)
        (n.pageNoArray.drop 1))).drop (p.nonLeafSize / 2 + 1)).map f).length
        = p.nonLeafSize - p.nonLeafSize / 2 := by
    intro β f
    rw [List.length_map, List.length_drop, hlen]
    omega
  have hfk : ∀ x, ((NonLeafNode.fresh p).setPageNo 0 x).keyArray.length = p.nonLeafSize := by
    intro x
    simp [NonLeafNode.setPageNo, NonLeafNode.fresh]
  have hfp : ∀ x,
      ((NonLeafNode.fresh p).setPageNo 0 x).pageNoArray.length = p.nonLeafSize + 1 := by
    intro x
    simp [NonLeafNode.setPageNo, NonLeafNode.fresh]
  have hckl : ((n.clear p).setPageNo 0 (n.pageNoArray.getD 0 0)).keyArray.length
      = p.nonLeafSize := by
    rw [hck, List.length_replicate]
  have hcpl : ((n.clear p).setPageNo 0 (n.pageNoArray.getD 0 0)).pageNoArray.length
      = p.nonLeafSize + 1 := by
    rw [hcp, List.length_cons, hjunk]
  refine ⟨sortPageKeyPairs (pk :: allChildren (n.keyArray.take p.nonLeafSize)
      (n.pageNoArray.drop 1)), ?_, sortPageKeyPairs_sorted _, ?_, ?_, ?_, ?_, ?_, ?_, ?_, ?_⟩
  · rw [← hall]
    exact sortPageKeyPairs_perm _
  · unfold NonLeafNode.split
    dsimp only
    rw [NonleafStore_eq]
    unfold NonLeafNode.getPageNo
    dsimp only
    rw [getD_setFrom _ _ _ _ _ (by rw [hL, hcpl]; omega), if_neg (by omega), hcp]
    rfl
  · intro i hi
    unfold NonLeafNode.split
    dsimp only
    rw [NonleafStore_eq]
    unfold NonLeafNode.getPageNo NonLeafNode.getKey
    dsimp only
    rw [getD_setFrom _ _ _ _ _ (by rw [hL, hckl]; omega),
      getD_setFrom _ _ _ _ _ (by rw [hL, hcpl]; omega),
      if_pos (by rw [hL]; omega), if_pos (by rw [hL]; omega)]
    constructor
    · exact getD_map_take _ _ _ _ _ _ hi (by omega)
    · rw [Nat.add_sub_cancel]
      exact getD_map_take _ _ _ _ _ _ hi (by omega)
  · intro i hi
    unfold NonLeafNode.split
    dsimp only
    rw [NonleafStore_eq]
    unfold NonLeafNode.getKey NonLeafNode.getPageNo
    dsimp only
    rw [getD_setFrom _ _ _ _ _ (by rw [hL, hckl]; omega), if_neg (by rw [hL]; omega), hck]
    exact getD_replicate_self _ _ _
  · unfold NonLeafNode.split NonLeafNode.getPageNo
    dsimp only
    rw [htake, NonleafStore_eq]
    dsimp only
    rw [getD_setFrom _ _ _ _ _ (by rw [hR, hfp]; omega), if_neg (by omega)]
    simp [NonLeafNode.setPageNo, NonLeafNode.fresh, List.replicate_succ]
  · intro i hi
    unfold NonLeafNode.split NonLeafNode.getPageNo NonLeafNode.getKey
    dsimp only
    rw [htake, NonleafStore_eq]
    dsimp only
    rw [getD_setFrom _ _ _ _ _ (by rw [hR, hfk]; omega),
      getD_setFrom _ _ _ _ _ (by rw [hR, hfp]; omega),
      if_pos (by rw [hR]; omega), if_pos (by rw [hR]; omega)]
    constructor
    · rw [Nat.sub_zero]
      exact getD_map_drop _ _ _ _ _ _ (by omega)
    · rw [Nat.add_sub_cancel]
      exact getD_map_drop _ _ _ _ _ _ (by omega)
  · intro i hi
    unfold NonLeafNode.split NonLeafNode.getKey NonLeafNode.getPageNo
    dsimp only
    rw [htake, NonleafStore_eq]
    dsimp only
    rw [getD_setFrom _ _ _ _ _ (by rw [hR, hfk]; omega), if_neg (by rw [hR]; omega)]
    exact getD_replicate_self _ _ _
  · rfl
  · unfold NonLeafNode.split
    dsimp only
    rw [NonleafStore_eq]
    exact hlev

/-- C20, at an example: the node with keys `3`, `5` and page numbers `2`, `3`, `5`, the
incoming pair of page 6 and key `4`. -/
theorem nonLeaf_split_distribution_witness :
    1 ≤ smallParams.nonLeafSize ∧
    (NonLeafNode.mk 1 [3, 5] [2, 3, 5]).keyArray.length = smallParams.nonLeafSize ∧
    (NonLeafNode.mk 1 [3, 5] [2, 3, 5]).pageNoArray.length = smallParams.nonLeafSize + 1 ∧
    (NonLeafNode.split smallParams ⟨1, [3, 5], [2, 3, 5]⟩ ⟨6, 4⟩ 7).1 = ⟨1, [3, -1], [2, 3, 5]⟩ ∧
    (NonLeafNode.split smallParams ⟨1, [3, 5], [2, 3, 5]⟩ ⟨6, 4⟩ 7).2.1
      = ⟨1, [5, -1], [6, 5, 0]⟩ ∧
    ∃ pairs : List PageKeyPair,
      pairs.Perm (⟨6, 4⟩ :: (List.range smallParams.nonLeafSize).map
        (fun i => ⟨(NonLeafNode.mk 1 [3, 5] [2, 3, 5]).getPageNo (i + 1),
          (NonLeafNode.mk 1 [3, 5] [2, 3, 5]).getKey i⟩)) ∧
      pairs.Sorted (fun a b => a.key ≤ b.key) ∧
      (NonLeafNode.split smallParams ⟨1, [3, 5], [2, 3, 5]⟩ ⟨6, 4⟩ 7).1.getPageNo 0
        = (NonLeafNode.mk 1 [3, 5] [2, 3, 5]).getPageNo 0 :=
  ⟨by decide, rfl, rfl, by decide, by decide,
    (nonLeaf_split_distribution smallParams ⟨1, [3, 5], [2, 3, 5]⟩ ⟨6, 4⟩ 7 (by decide) rfl
      rfl).imp (fun _ h => ⟨h.1, h.2.1, h.2.2.1⟩)⟩

/-! ## Reads after writes, from the page read back -/

theorem readPage_writePage_cases {file : List Page} {q pid : Nat} {pg pg1 : Page}
    (h : readPage (writePage file q pg) pid = some pg1) :
    pg1 = pg ∨ readPage file pid = some pg1 := by
  unfold readPage writePage at h
  unfold readPage
  by_cases h0 : pid = 0
  · simp [h0] at h
  · rw [if_neg h0] at h ⊢
    rw [List.get?_eq_getElem?, List.getElem?_set] at h
    rw [List.get?_eq_getElem?]
    by_cases heq : q - 1 = pid - 1
    · rw [if_pos heq] at h
      split at h
      · left
        exact (Option.some.inj h).symm
      · simp at h
    · rw [if_neg heq] at h
      exact Or.inr h

theorem readNonLeaf_writePage_cases {file : List Page} {q pid : Nat} {pg : Page}
    {n : NonLeafNode} (h : readNonLeaf (writePage file q pg) pid = .ok n) :
    pg = Page.nonLeaf n ∨ readNonLeaf file pid = .ok n := by
  unfold readNonLeaf at h
  cases hrd : readPage (writePage file q pg) pid with
  | none => rw [hrd] at h; simp at h
  | some pg1 =>
    rw [hrd] at h
    have hpg : pg1 = Page.nonLeaf n := by
      cases pg1 <;> simp at h
      rw [h]
    rcases readPage_writePage_cases hrd with h1 | h1
    · left
      rw [← h1, hpg]
    · right
      unfold readNonLeaf
      rw [h1, hpg]

theorem readPage_append_blank {file : List Page} {pid : Nat} {pg : Page}
    (h : readPage (file ++ [Page.blank]) pid = some pg) :
    pg = Page.blank ∨ readPage file pid = some pg := by
  unfold readPage at h ⊢
  by_cases h0 : pid = 0
  · simp [h0] at h
  · rw [if_neg h0] at h ⊢
    rw [List.get?_eq_getElem?] at h ⊢
    by_cases hlt : pid - 1 < file.length
    · right
      rw [List.getElem?_append_left hlt] at h
      exact h
    · left
      rw [List.getElem?_append_right (by omega)] at h
      cases hi : pid - 1 - file.length with
      | zero =>
        rw [hi] at h
        simpa using h.symm
      | succ i =>
        rw [hi] at h
        simp at h

theorem readNonLeaf_append_blank {file : List Page} {pid : Nat} {n : NonLeafNode}
    (h : readNonLeaf (file ++ [Page.blank]) pid = .ok n) : readNonLeaf file pid = .ok n := by
  unfold readNonLeaf at h
  cases hrd : readPage (file ++ [Page.blank]) pid with
  | none => rw [hrd] at h; simp at h
  | some pg1 =>
    rw [hrd] at h
    have hpg : pg1 = Page.nonLeaf n := by
      cases pg1 <;> simp at h
      rw [h]
    rcases readPage_append_blank hrd with h1 | h1
    · rw [hpg] at h1
      simp at h1
    · unfold readNonLeaf
      rw [h1, hpg]

/-! ## Sorted pairs -/

theorem sortRIDKeyPairs_sorted (l : List RIDKeyPair) :
    (sortRIDKeyPairs l).Sorted (fun a b => a.key ≤ b.key) := by
  haveI : IsTotal RIDKeyPair (fun a b => RIDKeyPair.lt b a = false) :=
    ⟨fun a b => by
      simp only [RIDKeyPair.lt]
      split_ifs <;> simp only [decide_eq_false_iff_not] <;> omega⟩
  haveI : IsTrans RIDKeyPair (fun a b => RIDKeyPair.lt b a = false) :=
    ⟨fun a b c => by
      simp only [RIDKeyPair.lt]
      split_ifs <;> simp only [decide_eq_false_iff_not] <;> omega⟩
  have h := List.sorted_insertionSort (fun a b => RIDKeyPair.lt b a = false) l
  refine List.Pairwise.imp ?_ h
  intro a b
  simp only [RIDKeyPair.lt]
  split_ifs <;> simp only [decide_eq_false_iff_not] <;> omega

theorem NodeHolds.split_right {p : Params} {n : NonLeafNode} {first : Nat}
    {cs : List PageKeyPair} (h : NodeHolds p n first cs) (hfull : cs.length = p.nonLeafSize)
    (hsize : 1 ≤ p.nonLeafSize) (pk : PageKeyPair) (hkey : pk.key ≠ invalidKey)
    (rightPID : Nat) :
    NodeHolds p (n.split p pk rightPID).2.1
        ((sortPageKeyPairs (pk :: cs)).getD (p.nonLeafSize / 2) ⟨0, 0⟩).pageNo
        ((sortPageKeyPairs (pk :: cs)).drop (p.nonLeafSize / 2 + 1)) ∧
      (n.split p pk rightPID).2.1.level = n.level := by
  have hperm := sortPageKeyPairs_perm (pk :: cs)
  have hlen : (sortPageKeyPairs (pk :: cs)).length = p.nonLeafSize + 1 := by
    rw [hperm.length_eq, List.length_cons, hfull]
  have htake : ((sortPageKeyPairs (pk :: cs)).drop (p.nonLeafSize / 2 + 1)).take
        (p.nonLeafSize - p.nonLeafSize / 2)
      = (sortPageKeyPairs (pk :: cs)).drop (p.nonLeafSize / 2 + 1) := by
    apply List.take_of_length_le
    rw [List.length_drop, hlen]
    omega
  obtain ⟨m, hm⟩ : ∃ m, p.nonLeafSize = m + 1 := ⟨p.nonLeafSize - 1, by omega⟩
  have hst := @nodeHolds_store p
    ((NonLeafNode.fresh p).setPageNo 0
      ((sortPageKeyPairs (pk :: cs)).getD (p.nonLeafSize / 2) ⟨0, 0⟩).pageNo)
    ((sortPageKeyPairs (pk :: cs)).getD (p.nonLeafSize / 2) ⟨0, 0⟩).pageNo
    (List.replicate p.nonLeafSize 0)
    ((sortPageKeyPairs (pk :: cs)).drop (p.nonLeafSize / 2 + 1)) rfl
    (by simp [NonLeafNode.setPageNo, NonLeafNode.fresh, List.replicate_succ])
    (by simp)
    (by rw [List.length_drop, hlen]; omega)
    (by
      intro c hc
      rcases List.mem_cons.1 (hperm.mem_iff.1 (List.mem_of_mem_drop hc)) with h1 | h1
      · rw [h1]; exact hkey
      · exact h.2.1 c h1)
  obtain ⟨-, hlev⟩ := h.split_left hfull hsize pk hkey rightPID
  unfold NonLeafNode.split at hlev ⊢
  dsimp only at hlev ⊢
  rw [h.all_eq hfull] at hlev ⊢
  rw [htake]
  exact ⟨hst.1, hlev⟩

/-- The descent of `findLeaf`: page 2 with an empty path when the root is page 2, and the
page the root's `search` gives, with the root as the path, when the root is a non-leaf
node of level 1. -/
theorem findLeaf_eq (p : Params) (s : BTreeIndex) (key : Int) :
    (s.metaInfo.rootPageNo = 2 → findLeaf p s key = .ok (2, [])) ∧
    (∀ node, s.metaInfo.rootPageNo ≠ 2 →
      readNonLeaf s.file s.metaInfo.rootPageNo = .ok node → node.level = 1 →
      findLeaf p s key = .ok (node.search p key, [s.metaInfo.rootPageNo])) := by
  constructor
  · intro h2
    unfold findLeaf
    rw [if_pos h2]
  · intro node h2 hrd hlevel
    have hle := (readNonLeaf_ok_le hrd).2
    have h0 := (readNonLeaf_ok_le hrd).1
    obtain ⟨m, hm⟩ : ∃ m, s.file.length = m + 1 := ⟨s.file.length - 1, by omega⟩
    unfold findLeaf
    rw [if_neg h2, hm]
    unfold findLeafLoop
    rw [hrd]
    simp [hlevel]

/-- The three ways through `insertEntry` on an index of depth one or two: the leaf had
room; the root leaf split; a leaf below the root split and the pair went into the
root. -/
theorem insertEntry_of_findLeaf {p : Params} {s : BTreeIndex} {key : Int} {rid : RecordId}
    {q : Nat} {path : List Nat} (hfind : findLeaf p s key = .ok (q, path)) :
    (∀ F pk, insertLeaf p s.file key rid q ⟨0, 0⟩ = .ok (F, false, pk) →
      (path = [] ∨ path = [s.metaInfo.rootPageNo]) →
      insertEntry p s key rid = ({ s with file := F }, .ok ())) ∧
    (∀ F pk, insertLeaf p s.file key rid q ⟨0, 0⟩ = .ok (F, true, pk) → path = [] →
      insertEntry p s key rid = (newRoot p { s with file := F } pk q true, .ok ())) ∧
    (∀ F pk file3 pk3, insertLeaf p s.file key rid q ⟨0, 0⟩ = .ok (F, true, pk) →
      path = [s.metaInfo.rootPageNo] →
      insertNonLeaf p F s.metaInfo.rootPageNo pk true = .ok (file3, false, pk3) →
      insertEntry p s key rid = ({ s with file := file3 }, .ok ())) := by
  refine ⟨?_, ?_, ?_⟩
  · intro F pk hleaf hpath
    unfold insertEntry
    rw [hfind]
    dsimp only
    rw [hleaf]
    rcases hpath with hp | hp <;> rw [hp] <;> simp [propagateLoop]
  · intro F pk hleaf hp
    unfold insertEntry
    rw [hfind]
    dsimp only
    rw [hleaf, hp]
    simp [propagateLoop]
  · intro F pk file3 pk3 hleaf hp hnl
    unfold insertEntry
    rw [hfind]
    dsimp only
    rw [hleaf, hp]
    simp [propagateLoop, hnl]

theorem readLeaf_readNonLeaf_ne {file : List Page} {a b : Nat} {n : LeafNode}
    {m : NonLeafNode} (h1 : readLeaf file a = .ok n) (h2 : readNonLeaf file b = .ok m) :
    b ≠ a := by
  intro heq
  rw [heq] at h2
  unfold readLeaf at h1
  unfold readNonLeaf at h2
  cases hrd : readPage file a with
  | none => rw [hrd] at h1; simp at h1
  | some pg =>
    rw [hrd] at h1 h2
    cases pg <;> simp at h1 h2

theorem searchKeys_sentinels (key : Int) (m : Nat) :
    searchKeys key (List.replicate m invalidKey) = 0 := by
  cases m with
  | zero => rfl
  | succ m => simp [searchKeys, List.replicate_succ]

/-- The page `search` picks among the children of a node with strictly ascending keys. -/
theorem routed_getD (key : Int) (m : Nat) (rest : List Nat) :
    ∀ (cs : List PageKeyPair) (k0 : PageKeyPair),
      ((k0 :: cs).map (fun c => c.key)).Sorted (fun a b => a < b) →
      (∀ c ∈ cs, c.key ≠ invalidKey) → k0.key < key →
      Routed (k0 :: cs)
        ((k0.pageNo :: (cs.map (fun c => c.pageNo) ++ rest)).getD
          (searchKeys key (cs.map (fun c => c.key) ++ List.replicate m invalidKey)) 0) key := by
  intro cs
  induction cs with
  | nil =>
    intro k0 _ _ hk0
    simp only [List.map_nil, List.nil_append, searchKeys_sentinels]
    refine ⟨k0, List.mem_singleton_self _, rfl, hk0, ?_⟩
    intro d hd hlt
    rw [List.mem_singleton.1 hd] at hlt
    omega
  | cons c cs ih =>
    intro k0 hsorted hvalid hk0
    simp only [List.map_cons, List.sorted_cons, List.mem_cons, forall_eq_or_imp,
      List.mem_map, forall_exists_index, and_imp, forall_apply_eq_imp_iff₂] at hsorted
    obtain ⟨⟨hk0c, hk0cs⟩, hccs, hcs⟩ := hsorted
    have hcvalid := hvalid c (List.mem_cons_self _ _)
    by_cases hlt : c.key < key
    · have hstep : searchKeys key
          ((c :: cs).map (fun c => c.key) ++ List.replicate m invalidKey)
          = searchKeys key (cs.map (fun c => c.key) ++ List.replicate m invalidKey) + 1 := by
        simp only [List.map_cons, List.cons_append, searchKeys]
        rw [if_pos ⟨hlt, hcvalid⟩]
        rfl
      rw [hstep]
      simp only [List.map_cons, List.cons_append, List.getD_cons_succ]
      have hs2 : ((c :: cs).map (fun c => c.key)).Sorted (fun a b => a < b) := by
        simp only [List.map_cons, List.sorted_cons, List.mem_map, forall_exists_index,
          and_imp, forall_apply_eq_imp_iff₂]
        exact ⟨hccs, hcs⟩
      obtain ⟨c1, hc1, hq, hc1key, hnext⟩ :=
        ih c hs2 (fun x hx => hvalid x (List.mem_cons_of_mem _ hx)) hlt
      refine ⟨c1, List.mem_cons_of_mem _ hc1, hq, hc1key, ?_⟩
      intro d hd hdlt
      rcases List.mem_cons.1 hd with h1 | h1
      · exfalso
        rw [h1] at hdlt
        rcases List.mem_cons.1 hc1 with h2 | h2
        · rw [h2] at hdlt; omega
        · have := hk0cs c1 h2
          omega
      · exact hnext d h1 hdlt
    · have hstep : searchKeys key
          ((c :: cs).map (fun c => c.key) ++ List.replicate m invalidKey) = 0 := by
        simp only [List.map_cons, List.cons_append, searchKeys]
        rw [if_neg (fun h => hlt h.1)]
      rw [hstep]
      refine ⟨k0, List.mem_cons_self _ _, rfl, hk0, ?_⟩
      intro d hd hdlt
      rcases List.mem_cons.1 hd with h1 | h1
      · rw [h1] at hdlt; omega
      · rcases List.mem_cons.1 h1 with h2 | h2
        · rw [h2]; omega
        · have := hccs d h2
          omega

theorem NodeHolds.search_routed {p : Params} {n : NonLeafNode} {k0 : PageKeyPair}
    {cs : List PageKeyPair} (h : NodeHolds p n k0.pageNo cs) (key : Int)
    (hsorted : ((k0 :: cs).map (fun c => c.key)).Sorted (fun a b => a < b))
    (hk0 : k0.key < key) : Routed (k0 :: cs) (n.search p key) key := by
  have hlen := h.keyArray_length
  obtain ⟨_, hkeys, hk, rest, hr, hrest⟩ := h
  unfold NonLeafNode.search NonLeafNode.getPageNo
  rw [List.take_of_length_le (by omega), hk, hr]
  exact routed_getD key _ rest cs k0 hsorted hkeys hk0

/-! ## Entries of a page of the chain -/

theorem mem_unique_of_nodup_fst {α β : Type} {l : List (α × β)} {a : α} {b b1 : β}
    (hnodup : (l.map Prod.fst).Nodup) (h1 : (a, b) ∈ l) (h2 : (a, b1) ∈ l) : b = b1 := by
  induction l with
  | nil => simp at h1
  | cons x l ih =>
    simp only [List.map_cons, List.nodup_cons] at hnodup
    have hin : ∀ b2, (a, b2) ∈ l → a ∈ l.map Prod.fst :=
      fun b2 h => List.mem_map_of_mem Prod.fst h
    rcases List.mem_cons.1 h1 with e1 | e1
    · rcases List.mem_cons.1 h2 with e2 | e2
      · exact (Prod.mk.inj (e1.trans e2.symm)).2
      · exfalso
        apply hnodup.1
        rw [← e1]
        exact hin b1 e2
    · rcases List.mem_cons.1 h2 with e2 | e2
      · exfalso
        apply hnodup.1
        rw [← e2]
        exact hin b e1
      · exact ih hnodup.2 e1 e2

theorem Chain.read_of_mem {p : Params} {file : List Page} :
    ∀ {chain : List (Nat × List RIDKeyPair)} {next : Nat}, Chain p file chain next →
      ∀ pid es, (pid, es) ∈ chain → ∃ n, readLeaf file pid = .ok n ∧ LeafHolds p n es
  | [], _, _, _, _, h => by simp at h
  | (pid0, es0) :: rest, next, hchain, pid, es, h => by
    obtain ⟨n, hrd, hholds, -, hrest⟩ := hchain
    rcases List.mem_cons.1 h with h1 | h1
    · obtain ⟨e1, e2⟩ := Prod.mk.inj h1
      rw [e1, e2]
      exact ⟨n, hrd, hholds⟩
    · exact Chain.read_of_mem hrest pid es h1

theorem LeafHolds.getKey_mem {p : Params} {n : LeafNode} {es : List RIDKeyPair}
    (h : LeafHolds p n es) {j : Nat} (hj : n.getKey j ≠ invalidKey) :
    ∃ x ∈ es, x.key = n.getKey j := by
  obtain ⟨-, -, hk, -⟩ := h
  unfold LeafNode.getKey at hj ⊢
  rw [hk] at hj ⊢
  by_cases hlt : j < es.length
  · have hlt' : j < (es.map (fun e => e.key)).length := by simpa using hlt
    rw [List.getD_append _ _ _ _ hlt', List.getD_eq_getElem _ _ hlt']
    simp only [List.getElem_map]
    exact ⟨es[j], List.getElem_mem _, rfl⟩
  · exfalso
    apply hj
    rw [List.getD_append_right _ _ _ _ (by simp; omega)]
    exact getD_replicate_self _ _ _

theorem NodeHolds.getKey_valid {p : Params} {n : NonLeafNode} {first : Nat}
    {cs : List PageKeyPair} (h : NodeHolds p n first cs) {i : Nat}
    (hi : n.getKey i ≠ invalidKey) :
    ∃ hlt : i < cs.length, n.getKey i = (cs.get ⟨i, hlt⟩).key ∧
      n.getPageNo (i + 1) = (cs.get ⟨i, hlt⟩).pageNo := by
  obtain ⟨-, -, hk, rest, hp, -⟩ := h
  unfold NonLeafNode.getKey at hi ⊢
  unfold NonLeafNode.getPageNo
  rw [hk] at hi ⊢
  rw [hp]
  by_cases hlt : i < cs.length
  · refine ⟨hlt, ?_, ?_⟩
    · have hlt' : i < (cs.map (fun c => c.key)).length := by simpa using hlt
      rw [List.getD_append _ _ _ _ hlt', List.getD_eq_getElem _ _ hlt']
      simp
    · have hlt' : i < (cs.map (fun c => c.pageNo)).length := by simpa using hlt
      rw [List.getD_cons_succ, List.getD_append _ _ _ _ hlt', List.getD_eq_getElem _ _ hlt']
      simp
  · exfalso
    apply hi
    rw [List.getD_append_right _ _ _ _ (by simp; omega)]
    exact getD_replicate_self _ _ _

/-! ## The children of a node under changes of the chain -/

theorem SepAt.other_chain {chain chain1 : List (Nat × List RIDKeyPair)} {kids : List PageKeyPair}
    (h : SepAt chain kids)
    (hpids : ∀ x ∈ chain.map Prod.fst, x ∈ chain1.map Prod.fst)
    (hsame : ∀ c ∈ kids, ∀ es, (c.pageNo, es) ∈ chain1 → (c.pageNo, es) ∈ chain) :
    SepAt chain1 kids :=
  ⟨h.1, fun c hc => hpids _ (h.2.1 c hc),
    fun c hc es hes e he => h.2.2 c hc es (hsame c hc es hes) e he⟩

theorem SepAt.sublist {chain : List (Nat × List RIDKeyPair)} {kids kids1 : List PageKeyPair}
    (h : SepAt chain kids) (hsub : kids1.Sublist kids) : SepAt chain kids1 := by
  refine ⟨List.Nodup.sublist (hsub.map _) h.1, fun c hc => h.2.1 c (hsub.subset hc), ?_⟩
  intro c hc es hes e he
  obtain ⟨h1, h2⟩ := h.2.2 c (hsub.subset hc) es hes e he
  exact ⟨h1, fun d hd => h2 d (hsub.subset hd)⟩

theorem SepAt.perm {chain : List (Nat × List RIDKeyPair)} {kids kids1 : List PageKeyPair}
    (h : SepAt chain kids) (hperm : kids1.Perm kids) : SepAt chain kids1 := by
  refine ⟨(List.Perm.nodup_iff (hperm.map _)).2 h.1,
    fun c hc => h.2.1 c (hperm.mem_iff.1 hc), ?_⟩
  intro c hc es hes e he
  obtain ⟨h1, h2⟩ := h.2.2 c (hperm.mem_iff.1 hc) es hes e he
  exact ⟨h1, fun d hd => h2 d (hperm.mem_iff.1 hd)⟩

/-- Lowering the bound listed with the first child. -/
theorem SepAt.lower {chain : List (Nat × List RIDKeyPair)} {first : Nat} {b b1 : Int}
    {cs : List PageKeyPair} (h : SepAt chain (⟨first, b⟩ :: cs))
    (hsorted : ((PageKeyPair.mk first b :: cs).map (fun c => c.key)).Sorted (fun a b => a < b))
    (hb : b1 ≤ b) :
    SepAt chain (⟨first, b1⟩ :: cs) ∧
      ((PageKeyPair.mk first b1 :: cs).map (fun c => c.key)).Sorted (fun a b => a < b) := by
  simp only [List.map_cons, List.sorted_cons, List.mem_map, forall_exists_index, and_imp,
    forall_apply_eq_imp_iff₂] at hsorted ⊢
  obtain ⟨hbcs, hcs⟩ := hsorted
  refine ⟨⟨h.1, ?_, ?_⟩, fun c hc => by have := hbcs c hc; omega, hcs⟩
  · intro c hc
    rcases List.mem_cons.1 hc with h1 | h1
    · rw [h1]
      exact h.2.1 ⟨first, b⟩ (List.mem_cons_self _ _)
    · exact h.2.1 c (List.mem_cons_of_mem _ h1)
  · intro c hc es hes e he
    rcases List.mem_cons.1 hc with h1 | h1
    · rw [h1] at hes ⊢
      obtain ⟨h2, h3⟩ := h.2.2 ⟨first, b⟩ (List.mem_cons_self _ _) es hes e he
      refine ⟨by simp only at h2 ⊢; omega, ?_⟩
      intro d hd hlt
      rcases List.mem_cons.1 hd with h4 | h4
      · rw [h4] at hlt
        simp only at hlt
        omega
      · exact h3 d (List.mem_cons_of_mem _ h4) (hbcs d h4)
    · obtain ⟨h2, h3⟩ := h.2.2 c (List.mem_cons_of_mem _ h1) es hes e he
      refine ⟨h2, ?_⟩
      intro d hd hlt
      rcases List.mem_cons.1 hd with h4 | h4
      · rw [h4] at hlt
        simp only at hlt
        have := hbcs c h1
        omega
      · exact h3 d (List.mem_cons_of_mem _ h4) hlt

/-- An entry is added to the leaf of one child, within the child's key range. -/
theorem SepAt.room {chain chain1 : List (Nat × List RIDKeyPair)} {kids : List PageKeyPair}
    {q : Nat} {e : RIDKeyPair} (h : SepAt chain kids)
    (hpids : ∀ x ∈ chain.map Prod.fst, x ∈ chain1.map Prod.fst)
    (hother : ∀ x es, (x, es) ∈ chain1 → x ≠ q → (x, es) ∈ chain)
    (hq : ∀ es1, (q, es1) ∈ chain1 → ∀ x ∈ es1, x = e ∨ ∃ es, (q, es) ∈ chain ∧ x ∈ es)
    {cr : PageKeyPair} (hcr : cr ∈ kids) (hcq : cr.pageNo = q) (hlow : cr.key < e.key)
    (hhigh : ∀ d ∈ kids, cr.key < d.key → e.key < d.key) : SepAt chain1 kids := by
  refine ⟨h.1, fun c hc => hpids _ (h.2.1 c hc), ?_⟩
  intro c hc es1 hes1 x hx
  by_cases hpage : c.pageNo = q
  · have hc_eq : c = cr :=
      List.inj_on_of_nodup_map h.1 hc hcr (hpage.trans hcq.symm)
    rw [hpage] at hes1
    rcases hq es1 hes1 x hx with h1 | ⟨es, hes, hxes⟩
    · rw [h1, hc_eq]
      exact ⟨by omega, hhigh⟩
    · rw [← hpage] at hes
      exact h.2.2 c hc es hes x hxes
  · exact h.2.2 c hc es1 (hother _ _ hes1 hpage) x hx

/-- The leaf of one child is split: the new leaf becomes a child with the split key. -/
theorem SepAt.split_child {chain chain2 : List (Nat × List RIDKeyPair)} {kids : List PageKeyPair}
    {q new : Nat} {e : RIDKeyPair} {m : Int} {T1 T2 : List RIDKeyPair}
    (h : SepAt chain kids) (hkeys : (kids.map (fun c => c.key)).Nodup)
    (hpids : ∀ x ∈ chain.map Prod.fst, x ∈ chain2.map Prod.fst)
    (hnewpid : new ∈ chain2.map Prod.fst) (hnewout : new ∉ chain.map Prod.fst)
    (hother : ∀ x es, (x, es) ∈ chain2 → x ≠ q → x ≠ new → (x, es) ∈ chain)
    (hq : ∀ es1, (q, es1) ∈ chain2 → es1 = T1)
    (hnew : ∀ es1, (new, es1) ∈ chain2 → es1 = T2)
    (hsrc : ∀ x, x ∈ T1 ∨ x ∈ T2 → x = e ∨ ∃ es, (q, es) ∈ chain ∧ x ∈ es)
    (hT1 : ∀ x ∈ T1, x.key < m) (hT2 : ∀ x ∈ T2, m ≤ x.key) (hT1ne : T1 ≠ [])
    (hm : ∃ x, (x ∈ T1 ∨ x ∈ T2) ∧ x.key = m)
    {cr : PageKeyPair} (hcr : cr ∈ kids) (hcq : cr.pageNo = q) (hlow : cr.key < e.key)
    (hhigh : ∀ d ∈ kids, cr.key < d.key → e.key < d.key) :
    SepAt chain2 (⟨new, m⟩ :: kids) ∧ m ∉ kids.map (fun c => c.key) ∧ cr.key < m := by
  have hS : ∀ x, x ∈ T1 ∨ x ∈ T2 →
      cr.key ≤ x.key ∧ ∀ d ∈ kids, cr.key < d.key → x.key < d.key := by
    intro x hx
    rcases hsrc x hx with h1 | ⟨es, hes, hxes⟩
    · rw [h1]
      exact ⟨by omega, hhigh⟩
    · rw [← hcq] at hes
      exact h.2.2 cr hcr es hes x hxes
  have hcrm : cr.key < m := by
    obtain ⟨x, hx⟩ := List.exists_mem_of_ne_nil T1 hT1ne
    have h1 := (hS x (Or.inl hx)).1
    have h2 := hT1 x hx
    omega
  have hmkey : m ∉ kids.map (fun c => c.key) := by
    intro hin
    obtain ⟨d, hd, hdm⟩ := List.mem_map.1 hin
    obtain ⟨x, hx, hxm⟩ := hm
    have := (hS x hx).2 d hd (by omega)
    omega
  have hnewkids : ∀ c ∈ kids, c.pageNo ≠ new := by
    intro c hc heq
    exact hnewout (heq ▸ h.2.1 c hc)
  refine ⟨⟨?_, ?_, ?_⟩, hmkey, hcrm⟩
  · simp only [List.map_cons, List.nodup_cons]
    refine ⟨?_, h.1⟩
    intro hin
    obtain ⟨c, hc, hcn⟩ := List.mem_map.1 hin
    exact hnewkids c hc hcn
  · intro c hc
    rcases List.mem_cons.1 hc with h1 | h1
    · rw [h1]; exact hnewpid
    · exact hpids _ (h.2.1 c h1)
  · intro c hc es1 hes1 x hx
    rcases List.mem_cons.1 hc with h1 | h1
    · rw [h1] at hes1 ⊢
      simp only at hes1 ⊢
      rw [hnew es1 hes1] at hx
      refine ⟨hT2 x hx, ?_⟩
      intro d hd hlt
      rcases List.mem_cons.1 hd with h2 | h2
      · rw [h2] at hlt
        simp only at hlt
        omega
      · exact (hS x (Or.inr hx)).2 d h2 (by omega)
    · by_cases hpage : c.pageNo = q
      · have hc_eq : c = cr :=
          List.inj_on_of_nodup_map h.1 h1 hcr (hpage.trans hcq.symm)
        rw [hpage] at hes1
        rw [hq es1 hes1] at hx
        rw [hc_eq]
        refine ⟨(hS x (Or.inl hx)).1, ?_⟩
        intro d hd hlt
        rcases List.mem_cons.1 hd with h2 | h2
        · rw [h2]
          exact hT1 x hx
        · exact (hS x (Or.inl hx)).2 d h2 hlt
      · have hold := hother _ _ hes1 hpage (hnewkids c h1)
        obtain ⟨h3, h4⟩ := h.2.2 c h1 es1 hold x hx
        refine ⟨h3, ?_⟩
        intro d hd hlt
        rcases List.mem_cons.1 hd with h2 | h2
        · rw [h2] at hlt ⊢
          simp only at hlt ⊢
          rcases lt_trichotomy c.key cr.key with h5 | h5 | h5
          · have := h4 cr hcr h5
            omega
          · exfalso
            exact hpage ((congrArg PageKeyPair.pageNo
              (List.inj_on_of_nodup_map hkeys h1 hcr h5)).trans hcq)
          · exfalso
            obtain ⟨y, hy, hym⟩ := hm
            have := (hS y hy).2 c h1 h5
            omega
        · exact h4 d h2 hlt

theorem sorted_keys_insert {k0 pk : PageKeyPair} {cs : List PageKeyPair}
    (hsorted : ((k0 :: cs).map (fun c => c.key)).Sorted (fun a b => a < b))
    (hk0 : k0.key < pk.key) (hnot : pk.key ∉ (k0 :: cs).map (fun c => c.key)) :
    ((k0 :: sortPageKeyPairs (pk :: cs)).map (fun c => c.key)).Sorted (fun a b => a < b) := by
  have hperm := sortPageKeyPairs_perm (pk :: cs)
  simp only [List.map_cons, List.sorted_cons, List.mem_map, forall_exists_index, and_imp,
    forall_apply_eq_imp_iff₂] at hsorted ⊢
  obtain ⟨hk0cs, hcs⟩ := hsorted
  constructor
  · intro c hc
    rcases List.mem_cons.1 (hperm.mem_iff.1 hc) with h1 | h1
    · rw [h1]; exact hk0
    · exact hk0cs c h1
  · have hle : ((sortPageKeyPairs (pk :: cs)).map (fun c => c.key)).Sorted
        (fun a b => a ≤ b) := List.pairwise_map.2 (sortPageKeyPairs_sorted _)
    have hnodup : ((sortPageKeyPairs (pk :: cs)).map (fun c => c.key)).Nodup := by
      rw [List.Perm.nodup_iff (hperm.map _)]
      simp only [List.map_cons, List.nodup_cons]
      refine ⟨?_, hcs.nodup⟩
      intro hin
      exact hnot (List.mem_cons_of_mem _ hin)
    exact hle.lt_of_le hnodup

/-! ## Non-leaf pages after a write -/

theorem readPage_writePage_at {file : List Page} {q pid : Nat} {pg pg1 : Page}
    (hq : q ≠ 0) (h : readPage (writePage file q pg) pid = some pg1) :
    (pid = q ∧ pg1 = pg) ∨ readPage file pid = some pg1 := by
  unfold readPage writePage at h
  unfold readPage
  by_cases h0 : pid = 0
  · simp [h0] at h
  · rw [if_neg h0] at h ⊢
    rw [List.get?_eq_getElem?, List.getElem?_set] at h
    rw [List.get?_eq_getElem?]
    by_cases heq : q - 1 = pid - 1
    · rw [if_pos heq] at h
      split at h
      · left
        exact ⟨by omega, (Option.some.inj h).symm⟩
      · simp at h
    · rw [if_neg heq] at h
      exact Or.inr h

theorem readNonLeaf_write_nonLeaf {file : List Page} {q pid : Nat} {m n : NonLeafNode}
    (hq : q ≠ 0) (h : readNonLeaf (writePage file q (Page.nonLeaf m)) pid = .ok n) :
    (pid = q ∧ n = m) ∨ readNonLeaf file pid = .ok n := by
  unfold readNonLeaf at h
  cases hrd : readPage (writePage file q (Page.nonLeaf m)) pid with
  | none => rw [hrd] at h; simp at h
  | some pg1 =>
    rw [hrd] at h
    have hpg : pg1 = Page.nonLeaf n := by
      cases pg1 <;> simp at h
      rw [h]
    rcases readPage_writePage_at hq hrd with ⟨h1, h2⟩ | h1
    · left
      rw [hpg] at h2
      exact ⟨h1, Page.nonLeaf.inj h2⟩
    · right
      unfold readNonLeaf
      rw [h1, hpg]

theorem readNonLeaf_write_leaf {file : List Page} {q pid : Nat} {m : LeafNode}
    {n : NonLeafNode} (h : readNonLeaf (writePage file q (Page.leaf m)) pid = .ok n) :
    readNonLeaf file pid = .ok n := by
  rcases readNonLeaf_writePage_cases h with h1 | h1
  · simp at h1
  · exact h1

theorem readNonLeaf_write_meta {file : List Page} {q pid : Nat} {m : IndexMetaInfo}
    {n : NonLeafNode} (h : readNonLeaf (writePage file q (Page.metaInfo m)) pid = .ok n) :
    readNonLeaf file pid = .ok n := by
  rcases readNonLeaf_writePage_cases h with h1 | h1
  · simp at h1
  · exact h1

/-! ## The key returned by a leaf split -/

theorem LeafHolds.split_pk {p : Params} {n : LeafNode} {es : List RIDKeyPair}
    (h : LeafHolds p n es) (pair : RIDKeyPair) (rightPID : Nat) :
    (n.split p pair rightPID).2.2
      = ⟨rightPID, ((sortRIDKeyPairs (pair :: es)).getD (p.leafSize / 2) ⟨⟨0, 0⟩, 0⟩).key⟩ := by
  unfold LeafNode.split
  rw [h.entries_eq]

theorem strict_take_drop {S : List RIDKeyPair} {k : Nat} (hk : k < S.length)
    (hle : S.Sorted (fun a b => a.key ≤ b.key)) (hnodup : (S.map (fun e => e.key)).Nodup) :
    (∀ x ∈ S.take k, x.key < (S.getD k ⟨⟨0, 0⟩, 0⟩).key) ∧
    (∀ x ∈ S.drop k, (S.getD k ⟨⟨0, 0⟩, 0⟩).key ≤ x.key) ∧
    S.getD k ⟨⟨0, 0⟩, 0⟩ ∈ S.drop k := by
  have hle2 : (S.map (fun e => e.key)).Sorted (fun a b => a ≤ b) := List.pairwise_map.2 hle
  have hlt : (S.map (fun e => e.key)).Sorted (fun a b => a < b) := hle2.lt_of_le hnodup
  have hlt2 : S.Pairwise (fun a b => a.key < b.key) := List.pairwise_map.1 hlt
  have hsplit : S = S.take k ++ S.getD k ⟨⟨0, 0⟩, 0⟩ :: S.drop (k + 1) := by
    rw [List.getD_eq_getElem _ _ hk, ← List.drop_eq_getElem_cons hk, List.take_append_drop]
  have hdrop : S.drop k = S.getD k ⟨⟨0, 0⟩, 0⟩ :: S.drop (k + 1) := by
    rw [List.getD_eq_getElem _ _ hk, ← List.drop_eq_getElem_cons hk]
  rw [hsplit] at hlt2
  rw [List.pairwise_append] at hlt2
  obtain ⟨-, h2, h3⟩ := hlt2
  rw [List.pairwise_cons] at h2
  refine ⟨fun x hx => h3 x hx _ (List.mem_cons_self _ _), ?_, ?_⟩
  · intro x hx
    rw [hdrop] at hx
    rcases List.mem_cons.1 hx with h4 | h4
    · rw [h4]
    · exact le_of_lt (h2.1 x h4)
  · rw [hdrop]
    exact List.mem_cons_self _ _

/-- With pairwise distinct inserted keys, the keys of a leaf of the chain are pairwise
distinct. -/
theorem LeafInv.keys_nodup {p : Params} {file : List Page}
    {pre post : List (Nat × List RIDKeyPair)} {q : Nat} {es : List RIDKeyPair}
    {ins : List (Int × RecordId)} (h : LeafInv p file (pre ++ (q, es) :: post) ins)
    (hnodup : (ins.map Prod.fst).Nodup) : (es.map (fun e => e.key)).Nodup := by
  obtain ⟨-, -, -, -, -, -, hperm⟩ := h
  have h1 := hperm.map (fun e : RIDKeyPair => e.key)
  have h2 : (ins.map toPair).map (fun e : RIDKeyPair => e.key) = ins.map Prod.fst := by
    rw [List.map_map]
    rfl
  rw [h2] at h1
  have h3 := (List.Perm.nodup_iff h1).2 hnodup
  simp only [List.map_append, List.map_cons, List.flatten_append, List.flatten_cons] at h3
  exact (List.nodup_append.1 (List.nodup_append.1 h3).2.1).1

/-- The non-leaf pages other than the root after a step: an old one keeps what held of
it when the leaves of its children and their pages are untouched. -/
theorem OrphansSep.frame {p : Params} {file file1 : List Page}
    {chain chain1 : List (Nat × List RIDKeyPair)} {root root1 : Nat} {live live1 : List Nat}
    (h : OrphansSep p file chain root live)
    (hread : ∀ pid node, readNonLeaf file1 pid = .ok node → pid ≠ root1 →
      (readNonLeaf file pid = .ok node ∧ pid ≠ root) ∨
      ∃ k0 cs, node.level = 1 ∧ NodeHolds p node k0.pageNo cs ∧ SepAt chain1 (k0 :: cs) ∧
        ((k0 :: cs).map (fun c => c.key)).Sorted (fun a b => a < b) ∧
        ∀ c ∈ k0 :: cs, c.pageNo ∉ live1)
    (hpids : ∀ x ∈ chain.map Prod.fst, x ∈ chain1.map Prod.fst)
    (hsame : ∀ x es, (x, es) ∈ chain1 → x ∉ live → x ∈ chain.map Prod.fst → (x, es) ∈ chain)
    (hlive : ∀ x ∈ live1, x ∈ live ∨ x ∉ chain.map Prod.fst) :
    OrphansSep p file1 chain1 root1 live1 := by
  intro pid node hrd hne
  rcases hread pid node hrd hne with ⟨h1, h2⟩ | h1
  · obtain ⟨k0, cs, hlevel, hholds, hsep, hsorted, hout⟩ := h pid node h1 h2
    refine ⟨k0, cs, hlevel, hholds, ?_, hsorted, ?_⟩
    · exact hsep.other_chain hpids
        (fun c hc es hes => hsame _ _ hes (hout c hc) (hsep.2.1 c hc))
    · intro c hc hin
      rcases hlive _ hin with h3 | h3
      · exact hout c hc h3
      · exact h3 (hsep.2.1 c hc)
  · exact h1

/-! ## One `insertEntry` with a new key keeps the separator invariant -/

theorem insertEntry_sep {p : Params} (hsize : 2 ≤ p.leafSize) (hnsize : 1 ≤ p.nonLeafSize)
    {s : BTreeIndex} {ins : List (Int × RecordId)} (hinv : SepInv p s ins)
    (hnodup : (ins.map Prod.fst).Nodup) (key : Int) (rid : RecordId)
    (hkey : key ≠ invalidKey) (hfresh : key ∉ ins.map Prod.fst) :
    ∃ s1, insertEntry p s key rid = (s1, .ok ()) ∧ SepInv p s1 (ins ++ [(key, rid)]) := by
  obtain ⟨chain, b0, cs, hleaf, hrootat, hsep0, hsorted0, hvalid, hK, horph⟩ := hinv
  obtain ⟨b, hbb0, hbkey⟩ : ∃ b : Int, b ≤ b0 ∧ b < key := by
    by_cases h : b0 < key
    · exact ⟨b0, le_refl _, h⟩
    · exact ⟨key - 1, by omega, by omega⟩
  obtain ⟨hsep, hsorted⟩ := hsep0.lower hsorted0 hbb0
  clear hsep0 hsorted0
  have hbcs : ∀ c ∈ cs, b < c.key := by
    intro c hc
    simp only [List.map_cons, List.sorted_cons, List.mem_map, forall_exists_index, and_imp,
      forall_apply_eq_imp_iff₂] at hsorted
    exact hsorted.1 c hc
  have hroute : ∃ q path, findLeaf p s key = .ok (q, path) ∧
      Routed (⟨2, b⟩ :: cs) q key ∧
      ((s.metaInfo.rootPageNo = 2 ∧ path = [] ∧ q = 2 ∧ cs = []) ∨
        (s.metaInfo.rootPageNo ≠ 2 ∧ path = [s.metaInfo.rootPageNo])) := by
    rcases hrootat with ⟨h2, hcs⟩ | ⟨h2, -, -, node, hrd, hlevel, hnode⟩
    · refine ⟨2, [], (findLeaf_eq p s key).1 h2, ?_, Or.inl ⟨h2, rfl, rfl, hcs⟩⟩
      rw [hcs]
      refine ⟨⟨2, b⟩, List.mem_singleton_self _, rfl, hbkey, ?_⟩
      intro d hd hlt
      rw [List.mem_singleton.1 hd] at hlt
      omega
    · exact ⟨node.search p key, [s.metaInfo.rootPageNo],
        (findLeaf_eq p s key).2 node h2 hrd hlevel,
        @NodeHolds.search_routed p node ⟨2, b⟩ cs hnode key hsorted hbkey, Or.inr ⟨h2, rfl⟩⟩
  obtain ⟨q, path, hfind, ⟨cr, hcr, hq, hcrkey, hnext⟩, hpath⟩ := hroute
  have hhigh : ∀ d ∈ PageKeyPair.mk 2 b :: cs, cr.key < d.key → key < d.key := by
    intro d hd hlt
    have h1 := hnext d hd hlt
    have h2 : key ≠ d.key := by
      intro heq
      rcases List.mem_cons.1 hd with h3 | h3
      · rw [h3] at heq
        simp only at heq
        omega
      · obtain ⟨e, he, hek⟩ := hK d h3
        exact hfresh (List.mem_map.2 ⟨e, he, by rw [hek, heq]⟩)
    omega
  have hbcr : b ≤ cr.key := by
    rcases List.mem_cons.1 hcr with h1 | h1
    · rw [h1]
    · exact le_of_lt (hbcs cr h1)
  have hqlive : q ∈ 2 :: cs.map (fun c => c.pageNo) := by
    rw [hq]
    exact List.mem_map_of_mem (fun c : PageKeyPair => c.pageNo) hcr
  have hmemq : q ∈ chain.map Prod.fst := by
    rw [hq]
    exact hsep.2.1 cr hcr
  obtain ⟨es, hqes⟩ : ∃ es, (q, es) ∈ chain := by
    obtain ⟨c, hc, hc1⟩ := List.mem_map.1 hmemq
    exact ⟨c.2, by rw [← hc1]; exact hc⟩
  obtain ⟨pre, post, hsplit⟩ := List.append_of_mem hqes
  subst hsplit
  obtain ⟨n, hrd, hholds, -, -⟩ := (Chain.append.1 hleaf.2.1).2
  have hqle := readLeaf_ok_le hrd
  have hmemle := hleaf.2.1.mem_le
  obtain ⟨hroomcase, hnewroot, hrootcase⟩ := @insertEntry_of_findLeaf p s key rid q path hfind
  have hesK : ∀ x ∈ es, ∃ e ∈ ins, e.1 = x.key := fun x hx => hleaf.entry_mem hqes hx
  have hKnew : ∀ c ∈ cs, ∃ e ∈ ins ++ [(key, rid)], e.1 = c.key := by
    intro c hc
    obtain ⟨e, he, hek⟩ := hK c hc
    exact ⟨e, by simp [he], hek⟩
  by_cases hfull : n.isFull p = true
  · have hes : es.length = p.leafSize := (hholds.isFull_iff_length (by omega)).1 hfull
    have hleaf2 := hleaf.insert_full hrd hes hsize (key, rid) hkey
    have hperm := sortRIDKeyPairs_perm (toPair (key, rid) :: es)
    have hSlen : (sortRIDKeyPairs (toPair (key, rid) :: es)).length = p.leafSize + 1 := by
      rw [hperm.length_eq, List.length_cons, hes]
    have hSnodup :
        ((sortRIDKeyPairs (toPair (key, rid) :: es)).map (fun e => e.key)).Nodup := by
      rw [List.Perm.nodup_iff (hperm.map _)]
      simp only [List.map_cons, List.nodup_cons]
      refine ⟨?_, hleaf.keys_nodup hnodup⟩
      intro hin
      obtain ⟨x, hx, hxk⟩ := List.mem_map.1 hin
      obtain ⟨e, he, hek⟩ := hesK x hx
      exact hfresh (List.mem_map.2 ⟨e, he, by rw [hek, hxk]; rfl⟩)
    obtain ⟨hT1, hT2, hmT2⟩ := @strict_take_drop (sortRIDKeyPairs (toPair (key, rid) :: es))
      (p.leafSize / 2) (by omega) (sortRIDKeyPairs_sorted _) hSnodup
    obtain ⟨-, -, -, -, -, -, hT1ne, -⟩ :=
      hholds.split hes hsize (toPair (key, rid)) hkey (s.file.length + 1)
    have hpk := hholds.split_pk (toPair (key, rid)) (s.file.length + 1)
    have hSmem : ∀ x ∈ sortRIDKeyPairs (toPair (key, rid) :: es),
        x = toPair (key, rid) ∨ x ∈ es := fun x hx => List.mem_cons.1 (hperm.mem_iff.1 hx)
    have hsrc : ∀ x, x ∈ (sortRIDKeyPairs (toPair (key, rid) :: es)).take (p.leafSize / 2) ∨
        x ∈ (sortRIDKeyPairs (toPair (key, rid) :: es)).drop (p.leafSize / 2) →
        x = toPair (key, rid) ∨ ∃ es1, (q, es1) ∈ pre ++ (q, es) :: post ∧ x ∈ es1 := by
      intro x hx
      have hxS : x ∈ sortRIDKeyPairs (toPair (key, rid) :: es) := by
        rcases hx with h | h
        · exact List.mem_of_mem_take h
        · exact List.mem_of_mem_drop h
      rcases hSmem x hxS with h | h
      · exact Or.inl h
      · exact Or.inr ⟨es, hqes, h⟩
    have hm : ∃ x, (x ∈ (sortRIDKeyPairs (toPair (key, rid) :: es)).take (p.leafSize / 2) ∨
        x ∈ (sortRIDKeyPairs (toPair (key, rid) :: es)).drop (p.leafSize / 2)) ∧
        x.key = ((sortRIDKeyPairs (toPair (key, rid) :: es)).getD (p.leafSize / 2)
          ⟨⟨0, 0⟩, 0⟩).key := ⟨_, Or.inr hmT2, rfl⟩
    have hmvalid : ((sortRIDKeyPairs (toPair (key, rid) :: es)).getD (p.leafSize / 2)
        ⟨⟨0, 0⟩, 0⟩).key ≠ invalidKey := by
      rcases hSmem _ (List.mem_of_mem_drop hmT2) with h | h
      · rw [h]; exact hkey
      · exact hholds.2.1 _ h
    have hmK : ∃ e ∈ ins ++ [(key, rid)],
        e.1 = ((sortRIDKeyPairs (toPair (key, rid) :: es)).getD (p.leafSize / 2)
          ⟨⟨0, 0⟩, 0⟩).key := by
      rcases hSmem _ (List.mem_of_mem_drop hmT2) with h | h
      · exact ⟨(key, rid), by simp, by rw [h]; rfl⟩
      · obtain ⟨e, he, hek⟩ := hesK _ h
        exact ⟨e, by simp [he], hek⟩
    have hnewout : s.file.length + 1 ∉ (pre ++ (q, es) :: post).map Prod.fst := by
      intro hin
      obtain ⟨c, hc, hc1⟩ := List.mem_map.1 hin
      have := (hmemle c hc).2
      omega
    obtain ⟨F, hFdef⟩ : ∃ F, F = writePage
        (writePage (s.file ++ [Page.blank]) (s.file.length + 1)
          (Page.leaf (n.split p (toPair (key, rid)) (s.file.length + 1)).2.1))
        q (Page.leaf (n.split p (toPair (key, rid)) (s.file.length + 1)).1) := ⟨_, rfl⟩
    rw [← hFdef] at hleaf2
    have hil : insertLeaf p s.file key rid q ⟨0, 0⟩
        = .ok (F, true, ⟨s.file.length + 1,
            ((sortRIDKeyPairs (toPair (key, rid) :: es)).getD (p.leafSize / 2)
              ⟨⟨0, 0⟩, 0⟩).key⟩) := by
      rw [hFdef, ← hpk]
      exact insertLeaf_full key rid ⟨0, 0⟩ hrd hfull
    have hFlen : F.length = s.file.length + 1 := by
      rw [hFdef]
      simp [length_writePage]
    have hFread : ∀ pid node, readNonLeaf F pid = .ok node →
        readNonLeaf s.file pid = .ok node := by
      intro pid node h
      rw [hFdef] at h
      exact readNonLeaf_append_blank (readNonLeaf_write_leaf (readNonLeaf_write_leaf h))
    have hFroot : ∀ r node, readNonLeaf s.file r = .ok node → readNonLeaf F r = .ok node := by
      intro r node h
      have hrle := readNonLeaf_ok_le h
      rw [hFdef, readNonLeaf_writePage_ne _ hqle.1 (readLeaf_readNonLeaf_ne hrd h),
        readNonLeaf_writePage_ne _ (by omega) (by omega), readNonLeaf_append _ hrle.2]
      exact h
    clear hFdef hpk hmT2 hSmem hSnodup hSlen hperm
    generalize ((sortRIDKeyPairs (toPair (key, rid) :: es)).getD (p.leafSize / 2)
      ⟨⟨0, 0⟩, 0⟩).key = m at hT1 hT2 hm hmvalid hmK hil
    generalize (sortRIDKeyPairs (toPair (key, rid) :: es)).take (p.leafSize / 2) = T1
      at hT1 hT1ne hsrc hm hleaf2
    generalize (sortRIDKeyPairs (toPair (key, rid) :: es)).drop (p.leafSize / 2) = T2
      at hT2 hsrc hm hleaf2
    have hpids2 : ∀ x ∈ (pre ++ (q, es) :: post).map Prod.fst,
        x ∈ (pre ++ (q, T1) :: (s.file.length + 1, T2) :: post).map Prod.fst := by
      intro x hx
      simp only [List.map_append, List.map_cons, List.mem_append, List.mem_cons] at hx ⊢
      tauto
    have hnewpid : s.file.length + 1 ∈
        (pre ++ (q, T1) :: (s.file.length + 1, T2) :: post).map Prod.fst := by simp
    have hother2 : ∀ x es1, (x, es1) ∈ pre ++ (q, T1) :: (s.file.length + 1, T2) :: post →
        x ≠ q → x ≠ s.file.length + 1 → (x, es1) ∈ pre ++ (q, es) :: post := by
      intro x es1 h1 hne hne2
      simp only [List.mem_append, List.mem_cons, Prod.mk.injEq] at h1 ⊢
      rcases h1 with h | ⟨h, -⟩ | ⟨h, -⟩ | h
      · exact Or.inl h
      · exact absurd h hne
      · exact absurd h hne2
      · exact Or.inr (Or.inr h)
    have hq2 : ∀ es1, (q, es1) ∈ pre ++ (q, T1) :: (s.file.length + 1, T2) :: post →
        es1 = T1 := by
      intro es1 h1
      exact mem_unique_of_nodup_fst hleaf2.2.2.1 h1 (by simp)
    have hnew2 : ∀ es1,
        (s.file.length + 1, es1) ∈ pre ++ (q, T1) :: (s.file.length + 1, T2) :: post →
        es1 = T2 := by
      intro es1 h1
      exact mem_unique_of_nodup_fst hleaf2.2.2.1 h1 (by simp)
    obtain ⟨hsep2, hmkeys, hcrm⟩ := @SepAt.split_child (pre ++ (q, es) :: post)
      (pre ++ (q, T1) :: (s.file.length + 1, T2) :: post) (⟨2, b⟩ :: cs) q
      (s.file.length + 1) (toPair (key, rid)) m T1 T2 hsep hsorted.nodup hpids2 hnewpid
      hnewout hother2 hq2 hnew2 hsrc hT1 hT2 hT1ne hm cr hcr hq.symm hcrkey hhigh
    have hbm : b < m := by omega
    have hPperm := sortPageKeyPairs_perm (⟨s.file.length + 1, m⟩ :: cs)
    have hP : SepAt (pre ++ (q, T1) :: (s.file.length + 1, T2) :: post)
        (⟨2, b⟩ :: sortPageKeyPairs (⟨s.file.length + 1, m⟩ :: cs)) :=
      hsep2.perm ((List.Perm.cons _ hPperm).trans (List.Perm.swap _ _ _))
    have hPsorted := @sorted_keys_insert ⟨2, b⟩ ⟨s.file.length + 1, m⟩ cs hsorted hbm hmkeys
    have hPvalid : ∀ c ∈ sortPageKeyPairs (⟨s.file.length + 1, m⟩ :: cs),
        c.key ≠ invalidKey := by
      intro c hc
      rcases List.mem_cons.1 (hPperm.mem_iff.1 hc) with h | h
      · rw [h]; exact hmvalid
      · exact hvalid c h
    have hPK : ∀ c ∈ sortPageKeyPairs (⟨s.file.length + 1, m⟩ :: cs),
        ∃ e ∈ ins ++ [(key, rid)], e.1 = c.key := by
      intro c hc
      rcases List.mem_cons.1 (hPperm.mem_iff.1 hc) with h | h
      · rw [h]; exact hmK
      · exact hKnew c h
    have hPlive : ∀ x ∈ 2 :: (sortPageKeyPairs (⟨s.file.length + 1, m⟩ :: cs)).map
          (fun c => c.pageNo),
        x ∈ 2 :: cs.map (fun c => c.pageNo) ∨ x ∉ (pre ++ (q, es) :: post).map Prod.fst := by
      intro x hx
      rcases List.mem_cons.1 hx with h | h
      · left; rw [h]; exact List.mem_cons_self _ _
      · obtain ⟨c, hc, hcx⟩ := List.mem_map.1 h
        rcases List.mem_cons.1 (hPperm.mem_iff.1 hc) with h1 | h1
        · right
          rw [← hcx, h1]
          exact hnewout
        · left
          rw [← hcx]
          exact List.mem_cons_of_mem _ (List.mem_map_of_mem (fun c : PageKeyPair => c.pageNo) h1)
    have hsame2 : ∀ x es1, (x, es1) ∈ pre ++ (q, T1) :: (s.file.length + 1, T2) :: post →
        x ∉ 2 :: cs.map (fun c => c.pageNo) → x ∈ (pre ++ (q, es) :: post).map Prod.fst →
        (x, es1) ∈ pre ++ (q, es) :: post :=
      fun x es1 h1 hl hin => hother2 x es1 h1 (fun h => hl (h ▸ hqlive))
        (fun h => hnewout (h ▸ hin))
    have hout2 : ∀ c ∈ pre ++ (q, T1) :: (s.file.length + 1, T2) :: post,
        c.1 ≠ F.length + 1 := by
      intro c hc
      have := (hleaf2.2.1.mem_le c hc).2
      omega
    rcases hpath with ⟨hr2, hp, hq2, hcs⟩ | ⟨hr2, hp⟩
    · -- the root leaf was split: a new root
      subst hcs
      subst hq2
      have he := hnewroot _ _ hil hp
      obtain ⟨hins, hlevel⟩ :=
        (nodeHolds_newRoot p (if true = true then 1 else 0) 2).insert_node
          (by simp; omega) ⟨s.file.length + 1, m⟩ hmvalid
      refine ⟨_, he, pre ++ (2, T1) :: (s.file.length + 1, T2) :: post, b,
        sortPageKeyPairs [⟨s.file.length + 1, m⟩], ?_, ?_, hP, hPsorted, hPvalid, hPK, ?_⟩
      · show LeafInv p (writePage (writePage (F ++ [Page.blank]) (F.length + 1) _) 1 _) _ _
        exact LeafInv.write_outside 1 _ (by omega) hleaf2.2.2.2.1
          (LeafInv.write_outside _ _ (by omega) hout2 (hleaf2.grow_file _))
      · show RootAt p (writePage (writePage (F ++ [Page.blank]) (F.length + 1) _) 1 _)
          (F.length + 1) _ _
        refine Or.inr ⟨by omega, by omega, ?_, _, ?_, hlevel, hins⟩
        · intro hin
          obtain ⟨c, hc, hc1⟩ := List.mem_map.1 hin
          exact hout2 c hc hc1
        · rw [readNonLeaf_writePage_ne _ (by omega) (by omega)]
          exact readNonLeaf_writePage_same _ (by omega) (by rw [List.length_append]; simp)
      · show OrphansSep p (writePage (writePage (F ++ [Page.blank]) (F.length + 1) _) 1 _) _
          (F.length + 1) _
        refine horph.frame ?_ hpids2 hsame2 hPlive
        intro pid node hrd1 hne
        rcases readNonLeaf_write_nonLeaf (by omega) (readNonLeaf_write_meta hrd1) with
          ⟨h1, -⟩ | h1
        · exact absurd h1 hne
        · have h2 := hFread _ _ (readNonLeaf_append_blank h1)
          exact Or.inl ⟨h2, by rw [hr2]; exact readLeaf_readNonLeaf_ne hrd h2⟩
    · -- a leaf below the non-leaf root was split
      rcases hrootat with ⟨h2, -⟩ | ⟨-, hr1, hrout, node, hrdroot, hlevel, hnode⟩
      · exact absurd h2 hr2
      · have hrle := readNonLeaf_ok_le hrdroot
        have hrdroot2 := hFroot _ _ hrdroot
        have hnode1 :
            NodeHolds p { node with level := if true = true then 1 else 0 } 2 cs := hnode
        have hroutc : ∀ c ∈ pre ++ (q, T1) :: (s.file.length + 1, T2) :: post,
            c.1 ≠ s.metaInfo.rootPageNo := by
          intro c hc heq
          simp only [List.mem_append, List.mem_cons] at hc
          apply hrout
          simp only [List.map_append, List.map_cons, List.mem_append, List.mem_cons,
            List.mem_map]
          rcases hc with h | h | h | h
          · exact Or.inl ⟨c, h, heq⟩
          · rw [h] at heq
            exact Or.inr (Or.inl heq.symm)
          · rw [h] at heq
            simp only at heq
            omega
          · exact Or.inr (Or.inr ⟨c, h, heq⟩)
        have hrout2 : s.metaInfo.rootPageNo ∉
            (pre ++ (q, T1) :: (s.file.length + 1, T2) :: post).map Prod.fst := by
          intro hin
          obtain ⟨c, hc, hc1⟩ := List.mem_map.1 hin
          exact hroutc c hc hc1
        by_cases hnfull :
            NonLeafNode.isFull p { node with level := if true = true then 1 else 0 } = true
        · have hcslen : cs.length = p.nonLeafSize :=
            (hnode1.isFull_iff_count (by omega)).1 hnfull
          have he := hrootcase _ _ _ _ hil hp (insertNonLeaf_full _ true hrdroot2 hnfull)
          obtain ⟨hleftN, hleftlev⟩ :=
            hnode1.split_left hcslen hnsize ⟨s.file.length + 1, m⟩ hmvalid (F.length + 1)
          obtain ⟨hrightN, hrightlev⟩ :=
            hnode1.split_right hcslen hnsize ⟨s.file.length + 1, m⟩ hmvalid (F.length + 1)
          have hPlen : (sortPageKeyPairs (⟨s.file.length + 1, m⟩ :: cs)).length
              = p.nonLeafSize + 1 := by
            rw [hPperm.length_eq, List.length_cons, hcslen]
          have hdropeq : (sortPageKeyPairs (⟨s.file.length + 1, m⟩ :: cs)).drop
                (p.nonLeafSize / 2)
              = (sortPageKeyPairs (⟨s.file.length + 1, m⟩ :: cs)).getD (p.nonLeafSize / 2)
                  ⟨0, 0⟩ ::
                (sortPageKeyPairs (⟨s.file.length + 1, m⟩ :: cs)).drop
                  (p.nonLeafSize / 2 + 1) := by
            rw [List.getD_eq_getElem _ _ (by omega), ← List.drop_eq_getElem_cons]
          have hPpages := hP.1
          generalize sortPageKeyPairs (⟨s.file.length + 1, m⟩ :: cs) = P at *
          refine ⟨_, he, pre ++ (q, T1) :: (s.file.length + 1, T2) :: post, b,
            P.take (p.nonLeafSize / 2), ?_, ?_,
            hP.sublist (List.Sublist.cons₂ _ (List.take_sublist _ _)),
            List.Pairwise.sublist ((List.Sublist.cons₂ _ (List.take_sublist _ _)).map _)
              hPsorted,
            fun c hc => hPvalid c (List.mem_of_mem_take hc),
            fun c hc => hPK c (List.mem_of_mem_take hc), ?_⟩
          · show LeafInv p (writePage (writePage (F ++ [Page.blank]) s.metaInfo.rootPageNo _)
              (F.length + 1) _) _ _
            exact LeafInv.write_outside _ _ (by omega) hout2
              (LeafInv.write_outside _ _ hrle.1 hroutc (hleaf2.grow_file _))
          · refine Or.inr ⟨hr2, hr1, hrout2, _, ?_, hleftlev, hleftN⟩
            show readNonLeaf (writePage (writePage (F ++ [Page.blank])
              s.metaInfo.rootPageNo _) (F.length + 1) _) s.metaInfo.rootPageNo = .ok _
            rw [readNonLeaf_writePage_ne _ (by omega) (by omega)]
            exact readNonLeaf_writePage_same _ hrle.1 (by rw [List.length_append]; omega)
          · show OrphansSep p (writePage (writePage (F ++ [Page.blank])
              s.metaInfo.rootPageNo _) (F.length + 1) _) _ _ _
            refine horph.frame ?_ hpids2 hsame2 ?_
            · intro pid node1 hrd1 hne
              rcases readNonLeaf_write_nonLeaf (by omega) hrd1 with ⟨-, h2⟩ | h1
              · right
                refine ⟨P.getD (p.nonLeafSize / 2) ⟨0, 0⟩, P.drop (p.nonLeafSize / 2 + 1),
                  ?_, ?_, ?_, ?_, ?_⟩
                · rw [h2]; exact hrightlev
                · rw [h2]; exact hrightN
                · rw [← hdropeq]
                  exact hP.sublist (List.Sublist.cons _ (List.drop_sublist _ _))
                · rw [← hdropeq]
                  exact List.Pairwise.sublist
                    ((List.Sublist.cons _ (List.drop_sublist _ _)).map _) hPsorted
                · rw [← hdropeq]
                  intro c hc hin
                  rw [← List.take_append_drop (p.nonLeafSize / 2) P] at hPpages
                  simp only [List.map_cons, List.map_append, List.nodup_cons,
                    List.mem_append, List.nodup_append] at hPpages
                  have hcd : c.pageNo ∈ (P.drop (p.nonLeafSize / 2)).map
                      (fun c => c.pageNo) :=
                    List.mem_map_of_mem (fun c : PageKeyPair => c.pageNo) hc
                  rcases List.mem_cons.1 hin with h3 | h3
                  · exact hPpages.1 (Or.inr (h3 ▸ hcd))
                  · exact hPpages.2.2.2 h3 hcd
              · rcases readNonLeaf_write_nonLeaf hrle.1 h1 with ⟨h2, -⟩ | h2
                · exact absurd h2 hne
                · exact Or.inl ⟨hFread _ _ (readNonLeaf_append_blank h2), hne⟩
            · intro x hx
              apply hPlive
              rcases List.mem_cons.1 hx with h | h
              · rw [h]; exact List.mem_cons_self _ _
              · obtain ⟨c, hc, hcx⟩ := List.mem_map.1 h
                exact List.mem_cons_of_mem _
                  (List.mem_map.2 ⟨c, List.mem_of_mem_take hc, hcx⟩)
        · have hnfull' :
              NonLeafNode.isFull p { node with level := if true = true then 1 else 0 }
                = false := by
            simpa using hnfull
          have hcslen : cs.length < p.nonLeafSize := by
            have := mt (hnode1.isFull_iff_count (by omega)).2 hnfull
            have := hnode1.1
            omega
          have he := hrootcase _ _ _ _ hil hp (insertNonLeaf_room _ true hrdroot2 hnfull')
          obtain ⟨hinsN, hinslev⟩ := hnode1.insert_node hcslen ⟨s.file.length + 1, m⟩ hmvalid
          refine ⟨_, he, pre ++ (q, T1) :: (s.file.length + 1, T2) :: post, b,
            sortPageKeyPairs (⟨s.file.length + 1, m⟩ :: cs), ?_, ?_, hP, hPsorted, hPvalid,
            hPK, ?_⟩
          · show LeafInv p (writePage F s.metaInfo.rootPageNo _) _ _
            exact LeafInv.write_outside _ _ hrle.1 hroutc hleaf2
          · exact Or.inr ⟨hr2, hr1, hrout2, _,
              readNonLeaf_writePage_same _ hrle.1 (by omega), hinslev, hinsN⟩
          · show OrphansSep p (writePage F s.metaInfo.rootPageNo _) _ _ _
            refine horph.frame ?_ hpids2 hsame2 hPlive
            intro pid node1 hrd1 hne
            rcases readNonLeaf_write_nonLeaf hrle.1 hrd1 with ⟨h2, -⟩ | h2
            · exact absurd h2 hne
            · exact Or.inl ⟨hFread _ _ h2, hne⟩
  · have hfull' : n.isFull p = false := by simpa using hfull
    have hes : es.length < p.leafSize := by
      have := mt (hholds.isFull_iff_length (by omega)).2 hfull
      have := hholds.1
      omega
    have hleaf1 := hleaf.insert_room hrd hes (key, rid) hkey
    have hil := insertLeaf_room key rid ⟨0, 0⟩ hrd hfull'
    have he := hroomcase _ _ hil (by
      rcases hpath with ⟨-, hp, -, -⟩ | ⟨-, hp⟩
      · exact Or.inl hp
      · exact Or.inr hp)
    have hpids : ∀ x ∈ (pre ++ (q, es) :: post).map Prod.fst,
        x ∈ (pre ++ (q, sortRIDKeyPairs (toPair (key, rid) :: es)) :: post).map Prod.fst := by
      intro x hx
      simpa using hx
    have hother : ∀ x es1,
        (x, es1) ∈ pre ++ (q, sortRIDKeyPairs (toPair (key, rid) :: es)) :: post → x ≠ q →
        (x, es1) ∈ pre ++ (q, es) :: post := by
      intro x es1 h1 hne
      simp only [List.mem_append, List.mem_cons, Prod.mk.injEq] at h1 ⊢
      rcases h1 with h | ⟨h, -⟩ | h
      · exact Or.inl h
      · exact absurd h hne
      · exact Or.inr (Or.inr h)
    refine ⟨_, he, pre ++ (q, sortRIDKeyPairs (toPair (key, rid) :: es)) :: post, b, cs,
      hleaf1, ?_, ?_, hsorted, hvalid, hKnew, ?_⟩
    · rcases hrootat with h | ⟨h2, h1, hout, node, hrdroot, hlevel, hnode⟩
      · exact Or.inl h
      · refine Or.inr ⟨h2, h1, by simpa using hout, node, ?_, hlevel, hnode⟩
        show readNonLeaf (writePage s.file q _) s.metaInfo.rootPageNo = .ok node
        rw [readNonLeaf_writePage_ne _ hqle.1 (readLeaf_readNonLeaf_ne hrd hrdroot)]
        exact hrdroot
    · refine @SepAt.room _ _ _ q (toPair (key, rid)) hsep hpids hother ?_ cr hcr hq.symm
        hcrkey hhigh
      intro es1 h1 x hx
      have hmem1 : (q, sortRIDKeyPairs (toPair (key, rid) :: es)) ∈
          pre ++ (q, sortRIDKeyPairs (toPair (key, rid) :: es)) :: post := by simp
      rw [mem_unique_of_nodup_fst hleaf1.2.2.1 h1 hmem1] at hx
      rcases List.mem_cons.1 ((sortRIDKeyPairs_perm _).mem_iff.1 hx) with h | h
      · exact Or.inl h
      · exact Or.inr ⟨es, hqes, h⟩
    · refine horph.frame ?_ hpids ?_ (fun x hx => Or.inl hx)
      · intro pid node hrd1 hne
        exact Or.inl ⟨readNonLeaf_write_leaf hrd1, hne⟩
      · intro x es1 h1 hlive _
        exact hother x es1 h1 (fun h => hlive (h ▸ hqlive))

/-! ## A sequence of inserts with pairwise distinct keys -/

theorem sepInv_createIndex (p : Params) (relationName : List Nat) (attrByteOffset : Int)
    (scan0 : BTreeIndex) : SepInv p (createIndex p relationName attrByteOffset scan0) [] := by
  refine ⟨[(2, [])], 0, [], ⟨rfl, ?_, by simp, by simp, by simp [createIndex], by simp,
    by simp⟩, Or.inl ⟨rfl, rfl⟩, ⟨by simp, by simp, ?_⟩, by simp, by simp, by simp, ?_⟩
  · exact ⟨LeafNode.fresh p, rfl, leafHolds_fresh p, rfl, trivial⟩
  · intro c _ es hes e he
    simp only [List.mem_singleton, Prod.mk.injEq] at hes
    rw [hes.2] at he
    simp at he
  · intro pid node hrd _
    exfalso
    have hle := readNonLeaf_ok_le hrd
    simp only [createIndex, List.length_cons, List.length_nil] at hle
    have hpid : pid = 1 ∨ pid = 2 := by omega
    rcases hpid with h1 | h1
    · rw [h1] at hrd
      simp [createIndex, readNonLeaf, readPage] at hrd
    · rw [h1] at hrd
      simp [createIndex, readNonLeaf, readPage] at hrd

theorem insertAll_sep {p : Params} (hsize : 2 ≤ p.leafSize) (hnsize : 1 ≤ p.nonLeafSize)
    (rest : List (Int × RecordId)) :
    ∀ (s : BTreeIndex) (done : List (Int × RecordId)), SepInv p s done →
      ((done ++ rest).map Prod.fst).Nodup → (∀ e ∈ rest, e.1 ≠ invalidKey) →
      ∃ s1, insertAll p s rest = .ok s1 ∧ SepInv p s1 (done ++ rest) := by
  induction rest with
  | nil =>
    intro s done hinv _ _
    exact ⟨s, rfl, by simpa using hinv⟩
  | cons e rest ih =>
    intro s done hinv hnodup hkeys
    obtain ⟨key, rid⟩ := e
    have hnd := hnodup
    simp only [List.map_append, List.map_cons, List.nodup_append, List.nodup_cons,
      List.mem_cons, not_or] at hnd
    obtain ⟨s1, hstep, hinv1⟩ := insertEntry_sep hsize hnsize hinv hnd.1 key rid
      (hkeys (key, rid) (List.mem_cons_self _ _))
      (fun hin => hnd.2.2 hin (List.mem_cons_self _ _))
    obtain ⟨s2, hrest, hinv2⟩ := ih s1 (done ++ [(key, rid)]) hinv1
      (by simpa using hnodup)
      (fun x hx => hkeys x (List.mem_cons_of_mem _ hx))
    refine ⟨s2, ?_, by simpa using hinv2⟩
    simp only [insertAll]
    rw [hstep]
    exact hrest

theorem NodeHolds.getPageNo_kid {p : Params} {n : NonLeafNode} {k0 : PageKeyPair}
    {cs : List PageKeyPair} (h : NodeHolds p n k0.pageNo cs) {i : Nat}
    (hi : i < (k0 :: cs).length) : n.getPageNo i = ((k0 :: cs).get ⟨i, hi⟩).pageNo := by
  obtain ⟨-, -, -, rest, hp, -⟩ := h
  unfold NonLeafNode.getPageNo
  rw [hp]
  have h1 : k0.pageNo :: (cs.map (fun c => c.pageNo) ++ rest)
      = (k0 :: cs).map (fun c => c.pageNo) ++ rest := rfl
  have h2 : i < ((k0 :: cs).map (fun c => c.pageNo)).length := by simpa using hi
  rw [h1, List.getD_append _ _ _ _ h2, List.getD_eq_getElem _ _ h2, List.getElem_map]
  rfl

/-- The slots of a node whose children satisfy `SepAt`: the leaf left of a key holds
smaller keys only, the leaf right of it keys that are at least the key. -/
theorem sep_slots {p : Params} {file : List Page} {chain : List (Nat × List RIDKeyPair)}
    {next : Nat} {node : NonLeafNode} {k0 : PageKeyPair} {cs : List PageKeyPair}
    (hchain : Chain p file chain next) (hnode : NodeHolds p node k0.pageNo cs)
    (hsep : SepAt chain (k0 :: cs))
    (hsorted : ((k0 :: cs).map (fun c => c.key)).Sorted (fun a b => a < b))
    (i : Nat) (hi : node.getKey i ≠ invalidKey) :
    ∃ l r, readLeaf file (node.getPageNo i) = .ok l ∧
      readLeaf file (node.getPageNo (i + 1)) = .ok r ∧
      (∀ j, l.getKey j ≠ invalidKey → l.getKey j < node.getKey i) ∧
      (∀ j, r.getKey j ≠ invalidKey → node.getKey i ≤ r.getKey j) := by
  obtain ⟨hlt, hkeyeq, hpageeq⟩ := hnode.getKey_valid hi
  have hi0 : i < (k0 :: cs).length := by simp; omega
  have hi1 : i + 1 < (k0 :: cs).length := by simp; omega
  have hpage0 := hnode.getPageNo_kid hi0
  have hd : cs.get ⟨i, hlt⟩ ∈ k0 :: cs := List.mem_cons_of_mem _ (List.get_mem _ _ _)
  have hc : (k0 :: cs).get ⟨i, hi0⟩ ∈ k0 :: cs := List.get_mem _ _ _
  have hcd : ((k0 :: cs).get ⟨i, hi0⟩).key < (cs.get ⟨i, hlt⟩).key := by
    have h1 := List.pairwise_iff_getElem.1 (List.pairwise_map.1 hsorted) i (i + 1) hi0 hi1
      (by omega)
    simpa using h1
  obtain ⟨c0, hc0, hc0eq⟩ := List.mem_map.1 (hsep.2.1 _ hc)
  obtain ⟨c1, hc1, hc1eq⟩ := List.mem_map.1 (hsep.2.1 _ hd)
  have hmem0 : (((k0 :: cs).get ⟨i, hi0⟩).pageNo, c0.2) ∈ chain := by
    rw [← hc0eq]; exact hc0
  have hmem1 : ((cs.get ⟨i, hlt⟩).pageNo, c1.2) ∈ chain := by
    rw [← hc1eq]; exact hc1
  obtain ⟨l, hl, hlholds⟩ := hchain.read_of_mem _ _ hmem0
  obtain ⟨r, hr, hrholds⟩ := hchain.read_of_mem _ _ hmem1
  refine ⟨l, r, by rw [hpage0]; exact hl, by rw [hpageeq]; exact hr, ?_, ?_⟩
  · intro j hj
    obtain ⟨x, hx, hxk⟩ := hlholds.getKey_mem hj
    rw [← hxk, hkeyeq]
    exact (hsep.2.2 _ hc _ hmem0 x hx).2 _ hd hcd
  · intro j hj
    obtain ⟨x, hx, hxk⟩ := hrholds.getKey_mem hj
    rw [← hxk, hkeyeq]
    exact (hsep.2.2 _ hd _ hmem1 x hx).1

/-! ## C14: the separator keys -/

/-- C14, the claim as stated fails: after three inserts of the key `5` into an index with
two-slot leaves the root has the key `5` in slot `0`, and the leaf of its page number
slot `0` holds the key `5`, which is not below the separator. -/
theorem duplicate_key_left_of_separator :
    ∃ s node l,
      insertAll smallParams (emptyIndex smallParams)
        [(5, ridOf 1), (5, ridOf 2), (5, ridOf 3)] = .ok s ∧
      readNonLeaf s.file s.metaInfo.rootPageNo = .ok node ∧
      node.getKey 0 = 5 ∧ node.getKey 0 ≠ invalidKey ∧
      readLeaf s.file (node.getPageNo 0) = .ok l ∧
      l.getKey 0 = 5 ∧ l.getKey 0 ≠ invalidKey ∧ ¬ (l.getKey 0 < node.getKey 0) := by
  refine ⟨_, _, _, rfl, rfl, ?_, ?_, rfl, ?_, ?_, ?_⟩ <;> decide

/-- C14, amended: for leaves of at least two slots and non-leaf nodes of at least one key,
every sequence of `insertEntry` calls on a new index with non-sentinel keys that are
pairwise distinct returns normally, and afterwards every non-leaf page of the index file
is a node of level 1 such that for every key slot `i` below the array size that does not
hold the sentinel, the pages in the page number slots `i` and `i + 1` are leaves, every
key of the first is below the key of slot `i` and every key of the second is at least
that key. The root is page 2 or one of these non-leaf pages. -/
theorem separator_keys_distinct_inserts (p : Params) (hsize : 2 ≤ p.leafSize)
    (hnsize : 1 ≤ p.nonLeafSize) (relationName : List Nat) (attrByteOffset : Int)
    (scan0 : BTreeIndex) (ins : List (Int × RecordId))
    (hkeys : ∀ e ∈ ins, e.1 ≠ invalidKey) (hdistinct : (ins.map Prod.fst).Nodup) :
    ∃ s, insertAll p (createIndex p relationName attrByteOffset scan0) ins = .ok s ∧
      (∀ pid node, readNonLeaf s.file pid = .ok node →
        node.level = 1 ∧
        ∀ i, i < p.nonLeafSize → node.getKey i ≠ invalidKey →
          ∃ l r, readLeaf s.file (node.getPageNo i) = .ok l ∧
            readLeaf s.file (node.getPageNo (i + 1)) = .ok r ∧
            (∀ j, j < p.leafSize → l.getKey j ≠ invalidKey → l.getKey j < node.getKey i) ∧
            (∀ j, j < p.leafSize → r.getKey j ≠ invalidKey →
              node.getKey i ≤ r.getKey j)) ∧
      (s.metaInfo.rootPageNo = 2 ∨
        ∃ node, readNonLeaf s.file s.metaInfo.rootPageNo = .ok node) := by
  obtain ⟨s, hall, chain, b, cs, hleaf, hrootat, hsep, hsorted, -, -, horph⟩ :=
    insertAll_sep hsize hnsize ins _ []
      (sepInv_createIndex p relationName attrByteOffset scan0) (by simpa using hdistinct) hkeys
  refine ⟨s, hall, ?_, ?_⟩
  · intro pid node hrd
    have hnode : ∃ k0 cs1, node.level = 1 ∧ NodeHolds p node k0.pageNo cs1 ∧
        SepAt chain (k0 :: cs1) ∧
        ((k0 :: cs1).map (fun c => c.key)).Sorted (fun a b => a < b) := by
      by_cases hpid : pid = s.metaInfo.rootPageNo
      · rcases hrootat with ⟨h2, -⟩ | ⟨-, -, -, node1, hrd1, hlevel, hholds⟩
        · exfalso
          obtain ⟨es0, rest0, hhead⟩ := hleaf.head_two
          have hchain := hleaf.2.1
          rw [hhead] at hchain
          obtain ⟨n, hrdn, -⟩ := hchain
          exact readLeaf_readNonLeaf_ne hrdn hrd (hpid.trans h2)
        · rw [hpid, hrd1] at hrd
          rw [← Except.ok.inj hrd]
          exact ⟨⟨2, b⟩, cs, hlevel, hholds, hsep, hsorted⟩
      · obtain ⟨k0, cs1, h1, h2, h3, h4, -⟩ := horph pid node hrd hpid
        exact ⟨k0, cs1, h1, h2, h3, h4⟩
    obtain ⟨k0, cs1, hlevel, hholds, hsep1, hsorted1⟩ := hnode
    refine ⟨hlevel, ?_⟩
    intro i _ hi
    obtain ⟨l, r, hl, hr, h1, h2⟩ := sep_slots hleaf.2.1 hholds hsep1 hsorted1 i hi
    exact ⟨l, r, hl, hr, fun j _ hj => h1 j hj, fun j _ hj => h2 j hj⟩
  · rcases hrootat with ⟨h2, -⟩ | ⟨-, -, -, node1, hrd1, -, -⟩
    · exact Or.inl h2
    · exact Or.inr ⟨node1, hrd1⟩

/-- C14, amended, at an example: the keys `1` to `6` inserted in this order into an index
with two-slot leaves and two-key non-leaf nodes, where the fifth insert splits the
root. -/
theorem separator_keys_distinct_inserts_witness :
    2 ≤ smallParams.leafSize ∧ 1 ≤ smallParams.nonLeafSize ∧
    (∀ e ∈ ([(1, ridOf 1), (2, ridOf 2), (3, ridOf 3), (4, ridOf 4), (5, ridOf 5),
      (6, ridOf 6)] : List (Int × RecordId)), e.1 ≠ invalidKey) ∧
    (([(1, ridOf 1), (2, ridOf 2), (3, ridOf 3), (4, ridOf 4), (5, ridOf 5),
      (6, ridOf 6)] : List (Int × RecordId)).map Prod.fst).Nodup ∧
    ∃ s, insertAll smallParams (createIndex smallParams [] 0 idleScan)
        [(1, ridOf 1), (2, ridOf 2), (3, ridOf 3), (4, ridOf 4), (5, ridOf 5),
          (6, ridOf 6)] = .ok s ∧
      (∀ pid node, readNonLeaf s.file pid = .ok node →
        node.level = 1 ∧
        ∀ i, i < smallParams.nonLeafSize → node.getKey i ≠ invalidKey →
          ∃ l r, readLeaf s.file (node.getPageNo i) = .ok l ∧
            readLeaf s.file (node.getPageNo (i + 1)) = .ok r ∧
            (∀ j, j < smallParams.leafSize → l.getKey j ≠ invalidKey →
              l.getKey j < node.getKey i) ∧
            (∀ j, j < smallParams.leafSize → r.getKey j ≠ invalidKey →
              node.getKey i ≤ r.getKey j)) ∧
      (s.metaInfo.rootPageNo = 2 ∨
        ∃ node, readNonLeaf s.file s.metaInfo.rootPageNo = .ok node) :=
  ⟨by decide, by decide, by decide, by decide,
    separator_keys_distinct_inserts smallParams (by decide) (by decide) [] 0 idleScan
      [(1, ridOf 1), (2, ridOf 2), (3, ridOf 3), (4, ridOf 4), (5, ridOf 5), (6, ridOf 6)]
      (by decide) (by decide)⟩

/-! ## C30: `padStr` -/

theorem padStrCopy_eq (str : List Char) :
    ∀ (fuel i : Nat) (acc : List Char), i ≤ min str.length STRINGSIZE →
      min str.length STRINGSIZE ≤ i + fuel →
      padStrCopy str fuel i acc
        = (min str.length STRINGSIZE,
            acc ++ (str.drop i).take (min str.length STRINGSIZE - i)) := by
  intro fuel
  induction fuel with
  | zero =>
    intro i acc hi hfuel
    have : min str.length STRINGSIZE = i := by omega
    simp [padStrCopy, this]
  | succ fuel ih =>
    intro i acc hi hfuel
    by_cases hlt : i < str.length ∧ i < STRINGSIZE
    · simp only [padStrCopy]
      rw [if_pos hlt, ih (i + 1) _ (by omega) (by omega)]
      have hdrop : str.drop i = str.getD i (Char.ofNat 0) :: str.drop (i + 1) := by
        rw [List.getD_eq_getElem _ _ hlt.1, ← List.drop_eq_getElem_cons]
      obtain ⟨k, hk⟩ : ∃ k, min str.length STRINGSIZE - i = k + 1 :=
        ⟨min str.length STRINGSIZE - i - 1, by omega⟩
      have hk2 : min str.length STRINGSIZE - (i + 1) = k := by omega
      rw [hdrop, hk, hk2]
      simp
    · have : min str.length STRINGSIZE = i := by omega
      simp only [padStrCopy]
      rw [if_neg hlt]
      simp [this]

theorem padStrFill_eq :
    ∀ (fuel i : Nat) (acc : List Char), i ≤ STRINGSIZE → STRINGSIZE ≤ i + fuel →
      padStrFill fuel i acc = acc ++ List.replicate (STRINGSIZE - i) (Char.ofNat 0) := by
  intro fuel
  induction fuel with
  | zero =>
    intro i acc hi hfuel
    have : STRINGSIZE - i = 0 := by omega
    simp [padStrFill, this]
  | succ fuel ih =>
    intro i acc hi hfuel
    by_cases hlt : i < STRINGSIZE
    · simp only [padStrFill]
      rw [if_pos hlt, ih (i + 1) _ (by omega) (by omega)]
      obtain ⟨k, hk⟩ : ∃ k, STRINGSIZE - i = k + 1 := ⟨STRINGSIZE - i - 1, by omega⟩
      have hk2 : STRINGSIZE - (i + 1) = k := by omega
      rw [hk, hk2, List.replicate_succ]
      simp
    · have : STRINGSIZE - i = 0 := by omega
      simp only [padStrFill]
      rw [if_neg hlt]
      simp [this]

theorem padStr_eq (s : List Char) :
    padStr s = s.take STRINGSIZE
      ++ List.replicate (STRINGSIZE - min s.length STRINGSIZE) (Char.ofNat 0) := by
  unfold padStr
  rw [padStrCopy_eq s STRINGSIZE 0 [] (by omega) (by omega)]
  dsimp only
  rw [padStrFill_eq STRINGSIZE _ _ (by omega) (by omega)]
  simp only [List.drop_zero, List.nil_append, Nat.sub_zero]
  congr 1
  rw [List.take_eq_take]
  simp
  omega

/-- C30: for every string `s`, `padStr(s)` has `STRINGSIZE` (10) characters, the first
`min(|s|, 10)` of them are those of `s` and all others are NUL; `padStr` applied twice
gives the same as applied once, and a string of length 10 comes back unchanged. -/
theorem padStr_pads_to_STRINGSIZE (s : List Char) :
    (padStr s).length = STRINGSIZE ∧ STRINGSIZE = 10 ∧
    (∀ i, i < min s.length STRINGSIZE →
      (padStr s).getD i (Char.ofNat 0) = s.getD i (Char.ofNat 0)) ∧
    (∀ i, min s.length STRINGSIZE ≤ i → i < STRINGSIZE → (padStr s)[i]? = some (Char.ofNat 0)) ∧
    padStr (padStr s) = padStr s ∧
    (s.length = STRINGSIZE → padStr s = s) := by
  have hlen : (padStr s).length = STRINGSIZE := by
    rw [padStr_eq]
    simp
    omega
  have hid : ∀ t : List Char, t.length = STRINGSIZE → padStr t = t := by
    intro t ht
    rw [padStr_eq, ht, List.take_of_length_le (by omega)]
    simp
  refine ⟨hlen, rfl, ?_, ?_, hid _ hlen, hid s⟩
  · intro i hi
    rw [padStr_eq]
    have h1 : i < (s.take STRINGSIZE).length := by
      rw [List.length_take]
      omega
    rw [List.getD_append _ _ _ _ h1, List.getD_eq_getElem?_getD, List.getD_eq_getElem?_getD,
      List.getElem?_take]
    rw [if_pos (by omega)]
  · intro i hi hi2
    rw [padStr_eq]
    have h1 : (s.take STRINGSIZE).length ≤ i := by
      rw [List.length_take]
      omega
    rw [List.getElem?_append_right h1, List.getElem?_replicate]
    rw [if_pos]
    rw [List.length_take]
    omega

/-! ## C26: the search rule of a non-leaf node -/

theorem getD_take_lt {α : Type} (l : List α) (k j : Nat) (d : α) (hj : j < k) :
    (l.take k).getD j d = l.getD j d := by
  rw [List.getD_eq_getElem?_getD, List.getD_eq_getElem?_getD, List.getElem?_take, if_pos hj]

theorem sorted_take_drop_le {S : List RIDKeyPair} {k : Nat} (hk : k < S.length)
    (hle : S.Sorted (fun a b => a.key ≤ b.key)) :
    (∀ x ∈ S.take k, x.key ≤ (S.getD k ⟨⟨0, 0⟩, 0⟩).key) ∧
    (∀ x ∈ S.drop k, (S.getD k ⟨⟨0, 0⟩, 0⟩).key ≤ x.key) := by
  have hsplit : S = S.take k ++ S.getD k ⟨⟨0, 0⟩, 0⟩ :: S.drop (k + 1) := by
    rw [List.getD_eq_getElem _ _ hk, ← List.drop_eq_getElem_cons hk, List.take_append_drop]
  have hdrop : S.drop k = S.getD k ⟨⟨0, 0⟩, 0⟩ :: S.drop (k + 1) := by
    rw [List.getD_eq_getElem _ _ hk, ← List.drop_eq_getElem_cons hk]
  have hp : S.Pairwise (fun a b => a.key ≤ b.key) := hle
  rw [hsplit, List.pairwise_append] at hp
  obtain ⟨-, h2, h3⟩ := hp
  rw [List.pairwise_cons] at h2
  refine ⟨fun x hx => h3 x hx _ (List.mem_cons_self _ _), ?_⟩
  intro x hx
  rw [hdrop] at hx
  rcases List.mem_cons.1 hx with h4 | h4
  · rw [h4]
  · exact h2.1 x h4

/-- C22: for leaves of at least two slots, a full well-formed leaf and a pair whose key is
not the sentinel, `LeafNodeContainer::split` returns the page of the new right leaf with
the key that the right leaf holds in slot `0` (the key stays in the right leaf); this
key is not the sentinel, every key of the left leaf is at most this key and every key
of the right leaf at least this key. -/
theorem leaf_split_copies_up (p : Params) (n : LeafNode) (es : List RIDKeyPair)
    (pair : RIDKeyPair) (rightPID : Nat) (hsize : 2 ≤ p.leafSize)
    (h : LeafHolds p n es) (hfull : es.length = p.leafSize)
    (hkey : pair.key ≠ invalidKey) :
    (n.split p pair rightPID).2.2.pageNo = rightPID ∧
    (n.split p pair rightPID).2.2.key = (n.split p pair rightPID).2.1.getKey 0 ∧
    (n.split p pair rightPID).2.2.key ≠ invalidKey ∧
    (∀ i, i < p.leafSize → (n.split p pair rightPID).1.getKey i ≠ invalidKey →
      (n.split p pair rightPID).1.getKey i ≤ (n.split p pair rightPID).2.2.key) ∧
    (∀ i, i < p.leafSize → (n.split p pair rightPID).2.1.getKey i ≠ invalidKey →
      (n.split p pair rightPID).2.2.key ≤ (n.split p pair rightPID).2.1.getKey i) := by
  obtain ⟨hleft, hright, -, -, hpage, -, -, -⟩ := h.split hfull hsize pair hkey rightPID
  obtain ⟨hk0, hkvalid⟩ := h.split_key hfull hsize pair hkey rightPID
  have hlen : (sortRIDKeyPairs (pair :: es)).length = p.leafSize + 1 := by
    rw [(sortRIDKeyPairs_perm (pair :: es)).length_eq, List.length_cons, hfull]
  obtain ⟨h1, h2⟩ := @sorted_take_drop_le (sortRIDKeyPairs (pair :: es)) (p.leafSize / 2)
    (by omega) (sortRIDKeyPairs_sorted _)
  have hpk := h.split_pk pair rightPID
  refine ⟨hpage, hk0, hkvalid, ?_, ?_⟩
  · intro i _ hi
    obtain ⟨x, hx, hxk⟩ := hleft.getKey_mem hi
    rw [← hxk, hpk]
    exact h1 x hx
  · intro i _ hi
    obtain ⟨x, hx, hxk⟩ := hright.getKey_mem hi
    rw [← hxk, hpk]
    exact h2 x hx

/-- C22, at an example: the full two-slot leaf with keys `1`, `3` and the pair of key
`2`; the key returned is `2`, the key in slot `0` of the right leaf. -/
theorem leaf_split_copies_up_witness :
    2 ≤ smallParams.leafSize ∧
    LeafHolds smallParams ⟨[1, 3], [ridOf 1, ridOf 3], 7⟩ [⟨ridOf 1, 1⟩, ⟨ridOf 3, 3⟩] ∧
    ([⟨ridOf 1, 1⟩, ⟨ridOf 3, 3⟩] : List RIDKeyPair).length = smallParams.leafSize ∧
    (2 : Int) ≠ invalidKey ∧
    (LeafNode.split smallParams ⟨[1, 3], [ridOf 1, ridOf 3], 7⟩ ⟨ridOf 2, 2⟩ 9).2.2 = ⟨9, 2⟩ ∧
    (LeafNode.split smallParams ⟨[1, 3], [ridOf 1, ridOf 3], 7⟩ ⟨ridOf 2, 2⟩ 9).2.2.key
      = (LeafNode.split smallParams ⟨[1, 3], [ridOf 1, ridOf 3], 7⟩
          ⟨ridOf 2, 2⟩ 9).2.1.getKey 0 :=
  ⟨by decide, ⟨by decide, by decide, rfl, [], rfl, rfl⟩, rfl, by decide, by decide,
    (leaf_split_copies_up smallParams ⟨[1, 3], [ridOf 1, ridOf 3], 7⟩
      [⟨ridOf 1, 1⟩, ⟨ridOf 3, 3⟩] ⟨ridOf 2, 2⟩ 9 (by decide)
      ⟨by decide, by decide, rfl, [], rfl, rfl⟩ rfl (by decide)).2.1⟩

/-- Sorting a pair into pairs that ascend strictly by key puts it at one place and leaves
the others in their order: the pairs before it have smaller keys, the pairs behind it
keys that are not smaller. -/
theorem sortPageKeyPairs_cons_sorted (pk : PageKeyPair) :
    ∀ cs : List PageKeyPair, cs.Sorted (fun a b => a.key < b.key) →
      ∃ j, j ≤ cs.length ∧ sortPageKeyPairs (pk :: cs) = cs.take j ++ pk :: cs.drop j ∧
        (∀ c ∈ cs.take j, c.key < pk.key) ∧ (∀ c ∈ cs.drop j, pk.key ≤ c.key) := by
  intro cs hsorted
  have hle : cs.Sorted (fun a b => PageKeyPair.lt b a = false) := by
    refine List.Pairwise.imp ?_ hsorted
    intro a b hab
    simp only [PageKeyPair.lt, decide_eq_false_iff_not]
    omega
  have hstep : sortPageKeyPairs (pk :: cs)
      = List.orderedInsert (fun a b => PageKeyPair.lt b a = false) pk cs := by
    unfold sortPageKeyPairs
    simp only [List.insertionSort]
    rw [List.Sorted.insertionSort_eq hle]
  rw [hstep]
  clear hstep hle
  induction cs with
  | nil => exact ⟨0, by simp, by simp, by simp, by simp⟩
  | cons c cs ih =>
    rw [List.sorted_cons] at hsorted
    by_cases hc : PageKeyPair.lt c pk = false
    · refine ⟨0, by simp, ?_, by simp, ?_⟩
      · simp [List.orderedInsert, hc]
      · intro d hd
        have hcle : pk.key ≤ c.key := by
          simp only [PageKeyPair.lt, decide_eq_false_iff_not] at hc
          omega
        simp only [List.drop_zero] at hd
        rcases List.mem_cons.1 hd with h1 | h1
        · rw [h1]; exact hcle
        · have := hsorted.1 d h1
          omega
    · obtain ⟨j, hj, heq, hbefore, hafter⟩ := ih hsorted.2
      refine ⟨j + 1, by simp; omega, ?_, ?_, ?_⟩
      · simp only [List.orderedInsert, hc, if_false, List.take_succ_cons, List.drop_succ_cons,
          List.cons_append]
        rw [heq]
        simp
      · intro d hd
        simp only [List.take_succ_cons] at hd
        rcases List.mem_cons.1 hd with h1 | h1
        · rw [h1]
          simp only [PageKeyPair.lt, decide_eq_false_iff_not, not_not] at hc
          exact hc
        · exact hbefore d h1
      · intro d hd
        simp only [List.drop_succ_cons] at hd
        exact hafter d hd

/-- The slots of a non-leaf node that holds `cs`. -/
theorem NodeHolds.pair_slot {p : Params} {n : NonLeafNode} {first : Nat}
    {cs : List PageKeyPair} (h : NodeHolds p n first cs) (i : Nat) :
    (i < cs.length →
      n.getKey i = (cs.getD i ⟨0, 0⟩).key ∧ n.getPageNo (i + 1) = (cs.getD i ⟨0, 0⟩).pageNo) ∧
    (cs.length ≤ i → n.getKey i = invalidKey) := by
  obtain ⟨-, -, hk, rest, hp, -⟩ := h
  unfold NonLeafNode.getKey NonLeafNode.getPageNo
  rw [hk, hp]
  constructor
  · intro hlt
    have h1 : i < (cs.map (fun c => c.key)).length := by simpa using hlt
    have h2 : i < (cs.map (fun c => c.pageNo)).length := by simpa using hlt
    rw [List.getD_cons_succ, List.getD_append _ _ _ _ h1, List.getD_append _ _ _ _ h2,
      List.getD_eq_getElem _ _ h1, List.getD_eq_getElem _ _ h2, List.getD_eq_getElem _ _ hlt,
      List.getElem_map, List.getElem_map]
    exact ⟨rfl, rfl⟩
  · intro hle
    rw [List.getD_append_right _ _ _ _ (by simpa using hle)]
    exact getD_replicate_self _ _ _

theorem getD_insert_at {α : Type} (l : List α) (j : Nat) (a d : α) (hj : j ≤ l.length) :
    (∀ i, i < j → (l.take j ++ a :: l.drop j).getD i d = l.getD i d) ∧
    (l.take j ++ a :: l.drop j).getD j d = a ∧
    (∀ i, j ≤ i → (l.take j ++ a :: l.drop j).getD (i + 1) d = l.getD i d) := by
  have hlen : (l.take j).length = j := by
    rw [List.length_take]
    omega
  refine ⟨?_, ?_, ?_⟩
  · intro i hi
    rw [List.getD_append _ _ _ _ (by omega)]
    exact getD_take_lt l j i d hi
  · rw [List.getD_append_right _ _ _ _ (by omega), hlen, Nat.sub_self]
    rfl
  · intro i hi
    rw [List.getD_append_right _ _ _ _ (by omega), hlen]
    obtain ⟨k, hk⟩ : ∃ k, i + 1 - j = k + 1 := ⟨i - j, by omega⟩
    rw [hk, List.getD_cons_succ, List.getD_eq_getElem?_getD, List.getD_eq_getElem?_getD,
      List.getElem?_drop]
    congr 2
    omega

/-- C25: for a well-formed non-leaf node that holds fewer pairs than the array size, with
keys ascending strictly, and an incoming pair whose key is not the sentinel and differs
from the node's keys, `NonLeafNodeContainer::insert` keeps page number slot `0`, puts the
incoming key in one key slot `j` and the incoming page number in page number slot
`j + 1`, keeps the pairs before slot `j` in place and moves each pair behind by one slot,
key together with its page number; the keys ascend strictly, the key slots above hold
the sentinel and the level is unchanged. -/
theorem nonLeaf_insert_without_split (p : Params) (n : NonLeafNode) (first : Nat)
    (cs : List PageKeyPair) (pk : PageKeyPair) (h : NodeHolds p n first cs)
    (hroom : cs.length < p.nonLeafSize) (hkey : pk.key ≠ invalidKey)
    (hsorted : cs.Sorted (fun a b => a.key < b.key))
    (hdistinct : ∀ c ∈ cs, c.key ≠ pk.key) :
    ∃ j, j ≤ cs.length ∧
      (n.insert p pk).getPageNo 0 = n.getPageNo 0 ∧
      (n.insert p pk).getKey j = pk.key ∧ (n.insert p pk).getPageNo (j + 1) = pk.pageNo ∧
      (∀ i, i < j → (n.insert p pk).getKey i = n.getKey i ∧
        (n.insert p pk).getPageNo (i + 1) = n.getPageNo (i + 1)) ∧
      (∀ i, j ≤ i → i < cs.length → (n.insert p pk).getKey (i + 1) = n.getKey i ∧
        (n.insert p pk).getPageNo (i + 2) = n.getPageNo (i + 1)) ∧
      (∀ i, cs.length < i → (n.insert p pk).getKey i = invalidKey) ∧
      (∀ i k, i < k → k ≤ cs.length → (n.insert p pk).getKey i < (n.insert p pk).getKey k) ∧
      (n.insert p pk).level = n.level := by
  obtain ⟨hins, hlevel⟩ := h.insert_node hroom pk hkey
  obtain ⟨j, hj, heq, hbefore, hafter⟩ := sortPageKeyPairs_cons_sorted pk cs hsorted
  rw [heq] at hins
  have hlen : (cs.take j ++ pk :: cs.drop j).length = cs.length + 1 := by
    simp
    omega
  obtain ⟨hg1, hg2, hg3⟩ := getD_insert_at cs j pk ⟨0, 0⟩ hj
  have hstrict : (cs.take j ++ pk :: cs.drop j).Pairwise (fun a b => a.key < b.key) := by
    rw [List.pairwise_append, List.pairwise_cons]
    refine ⟨List.Pairwise.sublist (List.take_sublist _ _) hsorted,
      ⟨?_, List.Pairwise.sublist (List.drop_sublist _ _) hsorted⟩, ?_⟩
    · intro c hc
      have h1 := hafter c hc
      have h2 := hdistinct c (List.mem_of_mem_drop hc)
      omega
    · intro a ha b hb
      rcases List.mem_cons.1 hb with h1 | h1
      · rw [h1]; exact hbefore a ha
      · have h2 := hbefore a ha
        have h3 := hafter b h1
        omega
  refine ⟨j, hj, ?_, ?_, ?_, ?_, ?_, ?_, ?_, hlevel⟩
  · rw [hins.getPageNo_zero, h.getPageNo_zero]
  · rw [((hins.pair_slot j).1 (by omega)).1, hg2]
  · rw [((hins.pair_slot j).1 (by omega)).2, hg2]
  · intro i hi
    rw [((hins.pair_slot i).1 (by omega)).1, ((hins.pair_slot i).1 (by omega)).2, hg1 i hi,
      ((h.pair_slot i).1 (by omega)).1, ((h.pair_slot i).1 (by omega)).2]
    exact ⟨rfl, rfl⟩
  · intro i hi hi2
    rw [((hins.pair_slot (i + 1)).1 (by omega)).1, ((hins.pair_slot (i + 1)).1 (by omega)).2, hg3 i hi,
      ((h.pair_slot i).1 (by omega)).1, ((h.pair_slot i).1 (by omega)).2]
    exact ⟨rfl, rfl⟩
  · intro i hi
    exact (hins.pair_slot i).2 (by omega)
  · intro i k hik hk
    have hi1 : i < (cs.take j ++ pk :: cs.drop j).length := by omega
    have hk1 : k < (cs.take j ++ pk :: cs.drop j).length := by omega
    rw [((hins.pair_slot i).1 hi1).1, ((hins.pair_slot k).1 hk1).1, List.getD_eq_getElem _ _ hi1,
      List.getD_eq_getElem _ _ hk1]
    exact List.pairwise_iff_getElem.1 hstrict i k hi1 hk1 hik

/-- C25, at an example: the node with the key `3` (pages 2 and 3) and the incoming pair
of key `5` and page 4. -/
theorem nonLeaf_insert_without_split_witness :
    NodeHolds smallParams ⟨1, [3, -1], [2, 3, 0]⟩ 2 [⟨3, 3⟩] ∧
    ([⟨3, 3⟩] : List PageKeyPair).length < smallParams.nonLeafSize ∧
    (5 : Int) ≠ invalidKey ∧
    ([⟨3, 3⟩] : List PageKeyPair).Sorted (fun a b => a.key < b.key) ∧
    (∀ c ∈ ([⟨3, 3⟩] : List PageKeyPair), c.key ≠ 5) ∧
    NonLeafNode.insert smallParams ⟨1, [3, -1], [2, 3, 0]⟩ ⟨4, 5⟩ = ⟨1, [3, 5], [2, 3, 4]⟩ ∧
    NonLeafNode.insert smallParams ⟨1, [5, -1], [2, 4, 0]⟩ ⟨3, 3⟩ = ⟨1, [3, 5], [2, 3, 4]⟩ ∧
    ∃ j, j ≤ ([⟨3, 3⟩] : List PageKeyPair).length ∧
      (NonLeafNode.insert smallParams ⟨1, [3, -1], [2, 3, 0]⟩ ⟨4, 5⟩).getPageNo 0
        = (NonLeafNode.mk 1 [3, -1] [2, 3, 0]).getPageNo 0 ∧
      (NonLeafNode.insert smallParams ⟨1, [3, -1], [2, 3, 0]⟩ ⟨4, 5⟩).getKey j = 5 ∧
      (NonLeafNode.insert smallParams ⟨1, [3, -1], [2, 3, 0]⟩ ⟨4, 5⟩).getPageNo (j + 1) = 4 :=
  ⟨⟨by decide, by decide, rfl, [0], rfl, rfl⟩, by decide, by decide, by simp, by decide,
    by decide, by decide,
    (nonLeaf_insert_without_split smallParams ⟨1, [3, -1], [2, 3, 0]⟩ 2 [⟨3, 3⟩] ⟨4, 5⟩
      ⟨by decide, by decide, rfl, [0], rfl, rfl⟩ (by decide) (by decide) (by simp)
      (by decide)).imp (fun _ h => ⟨h.1, h.2.1, h.2.2.1, h.2.2.2.1⟩)⟩

/-! ## C23: the sibling chain through a leaf split -/

/-- The walk along `rightSibPageNo` from the first page of a chain meets the pages of the
chain, in order. -/
theorem leafChainPages_chain {p : Params} {file : List Page}
    (chain : List (Nat × List RIDKeyPair)) :
    ∀ (fuel pid : Nat), Chain p file chain 0 → chain ≠ [] → firstOr chain 0 = pid →
      chain.length ≤ fuel →
      leafChainPages file fuel pid = chain.map Prod.fst := by
  induction chain with
  | nil => intro fuel pid _ hne; exact absurd rfl hne
  | cons c rest ih =>
    intro fuel pid hchain _ hfirst hfuel
    obtain ⟨pid1, es⟩ := c
    have hpid : pid1 = pid := hfirst
    subst hpid
    obtain ⟨n, hrd, hholds, hsib, hrest⟩ := hchain
    obtain ⟨f, hf⟩ : ∃ f, fuel = f + 1 := ⟨fuel - 1, by simp at hfuel; omega⟩
    rw [hf]
    simp only [leafChainPages]
    rw [hrd]
    simp only [List.map_cons]
    cases rest with
    | nil =>
      have : n.rightSibPageNo = 0 := hsib
      simp [this]
    | cons c1 rest1 =>
      obtain ⟨pid2, es2⟩ := c1
      have hsib2 : n.rightSibPageNo = pid2 := hsib
      have hne0 : pid2 ≠ 0 := by
        obtain ⟨n2, hrd2, -⟩ := hrest
        exact (readLeaf_ok_le hrd2).1
      rw [hsib2, if_neg hne0]
      rw [ih f pid2 hrest (by simp) rfl (by simp at hfuel ⊢; omega)]

/-- C23: `LeafNodeContainer::split` gives the new right leaf the old right sibling of the
split leaf and makes the new leaf the right sibling of the split leaf, and a new leaf
starts with `rightSibPageNo = 0`. So when `insertLeaf` splits the full leaf `pid` of a
well-formed chain of leaves from page 2, with leaves of at least two slots and a key
that is not the sentinel, the walk along `rightSibPageNo` afterwards meets the old
pages with the new page, the first page past the old file, right behind `pid`. -/
theorem leaf_split_splices_chain (p : Params) (file : List Page)
    (pre post : List (Nat × List RIDKeyPair)) (pid : Nat) (es : List RIDKeyPair)
    (ins : List (Int × RecordId)) (key : Int) (rid : RecordId)
    (hsize : 2 ≤ p.leafSize) (h : LeafInv p file (pre ++ (pid, es) :: post) ins)
    (hfull : es.length = p.leafSize) (hkey : key ≠ invalidKey) :
    (∀ (n : LeafNode) (pair : RIDKeyPair) (rightPID : Nat),
      (n.split p pair rightPID).1.rightSibPageNo = rightPID ∧
      (n.split p pair rightPID).2.1.rightSibPageNo = n.rightSibPageNo) ∧
    (LeafNode.fresh p).rightSibPageNo = 0 ∧
    ∃ file1 pk old left right,
      insertLeaf p file key rid pid ⟨0, 0⟩ = .ok (file1, true, pk) ∧
      readLeaf file pid = .ok old ∧
      readLeaf file1 pid = .ok left ∧ readLeaf file1 (file.length + 1) = .ok right ∧
      left.rightSibPageNo = file.length + 1 ∧
      right.rightSibPageNo = old.rightSibPageNo ∧
      leafChainPages file file.length 2 = pre.map Prod.fst ++ pid :: post.map Prod.fst ∧
      leafChainPages file1 file1.length 2
        = pre.map Prod.fst ++ pid :: (file.length + 1) :: post.map Prod.fst := by
  refine ⟨fun n pair rightPID => ⟨rfl, rfl⟩, rfl, ?_⟩
  obtain ⟨n, hrd, hholds, -, -⟩ := (Chain.append.1 h.2.1).2
  have hisfull : n.isFull p = true := (hholds.isFull_iff_length (by omega)).2 hfull
  have hle := readLeaf_ok_le hrd
  have h2 := h.insert_full hrd hfull hsize (key, rid) hkey
  refine ⟨_, _, n, (n.split p ⟨rid, key⟩ (file.length + 1)).1,
    (n.split p ⟨rid, key⟩ (file.length + 1)).2.1,
    insertLeaf_full key rid ⟨0, 0⟩ hrd hisfull, hrd,
    readLeaf_writePage_same _ hle.1
      (by rw [length_writePage, List.length_append, List.length_singleton]; omega),
    ?_, rfl, rfl, ?_, ?_⟩
  · have hne : file.length + 1 ≠ pid := by omega
    rw [readLeaf_writePage_ne _ hle.1 hne]
    exact @readLeaf_writePage_same (file ++ [Page.blank]) (file.length + 1) _ (by omega)
      (by rw [List.length_append, List.length_singleton])
  · refine (leafChainPages_chain (pre ++ (pid, es) :: post) file.length 2 h.2.1 (by simp) h.1
      (Nat.le_of_succ_le h.2.2.2.2.1)).trans ?_
    simp
  · refine (leafChainPages_chain _ _ 2 h2.2.1 (by simp) h2.1
      (Nat.le_of_succ_le h2.2.2.2.2.1)).trans ?_
    simp

/-- C23, at an example: two-slot leaves after the keys `3`, `4`, `5`, `1`; the leaves are
page 2 (keys `1`, `3`) and page 3 (keys `4`, `5`), and the insert of key `2` splits
page 2: the chain 2, 3 becomes 2, 5, 3. -/
theorem leaf_split_splices_chain_witness :
    (∃ s, insertAll smallParams (emptyIndex smallParams)
        [(3, ridOf 3), (4, ridOf 4), (5, ridOf 5), (1, ridOf 1)] = .ok s ∧
      s.file = 
        [Page.metaInfo ⟨[], 0, Datatype.INTEGER, 4⟩, Page.leaf ⟨[1, 3], [ridOf 1, ridOf 3], 3⟩,
          Page.leaf ⟨[4, 5], [ridOf 4, ridOf 5], 0⟩, Page.nonLeaf ⟨1, [4, -1], [2, 3, 0]⟩]) ∧
    2 ≤ smallParams.leafSize ∧
    LeafInv smallParams 
        [Page.metaInfo ⟨[], 0, Datatype.INTEGER, 4⟩, Page.leaf ⟨[1, 3], [ridOf 1, ridOf 3], 3⟩,
          Page.leaf ⟨[4, 5], [ridOf 4, ridOf 5], 0⟩, Page.nonLeaf ⟨1, [4, -1], [2, 3, 0]⟩]
      ([] ++ (2, [⟨ridOf 1, 1⟩, ⟨ridOf 3, 3⟩]) :: [(3, [⟨ridOf 4, 4⟩, ⟨ridOf 5, 5⟩])])
      [(3, ridOf 3), (4, ridOf 4), (5, ridOf 5), (1, ridOf 1)] ∧
    ([⟨ridOf 1, 1⟩, ⟨ridOf 3, 3⟩] : List RIDKeyPair).length = smallParams.leafSize ∧
    (2 : Int) ≠ invalidKey ∧
    ∃ file1 pk old left right,
      insertLeaf smallParams 
        [Page.metaInfo ⟨[], 0, Datatype.INTEGER, 4⟩, Page.leaf ⟨[1, 3], [ridOf 1, ridOf 3], 3⟩,
          Page.leaf ⟨[4, 5], [ridOf 4, ridOf 5], 0⟩, Page.nonLeaf ⟨1, [4, -1], [2, 3, 0]⟩] 2 (ridOf 2) 2 ⟨0, 0⟩ = .ok (file1, true, pk) ∧
      readLeaf 
        [Page.metaInfo ⟨[], 0, Datatype.INTEGER, 4⟩, Page.leaf ⟨[1, 3], [ridOf 1, ridOf 3], 3⟩,
          Page.leaf ⟨[4, 5], [ridOf 4, ridOf 5], 0⟩, Page.nonLeaf ⟨1, [4, -1], [2, 3, 0]⟩] 2 = .ok old ∧
      readLeaf file1 2 = .ok left ∧ readLeaf file1 5 = .ok right ∧
      left.rightSibPageNo = 5 ∧
      right.rightSibPageNo = old.rightSibPageNo ∧
      leafChainPages 
        [Page.metaInfo ⟨[], 0, Datatype.INTEGER, 4⟩, Page.leaf ⟨[1, 3], [ridOf 1, ridOf 3], 3⟩,
          Page.leaf ⟨[4, 5], [ridOf 4, ridOf 5], 0⟩, Page.nonLeaf ⟨1, [4, -1], [2, 3, 0]⟩] 4 2 = [2, 3] ∧
      leafChainPages file1 file1.length 2 = [2, 5, 3] :=
  ⟨⟨_, rfl, rfl⟩, by decide,
    ⟨rfl, ⟨_, rfl, ⟨by decide, by decide, rfl, [], rfl, rfl⟩, rfl,
      ⟨_, rfl, ⟨by decide, by decide, rfl, [], rfl, rfl⟩, rfl, trivial⟩⟩,
      by decide, by decide, by decide, by decide, by decide⟩,
    rfl, by decide,
    (leaf_split_splices_chain smallParams 
        [Page.metaInfo ⟨[], 0, Datatype.INTEGER, 4⟩, Page.leaf ⟨[1, 3], [ridOf 1, ridOf 3], 3⟩,
          Page.leaf ⟨[4, 5], [ridOf 4, ridOf 5], 0⟩, Page.nonLeaf ⟨1, [4, -1], [2, 3, 0]⟩] []
      [(3, [⟨ridOf 4, 4⟩, ⟨ridOf 5, 5⟩])] 2 [⟨ridOf 1, 1⟩, ⟨ridOf 3, 3⟩]
      [(3, ridOf 3), (4, ridOf 4), (5, ridOf 5), (1, ridOf 1)] 2 (ridOf 2) (by decide)
      ⟨rfl, ⟨_, rfl, ⟨by decide, by decide, rfl, [], rfl, rfl⟩, rfl,
        ⟨_, rfl, ⟨by decide, by decide, rfl, [], rfl, rfl⟩, rfl, trivial⟩⟩,
        by decide, by decide, by decide, by decide, by decide⟩
      rfl (by decide)).2.2⟩

/-! ## C27: the path of `findLeaf` -/

/-- What the loop of `findLeaf` returns: the path is the old one followed by the pages
visited from `cur` on; every visited page but the last is a non-leaf node of a level
other than 1 and is followed by the child its `search` selects; the last is a node of
level 1 and the page returned is the child its `search` selects. -/
theorem findLeafLoop_path (p : Params) (file : List Page) (key : Int) :
    ∀ (fuel cur : Nat) (vec : List Nat) (leaf : Nat) (path : List Nat),
      findLeafLoop p file key fuel cur vec = .ok (leaf, path) →
      ∃ rest, path = vec ++ cur :: rest ∧
        (∀ i a b, (cur :: rest)[i]? = some a → (cur :: rest)[i + 1]? = some b →
          ∃ node, readNonLeaf file a = .ok node ∧ node.level ≠ 1 ∧ b = node.search p key) ∧
        (∀ a, a ∈ cur :: rest → ∃ node, readNonLeaf file a = .ok node) ∧
        ∃ last node, (cur :: rest).getLast? = some last ∧
          readNonLeaf file last = .ok node ∧ node.level = 1 ∧ leaf = node.search p key := by
  intro fuel
  induction fuel with
  | zero =>
    intro cur vec leaf path h
    simp [findLeafLoop] at h
  | succ fuel ih =>
    intro cur vec leaf path h
    unfold findLeafLoop at h
    cases hrd : readNonLeaf file cur with
    | error e => rw [hrd] at h; simp at h
    | ok node =>
      rw [hrd] at h
      dsimp only at h
      by_cases hl : node.level = 1
      · rw [if_pos hl] at h
        have h1 := (Prod.mk.inj (Except.ok.inj h)).1
        have h2 := (Prod.mk.inj (Except.ok.inj h)).2
        refine ⟨[], h2.symm, ?_, ?_, cur, node, rfl, hrd, hl, h1.symm⟩
        · intro i a b _ hb
          simp at hb
        · intro a ha
          rw [List.mem_singleton.1 ha]
          exact ⟨node, hrd⟩
      · rw [if_neg hl] at h
        obtain ⟨rest, hpath, hsteps, hall, last, node1, hlast, hrd1, hl1, hleaf⟩ :=
          ih _ _ _ _ h
        refine ⟨node.search p key :: rest, ?_, ?_, ?_, last, node1, ?_, hrd1, hl1, hleaf⟩
        · rw [hpath]
          simp
        · intro i a b ha hb
          cases i with
          | zero =>
            simp only [List.getElem?_cons_zero, Option.some.injEq] at ha
            simp only [zero_add, List.getElem?_cons_succ, List.getElem?_cons_zero,
              Option.some.injEq] at hb
            exact ⟨node, by rw [← ha]; exact hrd, hl, hb.symm⟩
          | succ i =>
            rw [List.getElem?_cons_succ] at ha hb
            exact hsteps i a b ha hb
        · intro a ha
          rcases List.mem_cons.1 ha with h1 | h1
          · rw [h1]
            exact ⟨node, hrd⟩
          · exact hall a h1
        · rw [List.getLast?_cons_cons]
          exact hlast

/-- C27. `findLeaf` called with an empty path. In every index state: with root page 2 it
returns page 2 and the empty path; with another root, whenever it returns, the path
starts with the root, every page of the path but the last is a non-leaf node whose
level is not 1 and is followed by the child its `search` selects for the key, the last
page is a node of level 1, the page returned is the child the `search` of that last
node selects, and a returned page that is a leaf is not in the path. In an index built
by inserts of keys other than the sentinel `findLeaf` returns for every key, the page
returned is a leaf, and it is not in the path. -/
theorem findLeaf_path (p : Params) (relationName : List Nat) (attrByteOffset : Int)
    (scan0 : BTreeIndex) (ins : List (Int × RecordId))
    (hsize : 2 ≤ p.leafSize) (hnsize : 1 ≤ p.nonLeafSize)
    (hvalid : ∀ e ∈ ins, e.1 ≠ invalidKey) :
    (∀ (s : BTreeIndex) (key : Int), s.metaInfo.rootPageNo = 2 →
      findLeaf p s key = .ok (2, [])) ∧
    (∀ (s : BTreeIndex) (key : Int) (leaf : Nat) (path : List Nat),
      s.metaInfo.rootPageNo ≠ 2 → findLeaf p s key = .ok (leaf, path) →
      path.head? = some s.metaInfo.rootPageNo ∧
      (∀ i a b, path[i]? = some a → path[i + 1]? = some b →
        ∃ node, readNonLeaf s.file a = .ok node ∧ node.level ≠ 1 ∧
          b = node.search p key) ∧
      (∃ last node, path.getLast? = some last ∧ readNonLeaf s.file last = .ok node ∧
        node.level = 1 ∧ leaf = node.search p key) ∧
      (∀ n, readLeaf s.file leaf = .ok n → leaf ∉ path)) ∧
    ∃ s, insertAll p (createIndex p relationName attrByteOffset scan0) ins = .ok s ∧
      ∀ key, ∃ leaf path n, findLeaf p s key = .ok (leaf, path) ∧
        readLeaf s.file leaf = .ok n ∧ leaf ∉ path ∧
        (s.metaInfo.rootPageNo = 2 ∨ path.head? = some s.metaInfo.rootPageNo) := by
  refine ⟨fun s key h2 => (findLeaf_eq p s key).1 h2, ?_, ?_⟩
  · intro s key leaf path h2 hfind
    unfold findLeaf at hfind
    rw [if_neg h2] at hfind
    obtain ⟨rest, hpath, hsteps, hall, hlast⟩ := findLeafLoop_path p s.file key _ _ _ _ _ hfind
    rw [List.nil_append] at hpath
    rw [hpath]
    refine ⟨rfl, hsteps, hlast, ?_⟩
    intro n hn hmem
    obtain ⟨node, hnode⟩ := hall leaf hmem
    exact readLeaf_readNonLeaf_ne hn hnode rfl
  · obtain ⟨s, hall, chain, hleaf, hroot⟩ :=
      insertAll_inv hsize hnsize ins _ [] (inv_createIndex p relationName attrByteOffset scan0)
        hvalid
    refine ⟨s, hall, ?_⟩
    intro key
    obtain ⟨leaf, path, hfind, hmem, hpath⟩ := findLeaf_of_inv hleaf hroot key
    obtain ⟨c, hc, hc1⟩ := List.mem_map.1 hmem
    obtain ⟨n, hn, -⟩ := Chain.read_of_mem hleaf.2.1 c.1 c.2 hc
    rw [hc1] at hn
    refine ⟨leaf, path, n, hfind, hn, ?_, ?_⟩
    · rcases hpath with ⟨-, hp⟩ | ⟨h2, hp⟩
      · rw [hp]
        simp
      · rw [hp]
        rcases hroot with hroot | ⟨node, cs, -, -, -, hrd, -⟩
        · exact absurd hroot h2
        · simp
          intro heq
          rw [← heq] at hrd
          exact readLeaf_readNonLeaf_ne hn hrd rfl
    · rcases hpath with ⟨h2, -⟩ | ⟨-, hp⟩
      · exact Or.inl h2
      · rw [hp]
        exact Or.inr rfl

/-- C27, at an example: two-slot leaves and the keys `1`, `2`, `3`, after which the root
is page 4. -/
theorem findLeaf_path_witness :
    2 ≤ smallParams.leafSize ∧ 1 ≤ smallParams.nonLeafSize ∧
    (∀ e ∈ ([(1, ridOf 1), (2, ridOf 2), (3, ridOf 3)] : List (Int × RecordId)),
      e.1 ≠ invalidKey) ∧
    ∃ s, insertAll smallParams (createIndex smallParams [] 0 idleScan)
        [(1, ridOf 1), (2, ridOf 2), (3, ridOf 3)] = .ok s ∧
      ∀ key, ∃ leaf path n, findLeaf smallParams s key = .ok (leaf, path) ∧
        readLeaf s.file leaf = .ok n ∧ leaf ∉ path ∧
        (s.metaInfo.rootPageNo = 2 ∨ path.head? = some s.metaInfo.rootPageNo) :=
  ⟨by decide, by decide, by decide,
    (findLeaf_path smallParams [] 0 idleScan [(1, ridOf 1), (2, ridOf 2), (3, ridOf 3)]
      (by decide) (by decide) (by decide)).2.2⟩

/-! ## C28: where `startScan` leaves the cursor -/

set_option maxRecDepth 100000 in
/-- C28: two scans whose `startScan` returns normally with the cursor off the first entry
that satisfies the low bound. With 682-slot leaves and the entries `(5, (1,0))`,
`(5, (2,0))`, `(7, (3,0))`, `startScan(5, GT, 10, LTE)` leaves the cursor on slot 1 of
page 2, whose key is `5`, not above `5`; the first entry above `5` is in slot 2, and the
first `scanNext` returns `(2,0)`, not `(3,0)`. With two-slot leaves and the entries
`(1, (1,0))`, `(2, (2,0))`, `(3, (3,0))`, `startScan(2, GTE, 3, LTE)` leaves the cursor on
slot 1 of page 3, behind slot 0 of that page, whose key `2` satisfies both bounds, and
the first `scanNext` returns `(3,0)`, not `(2,0)`. -/
theorem startScan_cursor_misplaced :
    (∃ s s1 node, insertAll pageParams (emptyIndex pageParams)
        [(5, ridOf 1), (5, ridOf 2), (7, ridOf 3)] = .ok s ∧
      startScan pageParams s 5 Operator.GT 10 Operator.LTE = (s1, .ok ()) ∧
      s1.currentPageNum = 2 ∧ s1.nextEntry = 1 ∧
      readLeaf s1.file 2 = .ok node ∧
      node.getKey 1 = 5 ∧ node.getKey 2 = 7 ∧ node.getRID 2 = ridOf 3 ∧
      (scanNext pageParams s1).2 = .ok (ridOf 2)) ∧
    (∃ s s1 node, insertAll smallParams (emptyIndex smallParams)
        [(1, ridOf 1), (2, ridOf 2), (3, ridOf 3)] = .ok s ∧
      leafChainEntries s.file 2 2 = [⟨ridOf 1, 1⟩, ⟨ridOf 2, 2⟩, ⟨ridOf 3, 3⟩] ∧
      startScan smallParams s 2 Operator.GTE 3 Operator.LTE = (s1, .ok ()) ∧
      s1.currentPageNum = 3 ∧ s1.nextEntry = 1 ∧
      readLeaf s1.file 3 = .ok node ∧
      node.getKey 0 = 2 ∧ node.getRID 0 = ridOf 2 ∧
      (scanNext smallParams s1).2 = .ok (ridOf 3)) := by
  refine ⟨⟨_, _, _, rfl, rfl, ?_, ?_, rfl, ?_, ?_, ?_, ?_⟩,
    ⟨_, _, _, rfl, ?_, rfl, ?_, ?_, rfl, ?_, ?_, ?_⟩⟩ <;> decide

/-! ## C29: the meta page -/

/-- One `insertEntry` on an index whose page 1 holds the in-memory meta data: page 1 holds
the in-memory meta data afterwards, and only `rootPageNo` may have changed. -/
theorem insertEntry_meta {p : Params} (hsize : 2 ≤ p.leafSize) (hnsize : 1 ≤ p.nonLeafSize)
    {s : BTreeIndex} {ins : List (Int × RecordId)} (hinv : Inv p s ins)
    (hmeta : readPage s.file 1 = some (Page.metaInfo s.metaInfo))
    (key : Int) (rid : RecordId) (hkey : key ≠ invalidKey) :
    ∃ s1, insertEntry p s key rid = (s1, .ok ()) ∧ Inv p s1 (ins ++ [(key, rid)]) ∧
      readPage s1.file 1 = some (Page.metaInfo s1.metaInfo) ∧
      s1.metaInfo = { s.metaInfo with rootPageNo := s1.metaInfo.rootPageNo } := by
  obtain ⟨s1, hstep, hinv1⟩ := insertEntry_inv hsize hnsize hinv key rid hkey
  refine ⟨s1, hstep, hinv1, ?_⟩
  obtain ⟨chain, hleaf, hroot⟩ := hinv
  obtain ⟨q, path, hfind, hmemPID, hpath⟩ := findLeaf_of_inv hleaf hroot key
  obtain ⟨c, hc, hc1⟩ := List.mem_map.1 hmemPID
  have hq1 : q ≠ 1 := by
    rw [← hc1]
    exact hleaf.2.2.2.1 c hc
  obtain ⟨n, hrd, -⟩ := Chain.read_of_mem hleaf.2.1 c.1 c.2 hc
  rw [hc1] at hrd
  have hpid := readLeaf_ok_le hrd
  have hlen : 1 ≤ s.file.length := by
    have := hleaf.2.2.2.2.1
    omega
  obtain ⟨hroomcase, hnewroot, hrootcase⟩ := @insertEntry_of_findLeaf p s key rid q path hfind
  by_cases hfull : n.isFull p = true
  · have hF1 : readPage
        (writePage
          (writePage (s.file ++ [Page.blank]) (s.file.length + 1)
            (Page.leaf (n.split p ⟨rid, key⟩ (s.file.length + 1)).2.1))
          q (Page.leaf (n.split p ⟨rid, key⟩ (s.file.length + 1)).1)) 1
        = some (Page.metaInfo s.metaInfo) := by
      rw [readPage_writePage_ne _ hpid.1 (Ne.symm hq1),
        readPage_writePage_ne _ (by omega) (by omega), readPage_append _ hlen]
      exact hmeta
    have hil := insertLeaf_full key rid ⟨0, 0⟩ hrd hfull
    rcases hpath with ⟨hr2, hp⟩ | ⟨hr2, hp⟩
    · have he := hnewroot _ _ hil hp
      rw [he] at hstep
      rw [← (Prod.mk.inj hstep).1]
      refine ⟨?_, ?_⟩
      · simp only [newRoot, allocatePage]
        apply readPage_writePage_same _ (by omega)
        rw [length_writePage, List.length_append, List.length_singleton]
        omega
      · simp only [newRoot, allocatePage]
    · rcases hroot with hroot | ⟨node, -, -, hr1, -, hrdroot, -, -, -, -⟩
      · exact absurd hroot hr2
      · have hrle := readNonLeaf_ok_le hrdroot
        have hrpid := readLeaf_readNonLeaf_ne hrd hrdroot
        have hrdroot2 : readNonLeaf
            (writePage
              (writePage (s.file ++ [Page.blank]) (s.file.length + 1)
                (Page.leaf (n.split p ⟨rid, key⟩ (s.file.length + 1)).2.1))
              q (Page.leaf (n.split p ⟨rid, key⟩ (s.file.length + 1)).1))
            s.metaInfo.rootPageNo = .ok node := by
          rw [readNonLeaf_writePage_ne _ hpid.1 hrpid,
            readNonLeaf_writePage_ne _ (by omega) (by omega),
            readNonLeaf_append _ hrle.2]
          exact hrdroot
        by_cases hnfull :
            NonLeafNode.isFull p { node with level := if true = true then 1 else 0 } = true
        · have he := hrootcase _ _ _ _ hil hp (insertNonLeaf_full _ true hrdroot2 hnfull)
          rw [he] at hstep
          rw [← (Prod.mk.inj hstep).1]
          refine ⟨?_, rfl⟩
          dsimp only
          rw [readPage_writePage_ne _ (by omega)
              (by rw [length_writePage, length_writePage, List.length_append,
                List.length_singleton]; omega),
            readPage_writePage_ne _ hrle.1 (Ne.symm hr1),
            readPage_append _ (by rw [length_writePage, length_writePage, List.length_append,
                List.length_singleton]; omega)]
          exact hF1
        · have hnfull' :
              NonLeafNode.isFull p { node with level := if true = true then 1 else 0 } = false := by
            simpa using hnfull
          have he := hrootcase _ _ _ _ hil hp (insertNonLeaf_room _ true hrdroot2 hnfull')
          rw [he] at hstep
          rw [← (Prod.mk.inj hstep).1]
          refine ⟨?_, rfl⟩
          dsimp only
          rw [readPage_writePage_ne _ hrle.1 (Ne.symm hr1)]
          exact hF1
  · have hfull' : n.isFull p = false := by simpa using hfull
    have hil := insertLeaf_room key rid ⟨0, 0⟩ hrd hfull'
    have he := hroomcase _ _ hil (by
      rcases hpath with ⟨-, hp⟩ | ⟨-, hp⟩
      · exact Or.inl hp
      · exact Or.inr hp)
    rw [he] at hstep
    rw [← (Prod.mk.inj hstep).1]
    refine ⟨?_, rfl⟩
    dsimp only
    rw [readPage_writePage_ne _ hpid.1 (Ne.symm hq1)]
    exact hmeta

/-- A sequence of `insertEntry` calls keeps page 1 equal to the in-memory meta data and
changes nothing of it but `rootPageNo`. -/
theorem insertAll_meta {p : Params} (hsize : 2 ≤ p.leafSize) (hnsize : 1 ≤ p.nonLeafSize)
    (rest : List (Int × RecordId)) :
    ∀ (s : BTreeIndex) (done : List (Int × RecordId)), Inv p s done →
      readPage s.file 1 = some (Page.metaInfo s.metaInfo) →
      (∀ e ∈ rest, e.1 ≠ invalidKey) →
      ∃ s1, insertAll p s rest = .ok s1 ∧ Inv p s1 (done ++ rest) ∧
        readPage s1.file 1 = some (Page.metaInfo s1.metaInfo) ∧
        s1.metaInfo = { s.metaInfo with rootPageNo := s1.metaInfo.rootPageNo } := by
  induction rest with
  | nil =>
    intro s done hinv hm _
    exact ⟨s, rfl, by simpa using hinv, hm, rfl⟩
  | cons e rest ih =>
    intro s done hinv hm hkeys
    obtain ⟨key, rid⟩ := e
    obtain ⟨s1, hstep, hinv1, hm1, he1⟩ := insertEntry_meta hsize hnsize hinv hm key rid
      (hkeys (key, rid) (List.mem_cons_self _ _))
    obtain ⟨s2, hrest, hinv2, hm2, he2⟩ := ih s1 (done ++ [(key, rid)]) hinv1 hm1
      (fun x hx => hkeys x (List.mem_cons_of_mem _ hx))
    refine ⟨s2, ?_, by simpa using hinv2, hm2, ?_⟩
    · simp only [insertAll]
      rw [hstep]
      exact hrest
    · rw [he2, he1]

/-- C29. After the creation of an index and after every `insertEntry` of a sequence of
inserts of keys other than the sentinel, page 1 of the file is the meta page and holds
the in-memory meta data, so the stored `rootPageNo` is the one in memory; the relation
name, `attrByteOffset` and `attrType` are those of the creation; and one more
`insertEntry` returns, keeps all of this, and when it changes the root it leaves another
page 1 than before, the one with the new `rootPageNo`. -/
theorem meta_page_persists (p : Params) (relationName : List Nat) (attrByteOffset : Int)
    (scan0 : BTreeIndex) (ins : List (Int × RecordId))
    (hsize : 2 ≤ p.leafSize) (hnsize : 1 ≤ p.nonLeafSize)
    (hvalid : ∀ e ∈ ins, e.1 ≠ invalidKey) :
    readPage (createIndex p relationName attrByteOffset scan0).file 1
      = some (Page.metaInfo ⟨relationName, attrByteOffset, Datatype.INTEGER, 2⟩) ∧
    (createIndex p relationName attrByteOffset scan0).metaInfo
      = ⟨relationName, attrByteOffset, Datatype.INTEGER, 2⟩ ∧
    ∃ s, insertAll p (createIndex p relationName attrByteOffset scan0) ins = .ok s ∧
      readPage s.file 1 = some (Page.metaInfo s.metaInfo) ∧
      s.metaInfo.relationName = relationName ∧
      s.metaInfo.attrByteOffset = attrByteOffset ∧
      s.metaInfo.attrType = Datatype.INTEGER ∧
      ∀ key rid, key ≠ invalidKey →
        ∃ s1, insertEntry p s key rid = (s1, .ok ()) ∧
          readPage s1.file 1 = some (Page.metaInfo s1.metaInfo) ∧
          s1.metaInfo.relationName = relationName ∧
          s1.metaInfo.attrByteOffset = attrByteOffset ∧
          s1.metaInfo.attrType = Datatype.INTEGER ∧
          (s1.metaInfo.rootPageNo ≠ s.metaInfo.rootPageNo →
            readPage s1.file 1 ≠ readPage s.file 1) ∧
          (s1.metaInfo.rootPageNo = s.metaInfo.rootPageNo →
            readPage s1.file 1 = readPage s.file 1) := by
  refine ⟨rfl, rfl, ?_⟩
  obtain ⟨s, hall, hinv, hm, he⟩ :=
    insertAll_meta hsize hnsize ins _ [] (inv_createIndex p relationName attrByteOffset scan0)
      rfl hvalid
  have hrel : s.metaInfo.relationName = relationName := by rw [he]; rfl
  have hoff : s.metaInfo.attrByteOffset = attrByteOffset := by rw [he]; rfl
  have hty : s.metaInfo.attrType = Datatype.INTEGER := by rw [he]; rfl
  refine ⟨s, hall, hm, hrel, hoff, hty, ?_⟩
  intro key rid hkey
  obtain ⟨s1, hstep, -, hm1, he1⟩ := insertEntry_meta hsize hnsize hinv hm key rid hkey
  refine ⟨s1, hstep, hm1, by rw [he1]; exact hrel, by rw [he1]; exact hoff,
    by rw [he1]; exact hty, ?_, ?_⟩
  · intro hne heq
    rw [hm1, hm] at heq
    exact hne (congrArg IndexMetaInfo.rootPageNo (Page.metaInfo.inj (Option.some.inj heq)))
  · intro heq
    rw [hm1, hm, he1, heq]

/-- C29, at an example: two-slot leaves and the keys `1`, `2`, after which the insert of
key `3` splits the root leaf and makes page 4 the root. -/
theorem meta_page_persists_witness :
    2 ≤ smallParams.leafSize ∧ 1 ≤ smallParams.nonLeafSize ∧
    (∀ e ∈ ([(1, ridOf 1), (2, ridOf 2)] : List (Int × RecordId)), e.1 ≠ invalidKey) ∧
    ∃ s, insertAll smallParams (createIndex smallParams [] 0 idleScan)
        [(1, ridOf 1), (2, ridOf 2)] = .ok s ∧
      readPage s.file 1 = some (Page.metaInfo s.metaInfo) ∧
      s.metaInfo.relationName = [] ∧
      s.metaInfo.attrByteOffset = 0 ∧
      s.metaInfo.attrType = Datatype.INTEGER ∧
      ∀ key rid, key ≠ invalidKey →
        ∃ s1, insertEntry smallParams s key rid = (s1, .ok ()) ∧
          readPage s1.file 1 = some (Page.metaInfo s1.metaInfo) ∧
          s1.metaInfo.relationName = [] ∧
          s1.metaInfo.attrByteOffset = 0 ∧
          s1.metaInfo.attrType = Datatype.INTEGER ∧
          (s1.metaInfo.rootPageNo ≠ s.metaInfo.rootPageNo →
            readPage s1.file 1 ≠ readPage s.file 1) ∧
          (s1.metaInfo.rootPageNo = s.metaInfo.rootPageNo →
            readPage s1.file 1 = readPage s.file 1) :=
  ⟨by decide, by decide, by decide,
    (meta_page_persists smallParams [] 0 idleScan [(1, ridOf 1), (2, ridOf 2)]
      (by decide) (by decide) (by decide)).2.2⟩

/-! ## C38: the two overloads of `findLeaf` -/

/-- The loop without a path returns the page of the loop with a path, and fails with
the same exception. -/
theorem findLeafLoop2_eq (p : Params) (file : List Page) (key : Int) :
    ∀ (fuel cur : Nat) (vec : List Nat),
      findLeafLoop2 p file key fuel cur
        = (findLeafLoop p file key fuel cur vec).map Prod.fst := by
  intro fuel
  induction fuel with
  | zero =>
    intro cur vec
    rfl
  | succ fuel ih =>
    intro cur vec
    unfold findLeafLoop2 findLeafLoop
    cases hrd : readNonLeaf file cur with
    | error e => rfl
    | ok node =>
      dsimp only
      by_cases hl : node.level = 1
      · rw [if_pos hl, if_pos hl]
        rfl
      · rw [if_neg hl, if_neg hl]
        exact ih _ _

/-- The method `scanNext` writes neither the file nor the meta data. -/
theorem scanNext_frame (p : Params) (s s1 : BTreeIndex) (r : Except Exc RecordId)
    (h : scanNext p s = (s1, r)) : s1.file = s.file ∧ s1.metaInfo = s.metaInfo := by
  unfold scanNext at h
  split at h
  · rw [← (Prod.mk.inj h).1]
    exact ⟨rfl, rfl⟩
  · split at h
    · rw [← (Prod.mk.inj h).1]
      exact ⟨rfl, rfl⟩
    · split at h
      · split at h
        · rw [← (Prod.mk.inj h).1]
          exact ⟨rfl, rfl⟩
        · dsimp only at h
          split at h
          · rw [← (Prod.mk.inj h).1]
            exact ⟨rfl, rfl⟩
          · split at h
            · rw [← (Prod.mk.inj h).1]
              exact ⟨rfl, rfl⟩
            · rw [← (Prod.mk.inj h).1]
              exact ⟨rfl, rfl⟩
      · split at h
        · rw [← (Prod.mk.inj h).1]
          exact ⟨rfl, rfl⟩
        · rw [← (Prod.mk.inj h).1]
          exact ⟨rfl, rfl⟩

/-- The method `startScan` writes neither the file nor the meta data. -/
theorem startScan_frame (p : Params) (s : BTreeIndex) (lowVal highVal : Int)
    (lowOp highOp : Operator) (s1 : BTreeIndex) (r : Except Exc Unit)
    (h : startScan p s lowVal lowOp highVal highOp = (s1, r)) :
    s1.file = s.file ∧ s1.metaInfo = s.metaInfo := by
  unfold startScan at h
  split at h
  · rw [← (Prod.mk.inj h).1]
    exact ⟨rfl, rfl⟩
  · dsimp only at h
    split at h
    · rw [← (Prod.mk.inj h).1]
      exact ⟨rfl, rfl⟩
    · split at h
      · rw [← (Prod.mk.inj h).1]
        exact ⟨rfl, rfl⟩
      · split at h
        · rw [← (Prod.mk.inj h).1]
          exact ⟨rfl, rfl⟩
        · split at h
          · split at h
            · rename_i s5 e1 h1
              rw [← (Prod.mk.inj h).1]
              have hf := scanNext_frame p _ _ _ h1
              exact hf
            · rename_i s5 r1 h1
              rw [← (Prod.mk.inj h).1]
              have hf := scanNext_frame p _ _ _ h1
              exact hf
          · rw [← (Prod.mk.inj h).1]
            exact ⟨rfl, rfl⟩

/-- C38: for every index state and key, `findLeaf(key)` gives what `findLeaf(key, path)`
called with an empty path gives, without the path: the same page when either returns,
the same exception when either throws. Both are functions of the file and the meta
data that return a page number only; `startScan`, the caller of `findLeaf(key)`, leaves
the file and the meta data as they were. -/
theorem findLeaf_overloads_agree (p : Params) (s : BTreeIndex) (key : Int) :
    findLeaf2 p s key = (findLeaf p s key).map Prod.fst ∧
    (∀ leaf path, findLeaf p s key = .ok (leaf, path) → findLeaf2 p s key = .ok leaf) ∧
    (∀ leaf, findLeaf2 p s key = .ok leaf → ∃ path, findLeaf p s key = .ok (leaf, path)) ∧
    (∀ e, findLeaf2 p s key = .error e ↔ findLeaf p s key = .error e) ∧
    (∀ lowOp highVal highOp,
      (startScan p s key lowOp highVal highOp).1.file = s.file ∧
      (startScan p s key lowOp highVal highOp).1.metaInfo = s.metaInfo) := by
  have hmain : findLeaf2 p s key = (findLeaf p s key).map Prod.fst := by
    unfold findLeaf2 findLeaf
    by_cases h2 : s.metaInfo.rootPageNo = 2
    · rw [if_pos h2, if_pos h2]
      rfl
    · rw [if_neg h2, if_neg h2]
      exact findLeafLoop2_eq p s.file key _ _ _
  refine ⟨hmain, ?_, ?_, ?_, ?_⟩
  · intro leaf path h
    rw [hmain, h]
    rfl
  · intro leaf h
    rw [hmain] at h
    cases hf : findLeaf p s key with
    | error e => rw [hf] at h; simp [Except.map] at h
    | ok r =>
      rw [hf] at h
      simp only [Except.map, Except.ok.injEq] at h
      exact ⟨r.2, by rw [← h]⟩
  · intro e
    rw [hmain]
    cases hf : findLeaf p s key with
    | error e1 => simp [Except.map]
    | ok r => simp [Except.map]
  · intro lowOp highVal highOp
    exact startScan_frame p s key highVal lowOp highOp _ _ rfl

/-! ## C34: an insert into a leaf with room -/

theorem propagateLoop_false (p : Params) (stack : List Nat) (file : List Page) (cur : Nat)
    (pk : PageKeyPair) (isAboveLeaf : Bool) :
    propagateLoop p stack file cur pk isAboveLeaf false
      = .ok (file, stack, cur, pk, isAboveLeaf, false) := by
  cases stack with
  | nil => simp [propagateLoop]
  | cons a rest =>
    cases rest with
    | nil => simp [propagateLoop]
    | cons b rest => simp [propagateLoop]

/-- C34: in every index state, when the leaf that `findLeaf` returns for the key is not
full, `insertEntry` returns normally and changes only the file, and there only the
page of that leaf, which becomes the leaf with the pair inserted: the file has as many
pages as before, every other page reads as before (the meta page among them), and the
in-memory meta data with `rootPageNo` and the scan members are unchanged. -/
theorem insertEntry_frame_no_split (p : Params) (s : BTreeIndex) (key : Int) (rid : RecordId)
    (q : Nat) (path : List Nat) (n : LeafNode)
    (hfind : findLeaf p s key = .ok (q, path)) (hrd : readLeaf s.file q = .ok n)
    (hfull : n.isFull p = false) :
    insertEntry p s key rid
      = ({ s with file := writePage s.file q (Page.leaf (n.insert p ⟨rid, key⟩)) }, .ok ()) ∧
    (insertEntry p s key rid).1.file.length = s.file.length ∧
    (∀ pid, pid ≠ q →
      readPage (insertEntry p s key rid).1.file pid = readPage s.file pid) ∧
    readLeaf (insertEntry p s key rid).1.file q = .ok (n.insert p ⟨rid, key⟩) ∧
    (insertEntry p s key rid).1.metaInfo = s.metaInfo ∧
    (insertEntry p s key rid).1.scanExecuting = s.scanExecuting ∧
    (insertEntry p s key rid).1.nextEntry = s.nextEntry ∧
    (insertEntry p s key rid).1.currentPageNum = s.currentPageNum ∧
    (insertEntry p s key rid).1.lowValInt = s.lowValInt ∧
    (insertEntry p s key rid).1.highValInt = s.highValInt ∧
    (insertEntry p s key rid).1.lowOp = s.lowOp ∧
    (insertEntry p s key rid).1.highOp = s.highOp := by
  have hq := readLeaf_ok_le hrd
  have he : insertEntry p s key rid
      = ({ s with file := writePage s.file q (Page.leaf (n.insert p ⟨rid, key⟩)) },
          .ok ()) := by
    unfold insertEntry
    rw [hfind]
    dsimp only
    rw [insertLeaf_room key rid ⟨0, 0⟩ hrd hfull]
    dsimp only
    rw [propagateLoop_false]
    simp
  rw [he]
  refine ⟨rfl, length_writePage _ _ _, ?_, ?_, rfl, rfl, rfl, rfl, rfl, rfl, rfl, rfl⟩
  · intro pid hne
    exact readPage_writePage_ne _ hq.1 hne
  · exact readLeaf_writePage_same _ hq.1 hq.2

set_option maxRecDepth 100000 in
/-- C34, at an example: the second insert into an index with 682-slot leaves. -/
theorem insertEntry_frame_no_split_witness :
    findLeaf pageParams (insertEntry pageParams (emptyIndex pageParams) 5 (ridOf 1)).1 7
      = .ok (2, []) ∧
    readLeaf (insertEntry pageParams (emptyIndex pageParams) 5 (ridOf 1)).1.file 2
      = .ok ((LeafNode.fresh pageParams).insert pageParams ⟨ridOf 1, 5⟩) ∧
    ((LeafNode.fresh pageParams).insert pageParams ⟨ridOf 1, 5⟩).isFull pageParams = false ∧
    (insertEntry pageParams (insertEntry pageParams (emptyIndex pageParams) 5 (ridOf 1)).1
        7 (ridOf 3)).1.file.length
      = (insertEntry pageParams (emptyIndex pageParams) 5 (ridOf 1)).1.file.length ∧
    (∀ pid, pid ≠ 2 →
      readPage (insertEntry pageParams
          (insertEntry pageParams (emptyIndex pageParams) 5 (ridOf 1)).1 7 (ridOf 3)).1.file pid
        = readPage (insertEntry pageParams (emptyIndex pageParams) 5 (ridOf 1)).1.file pid) :=
  ⟨rfl, rfl, by decide,
    (insertEntry_frame_no_split pageParams
      (insertEntry pageParams (emptyIndex pageParams) 5 (ridOf 1)).1 7 (ridOf 3) 2 []
      ((LeafNode.fresh pageParams).insert pageParams ⟨ridOf 1, 5⟩) rfl rfl (by decide)).2.1,
    (insertEntry_frame_no_split pageParams
      (insertEntry pageParams (emptyIndex pageParams) 5 (ridOf 1)).1 7 (ridOf 3) 2 []
      ((LeafNode.fresh pageParams).insert pageParams ⟨ridOf 1, 5⟩) rfl rfl (by decide)).2.2.1⟩

/-! ## C36: a `startScan` that fails with `BadScanrange` -/

set_option maxRecDepth 100000 in
/-- C36: a `startScan` call that ends with `BadScanrange` had `lowVal > highVal` and leaves
the state it was called in with the two operators and the two bounds replaced by its
arguments; `scanExecuting`, `currentPageNum`, `nextEntry`, the file and the meta data
are as before. An example with 682-slot leaves: on the index holding the keys 1, 2, 3
the scan `startScan(1, GTE, 3, LTE)` has returned `(1,0)` and would return `(2,0)` and
`(3,0)` next; after the failed call `startScan(5, GTE, 2, LTE)` it returns `(2,0)` only. -/
theorem failed_startScan_overwrites_bounds :
    (∀ (p : Params) (s s1 : BTreeIndex) (lowVal highVal : Int) (lowOp highOp : Operator),
      startScan p s lowVal lowOp highVal highOp = (s1, .error Exc.BadScanrange) →
      lowVal > highVal ∧
      s1 = { s with lowOp := lowOp, highOp := highOp, lowValInt := lowVal,
                    highValInt := highVal }) ∧
    (∃ s s0 s1 s2, insertAll pageParams (emptyIndex pageParams)
        [(1, ridOf 1), (2, ridOf 2), (3, ridOf 3)] = .ok s ∧
      startScan pageParams s 1 Operator.GTE 3 Operator.LTE = (s0, .ok ()) ∧
      scanNext pageParams s0 = (s1, .ok (ridOf 1)) ∧
      scanAll pageParams 5 s1 = ([ridOf 2, ridOf 3], some Exc.IndexScanCompleted) ∧
      startScan pageParams s1 5 Operator.GTE 2 Operator.LTE = (s2, .error Exc.BadScanrange) ∧
      s2.scanExecuting = true ∧ s2.currentPageNum = s1.currentPageNum ∧
      s2.nextEntry = s1.nextEntry ∧
      scanAll pageParams 5 s2 = ([ridOf 2], some Exc.IndexScanCompleted)) := by
  constructor
  · intro p s s1 lowVal highVal lowOp highOp h
    have h2 : (startScan p s lowVal lowOp highVal highOp).2 = .error Exc.BadScanrange := by
      rw [h]
    rcases startScan_error_cases h2 with h1 | h1 | h1
    · exact absurd h1.1 (by decide)
    · refine ⟨h1.2.2, ?_⟩
      unfold startScan at h
      rw [if_neg h1.2.1] at h
      dsimp only at h
      rw [if_pos h1.2.2] at h
      exact (Prod.mk.inj h).1.symm
    · rcases h1.1 with h3 | h3 | h3 | h3 <;> exact absurd h3 (by decide)
  · refine ⟨_, _, _, _, rfl, rfl, rfl, ?_, rfl, ?_, ?_, ?_, ?_⟩ <;> decide

/-! ## C32: the array sizes -/

/-- C32: with an 8192-byte page, 4-byte `int` and `PageId`, 8-byte `double`, 1-byte `char`
and an 8-byte `RecordId` aligned to 4 bytes, the six array size constants are 682, 511,
454 (leaves) and 1023, 681, 584 (non-leaf nodes) for int, double and string keys; each
of the six node structures, its members laid out in declaration order at their natural
alignment, takes at most 8192 bytes; and the non-leaf structure for double keys with one
more slot, the size without the subtraction of 1, takes more than 8192 bytes. -/
theorem fanout_constants :
    INTARRAYLEAFSIZE stdSizes = 682 ∧ DOUBLEARRAYLEAFSIZE stdSizes = 511 ∧
    STRINGARRAYLEAFSIZE stdSizes = 454 ∧
    INTARRAYNONLEAFSIZE stdSizes = 1023 ∧ DOUBLEARRAYNONLEAFSIZE stdSizes = 681 ∧
    STRINGARRAYNONLEAFSIZE stdSizes = 584 ∧
    structSize (leafNodeInt stdSizes) ≤ stdSizes.pageSize ∧
    structSize (leafNodeDouble stdSizes) ≤ stdSizes.pageSize ∧
    structSize (leafNodeString stdSizes) ≤ stdSizes.pageSize ∧
    structSize (nonLeafNodeInt stdSizes) ≤ stdSizes.pageSize ∧
    structSize (nonLeafNodeDouble stdSizes (DOUBLEARRAYNONLEAFSIZE stdSizes))
      ≤ stdSizes.pageSize ∧
    structSize (nonLeafNodeString stdSizes) ≤ stdSizes.pageSize ∧
    stdSizes.pageSize
      < structSize (nonLeafNodeDouble stdSizes (DOUBLEARRAYNONLEAFSIZE stdSizes + 1)) ∧
    structSize (leafNodeInt stdSizes) = 8188 ∧
    structSize (leafNodeDouble stdSizes) = 8184 ∧
    structSize (leafNodeString stdSizes) = 8176 ∧
    structSize (nonLeafNodeInt stdSizes) = 8192 ∧
    structSize (nonLeafNodeDouble stdSizes (DOUBLEARRAYNONLEAFSIZE stdSizes)) = 8184 ∧
    structSize (nonLeafNodeString stdSizes) = 8184 ∧
    structSize (nonLeafNodeDouble stdSizes (DOUBLEARRAYNONLEAFSIZE stdSizes + 1)) = 8200 := by
  decide

/-! ## C33: the root is replaced at most once -/

theorem insertNonLeaf_false {p : Params} {file : List Page} {pid : Nat} {pk : PageKeyPair}
    {isAboveLeaf : Bool} {file1 : List Page} {b : Bool} {pk1 : PageKeyPair}
    (h : insertNonLeaf p file pid pk isAboveLeaf = .ok (file1, b, pk1)) : b = false := by
  cases hrd : readNonLeaf file pid with
  | error e =>
    unfold insertNonLeaf at h
    rw [hrd] at h
    simp at h
  | ok n =>
    by_cases hfull :
        NonLeafNode.isFull p { n with level := if isAboveLeaf then 1 else 0 } = true
    · rw [insertNonLeaf_full pk isAboveLeaf hrd hfull] at h
      simp only [Except.ok.injEq, Prod.mk.injEq] at h
      exact h.2.1.symm
    · have hfull' :
          NonLeafNode.isFull p { n with level := if isAboveLeaf then 1 else 0 } = false := by
        simpa using hfull
      rw [insertNonLeaf_room pk isAboveLeaf hrd hfull'] at h
      simp only [Except.ok.injEq, Prod.mk.injEq] at h
      exact h.2.1.symm

/-- The loop of `insertEntry` never empties the stack of non-leaf pages. -/
theorem propagateLoop_stack (p : Params) :
    ∀ (stack : List Nat) (file : List Page) (cur : Nat) (pk : PageKeyPair) (a ps : Bool)
      (file2 : List Page) (stack2 : List Nat) (cur2 : Nat) (pk2 : PageKeyPair) (a2 ps2 : Bool),
      stack ≠ [] →
      propagateLoop p stack file cur pk a ps = .ok (file2, stack2, cur2, pk2, a2, ps2) →
      stack2 ≠ [] := by
  intro stack
  induction stack with
  | nil => intro _ _ _ _ _ _ _ _ _ _ _ h; exact absurd rfl h
  | cons x rest ih =>
    intro file cur pk a ps file2 stack2 cur2 pk2 a2 ps2 _ h
    cases rest with
    | nil =>
      simp only [propagateLoop, Except.ok.injEq, Prod.mk.injEq] at h
      rw [← h.2.1]
      simp
    | cons y rest =>
      rw [propagateLoop] at h
      split at h
      · split at h
        · simp at h
        · exact ih _ _ _ _ _ _ _ _ _ _ _ (by simp) h
      · simp only [Except.ok.injEq, Prod.mk.injEq] at h
        rw [← h.2.1]
        simp

theorem propagateLoop_nil (p : Params) (file : List Page) (cur : Nat) (pk : PageKeyPair)
    (a ps : Bool) :
    propagateLoop p [] file cur pk a ps = .ok (file, [], cur, pk, a, ps) := by
  simp [propagateLoop]

theorem insertLeaf_true {p : Params} {file : List Page} {key : Int} {rid : RecordId}
    {pid : Nat} {pk pk1 : PageKeyPair} {file1 : List Page}
    (h : insertLeaf p file key rid pid pk = .ok (file1, true, pk1)) :
    ∃ n, readLeaf file pid = .ok n ∧ n.isFull p = true ∧ file1.length = file.length + 1 := by
  cases hrd : readLeaf file pid with
  | error e =>
    unfold insertLeaf at h
    rw [hrd] at h
    simp at h
  | ok n =>
    by_cases hfull : n.isFull p = true
    · refine ⟨n, rfl, hfull, ?_⟩
      rw [insertLeaf_full key rid pk hrd hfull] at h
      simp only [Except.ok.injEq, Prod.mk.injEq] at h
      rw [← h.1, length_writePage, length_writePage, List.length_append,
        List.length_singleton]
    · have hfull' : n.isFull p = false := by simpa using hfull
      rw [insertLeaf_room key rid pk hrd hfull'] at h
      simp at h

/-- What one `insertEntry` does to the meta data, in every state and for every key: it
leaves them as they are, or the root was page 2, a full leaf, the call returned
normally and `rootPageNo` is the page after the one allocated for the new leaf. -/
theorem insertEntry_meta_cases (p : Params) (s s1 : BTreeIndex) (key : Int) (rid : RecordId)
    (r : Except Exc Unit) (h : insertEntry p s key rid = (s1, r)) :
    s1.metaInfo = s.metaInfo ∨
    (s.metaInfo.rootPageNo = 2 ∧ r = .ok () ∧
      s1.metaInfo = { s.metaInfo with rootPageNo := s.file.length + 2 } ∧
      ∃ n, readLeaf s.file 2 = .ok n ∧ n.isFull p = true) := by
  unfold insertEntry at h
  cases hf : findLeaf p s key with
  | error e =>
    rw [hf] at h
    exact Or.inl (by rw [← (Prod.mk.inj h).1])
  | ok lp =>
    obtain ⟨leaf, path⟩ := lp
    rw [hf] at h
    dsimp only at h
    cases hil : insertLeaf p s.file key rid leaf ⟨0, 0⟩ with
    | error e =>
      rw [hil] at h
      exact Or.inl (by rw [← (Prod.mk.inj h).1])
    | ok res =>
      obtain ⟨file1, ps1, pk1⟩ := res
      rw [hil] at h
      dsimp only at h
      cases hpl : propagateLoop p path.reverse file1 leaf pk1 true ps1 with
      | error e =>
        rw [hpl] at h
        exact Or.inl (by rw [← (Prod.mk.inj h).1])
      | ok res2 =>
        obtain ⟨file2, stack, cur, pk2, a, ps2⟩ := res2
        rw [hpl] at h
        dsimp only at h
        cases ps2 with
        | false =>
          simp only [Bool.false_eq_true, if_false] at h
          exact Or.inl (by rw [← (Prod.mk.inj h).1])
        | true =>
          simp only [if_true] at h
          cases stack with
          | nil =>
            dsimp only at h
            have hpath : path = [] := by
              by_contra hne
              exact propagateLoop_stack p _ _ _ _ _ _ _ _ _ _ _ _
                (by simpa using hne) hpl rfl
            rw [hpath, List.reverse_nil, propagateLoop_nil] at hpl
            simp only [Except.ok.injEq, Prod.mk.injEq] at hpl
            obtain ⟨hfile, -, hcur, -, -, hps⟩ := hpl
            have hroot : s.metaInfo.rootPageNo = 2 := by
              by_contra h2
              unfold findLeaf at hf
              rw [if_neg h2] at hf
              obtain ⟨rest, hp, -⟩ := findLeafLoop_path p s.file key _ _ _ _ _ hf
              rw [hpath] at hp
              simp at hp
            have hleaf : leaf = 2 := by
              unfold findLeaf at hf
              rw [if_pos hroot] at hf
              exact ((Prod.mk.inj (Except.ok.inj hf)).1).symm
            rw [hps, hleaf] at hil
            obtain ⟨n, hrd, hfull, hlen⟩ := insertLeaf_true hil
            refine Or.inr ⟨hroot, (Prod.mk.inj h).2.symm, ?_, n, hrd, hfull⟩
            rw [← (Prod.mk.inj h).1]
            simp only [newRoot, allocatePage]
            rw [← hfile, hlen]
          | cons top rest =>
            dsimp only at h
            cases hnl : insertNonLeaf p file2 top pk2 a with
            | error e =>
              rw [hnl] at h
              exact Or.inl (by rw [← (Prod.mk.inj h).1])
            | ok res3 =>
              obtain ⟨file3, ps3, pk3⟩ := res3
              rw [hnl] at h
              dsimp only at h
              rw [insertNonLeaf_false hnl] at h
              simp only [Bool.false_eq_true, if_false] at h
              exact Or.inl (by rw [← (Prod.mk.inj h).1])

/-- A sequence of `insertEntry` calls that starts with a root other than page 2 keeps
that root. -/
theorem insertAll_root_fixed (p : Params) (ins : List (Int × RecordId)) :
    ∀ (s s1 : BTreeIndex), s.metaInfo.rootPageNo ≠ 2 → insertAll p s ins = .ok s1 →
      s1.metaInfo.rootPageNo = s.metaInfo.rootPageNo := by
  induction ins with
  | nil =>
    intro s s1 _ h
    simp only [insertAll, Except.ok.injEq] at h
    rw [h]
  | cons e rest ih =>
    intro s s1 h2 h
    obtain ⟨key, rid⟩ := e
    simp only [insertAll] at h
    cases hstep : insertEntry p s key rid with
    | mk s2 r =>
      rw [hstep] at h
      cases r with
      | error e => simp at h
      | ok u =>
        dsimp only at h
        have hm : s2.metaInfo.rootPageNo = s.metaInfo.rootPageNo := by
          rcases insertEntry_meta_cases p s s2 key rid _ hstep with h1 | h1
          · rw [h1]
          · exact absurd h1.1 h2
        rw [ih s2 s1 (by rw [hm]; exact h2) h, hm]

theorem insertAll_append (p : Params) (a b : List (Int × RecordId)) :
    ∀ (s s1 : BTreeIndex), insertAll p s a = .ok s1 →
      insertAll p s (a ++ b) = insertAll p s1 b := by
  induction a with
  | nil =>
    intro s s1 h
    simp only [insertAll, Except.ok.injEq] at h
    rw [h]
    rfl
  | cons e rest ih =>
    intro s s1 h
    obtain ⟨key, rid⟩ := e
    simp only [insertAll, List.cons_append] at h ⊢
    cases hstep : insertEntry p s key rid with
    | mk s2 r =>
      rw [hstep] at h
      cases r with
      | error e => simp at h
      | ok u =>
        dsimp only at h ⊢
        exact ih s2 s1 h

/-- C33. In every state and for every key, an `insertEntry` that changes `rootPageNo`
was called with root page 2, a full leaf, and returned normally; with any other root
`rootPageNo` stays. Over a sequence of inserts of keys other than the sentinel into a
new index: every prefix of the sequence ends with root page 2 or with the root the
whole sequence ends with, which is not page 2 once it was replaced; the root is page 2
or a non-leaf node of level 1; and every path `findLeaf` returns has at most one page. -/
theorem root_replaced_at_most_once (p : Params) (relationName : List Nat)
    (attrByteOffset : Int) (scan0 : BTreeIndex) (ins : List (Int × RecordId))
    (hsize : 2 ≤ p.leafSize) (hnsize : 1 ≤ p.nonLeafSize)
    (hvalid : ∀ e ∈ ins, e.1 ≠ invalidKey) :
    (∀ (s s1 : BTreeIndex) (key : Int) (rid : RecordId) (r : Except Exc Unit),
      insertEntry p s key rid = (s1, r) →
      (s1.metaInfo.rootPageNo ≠ s.metaInfo.rootPageNo →
        s.metaInfo.rootPageNo = 2 ∧ r = .ok () ∧
        ∃ n, readLeaf s.file 2 = .ok n ∧ n.isFull p = true) ∧
      (s.metaInfo.rootPageNo ≠ 2 → s1.metaInfo.rootPageNo = s.metaInfo.rootPageNo)) ∧
    ∃ s, insertAll p (createIndex p relationName attrByteOffset scan0) ins = .ok s ∧
      (∀ k, ∃ sk, insertAll p (createIndex p relationName attrByteOffset scan0) (ins.take k)
          = .ok sk ∧
        (sk.metaInfo.rootPageNo = 2 ∨
          (sk.metaInfo.rootPageNo = s.metaInfo.rootPageNo ∧ s.metaInfo.rootPageNo ≠ 2))) ∧
      (s.metaInfo.rootPageNo = 2 ∨
        ∃ node, readNonLeaf s.file s.metaInfo.rootPageNo = .ok node ∧ node.level = 1) ∧
      (∀ key, ∃ leaf path, findLeaf p s key = .ok (leaf, path) ∧ path.length ≤ 1) := by
  constructor
  · intro s s1 key rid r h
    rcases insertEntry_meta_cases p s s1 key rid r h with h1 | h1
    · exact ⟨fun hne => absurd (by rw [h1]) hne, fun _ => by rw [h1]⟩
    · exact ⟨fun _ => ⟨h1.1, h1.2.1, h1.2.2.2⟩, fun h2 => absurd h1.1 h2⟩
  · obtain ⟨s, hall, chain, hleaf, hroot⟩ :=
      insertAll_inv hsize hnsize ins _ [] (inv_createIndex p relationName attrByteOffset scan0)
        hvalid
    refine ⟨s, hall, ?_, ?_, ?_⟩
    · intro k
      obtain ⟨sk, hk, -⟩ :=
        insertAll_inv hsize hnsize (ins.take k) _ []
          (inv_createIndex p relationName attrByteOffset scan0)
          (fun e he => hvalid e (List.mem_of_mem_take he))
      refine ⟨sk, hk, ?_⟩
      by_cases h2 : sk.metaInfo.rootPageNo = 2
      · exact Or.inl h2
      · have hrest := insertAll_append p (ins.take k) (ins.drop k) _ sk hk
        rw [List.take_append_drop, hall] at hrest
        have hfix := insertAll_root_fixed p (ins.drop k) sk s h2 hrest.symm
        exact Or.inr ⟨hfix.symm, by rw [hfix]; exact h2⟩
    · rcases hroot with hroot | ⟨node, -, -, -, -, hrd, hlevel, -⟩
      · exact Or.inl hroot
      · exact Or.inr ⟨node, hrd, hlevel⟩
    · intro key
      obtain ⟨leaf, path, hfind, -, hpath⟩ := findLeaf_of_inv hleaf hroot key
      refine ⟨leaf, path, hfind, ?_⟩
      rcases hpath with ⟨-, hp⟩ | ⟨-, hp⟩ <;> rw [hp] <;> simp

/-- C33, at an example: two-slot leaves and the keys 1 to 6; the third insert replaces
the root, the fifth splits the root node and keeps it. -/
theorem root_replaced_at_most_once_witness :
    2 ≤ smallParams.leafSize ∧ 1 ≤ smallParams.nonLeafSize ∧
    (∀ e ∈ ([(1, ridOf 1), (2, ridOf 2), (3, ridOf 3), (4, ridOf 4), (5, ridOf 5),
      (6, ridOf 6)] : List (Int × RecordId)), e.1 ≠ invalidKey) ∧
    ∃ s, insertAll smallParams (createIndex smallParams [] 0 idleScan)
        [(1, ridOf 1), (2, ridOf 2), (3, ridOf 3), (4, ridOf 4), (5, ridOf 5),
          (6, ridOf 6)] = .ok s ∧
      (∀ k, ∃ sk, insertAll smallParams (createIndex smallParams [] 0 idleScan)
          (([(1, ridOf 1), (2, ridOf 2), (3, ridOf 3), (4, ridOf 4), (5, ridOf 5),
            (6, ridOf 6)] : List (Int × RecordId)).take k) = .ok sk ∧
        (sk.metaInfo.rootPageNo = 2 ∨
          (sk.metaInfo.rootPageNo = s.metaInfo.rootPageNo ∧ s.metaInfo.rootPageNo ≠ 2))) ∧
      (s.metaInfo.rootPageNo = 2 ∨
        ∃ node, readNonLeaf s.file s.metaInfo.rootPageNo = .ok node ∧ node.level = 1) ∧
      (∀ key, ∃ leaf path, findLeaf smallParams s key = .ok (leaf, path) ∧ path.length ≤ 1) :=
  ⟨by decide, by decide, by decide,
    (root_replaced_at_most_once smallParams [] 0 idleScan
      [(1, ridOf 1), (2, ridOf 2), (3, ridOf 3), (4, ridOf 4), (5, ridOf 5), (6, ridOf 6)]
      (by decide) (by decide) (by decide)).2⟩

/-! ## C37: the read one slot past the key array -/

theorem searchKeys_all_below (key : Int) :
    ∀ (ks : List Int), (∀ k ∈ ks, k < key ∧ k ≠ invalidKey) → searchKeys key ks = ks.length := by
  intro ks
  induction ks with
  | nil => intro _; rfl
  | cons k ks ih =>
    intro h
    have hk := h k (List.mem_cons_self _ _)
    simp only [searchKeys, List.length_cons]
    rw [if_pos hk, ih (fun x hx => h x (List.mem_cons_of_mem _ hx))]

/-- C37: when the leaf that `findLeaf(lowVal)` returns is a well-formed leaf with all `L`
key slots occupied by keys below `lowVal`, `LeafNodeContainer::search` ends with
`nextEntry = L`, and the key `startScan` then reads with `getKey(nextEntry)` is the one at
index `L`, past the last slot of the key array. What `startScan` does next depends on
that value: it calls `scanNext` when the value is the sentinel, or equals `lowVal` with
`lowOp == GT`, and otherwise returns with `nextEntry = L`. -/
theorem startScan_reads_past_keyArray (p : Params) (s : BTreeIndex) (pid : Nat) (n : LeafNode)
    (es : List RIDKeyPair) (lowVal highVal : Int) (lowOp highOp : Operator)
    (hfind : findLeaf2 p s lowVal = .ok pid) (hrd : readLeaf s.file pid = .ok n)
    (h : LeafHolds p n es) (hfull : es.length = p.leafSize)
    (hbelow : ∀ e ∈ es, e.key < lowVal)
    (hlow : lowOp = Operator.GT ∨ lowOp = Operator.GTE)
    (hhigh : highOp = Operator.LT ∨ highOp = Operator.LTE)
    (hrange : lowVal ≤ highVal) :
    n.search p lowVal = p.leafSize ∧
    n.keyArray.length = p.leafSize ∧
    n.getKeyAt p (n.search p lowVal) = p.pastEndKey n ∧
    startScan p s lowVal lowOp highVal highOp
      = if (lowOp = Operator.GT ∧ lowVal = p.pastEndKey n) ∨ p.pastEndKey n = invalidKey then
          ((scanNext p
            { s with
              lowOp := lowOp, highOp := highOp, lowValInt := lowVal, highValInt := highVal,
              scanExecuting := true, currentPageNum := pid, nextEntry := p.leafSize }).1,
            (scanNext p
            { s with
              lowOp := lowOp, highOp := highOp, lowValInt := lowVal, highValInt := highVal,
              scanExecuting := true, currentPageNum := pid, nextEntry := p.leafSize }).2.map (fun _ => ()))
        else
          ({ s with
              lowOp := lowOp, highOp := highOp, lowValInt := lowVal, highValInt := highVal,
              scanExecuting := true, currentPageNum := pid, nextEntry := p.leafSize }, .ok ()) := by
  have hops : ¬ (lowOp = Operator.LT ∨ lowOp = Operator.LTE ∨
        highOp = Operator.GT ∨ highOp = Operator.GTE) := by
    rcases hlow with h1 | h1 <;> rcases hhigh with h2 | h2 <;> subst h1 <;> subst h2 <;> simp
  have hrange' : ¬ lowVal > highVal := by omega
  have hkeys : n.keyArray = es.map (fun e => e.key) := by
    rw [h.2.2.1, hfull, Nat.sub_self]
    simp
  have hlen : n.keyArray.length = p.leafSize := by
    rw [hkeys, List.length_map, hfull]
  have hsearch : n.search p lowVal = p.leafSize := by
    unfold LeafNode.search
    rw [List.take_of_length_le (by omega), searchKeys_all_below, hlen]
    intro k hk
    rw [hkeys] at hk
    obtain ⟨e, he, hek⟩ := List.mem_map.1 hk
    rw [← hek]
    exact ⟨hbelow e he, h.2.1 e he⟩
  have hget : n.getKeyAt p (n.search p lowVal) = p.pastEndKey n := by
    unfold LeafNode.getKeyAt
    rw [hsearch, if_neg (by omega)]
  refine ⟨hsearch, hlen, hget, ?_⟩
  have hfind' : findLeaf2 p
      { s with
        lowOp := lowOp, highOp := highOp, lowValInt := lowVal, highValInt := highVal,
        scanExecuting := true } lowVal = .ok pid := hfind
  unfold startScan
  rw [if_neg hops]
  dsimp only
  rw [if_neg hrange', hfind']
  dsimp only
  rw [hrd]
  dsimp only
  rw [hget, hsearch]
  by_cases hc : (lowOp = Operator.GT ∧ lowVal = p.pastEndKey n) ∨ p.pastEndKey n = invalidKey
  · rw [if_pos hc, if_pos hc]
    cases hsn : scanNext p
        { s with
          lowOp := lowOp, highOp := highOp, lowValInt := lowVal, highValInt := highVal,
          scanExecuting := true, currentPageNum := pid, nextEntry := p.leafSize } with
    | mk s5 r =>
      cases r with
      | error e => rfl
      | ok v => rfl
  · rw [if_neg hc, if_neg hc]

/-- C37, at an example: two-slot leaves, the keys 1 and 2, and `startScan(5, GTE, 10, LTE)`.
With the value `0` behind the key array `startScan` returns with `nextEntry = 2`; with the
sentinel there it ends with `IndexScanCompleted`. -/
theorem startScan_reads_past_keyArray_witness :
    insertAll smallParams (emptyIndex smallParams) [(1, ridOf 1), (2, ridOf 2)]
      = .ok fullLeafIndex ∧
    LeafHolds smallParams ⟨[1, 2], [ridOf 1, ridOf 2], 0⟩ [⟨ridOf 1, 1⟩, ⟨ridOf 2, 2⟩] ∧
    LeafNode.search smallParams ⟨[1, 2], [ridOf 1, ridOf 2], 0⟩ 5 = 2 ∧
    (⟨[1, 2], [ridOf 1, ridOf 2], 0⟩ : LeafNode).keyArray.length = 2 ∧
    (startScan smallParams fullLeafIndex 5 Operator.GTE 10 Operator.LTE).2 = .ok () ∧
    (startScan { smallParams with pastEndKey := fun _ => invalidKey } fullLeafIndex
      5 Operator.GTE 10 Operator.LTE).2 = .error Exc.IndexScanCompleted :=
  ⟨rfl, ⟨by decide, by decide, rfl, [], rfl, rfl⟩,
    (startScan_reads_past_keyArray smallParams fullLeafIndex 2
      ⟨[1, 2], [ridOf 1, ridOf 2], 0⟩
      [⟨ridOf 1, 1⟩, ⟨ridOf 2, 2⟩] 5 10 Operator.GTE Operator.LTE rfl rfl
      ⟨by decide, by decide, rfl, [], rfl, rfl⟩ rfl (by decide) (Or.inr rfl) (Or.inr rfl)
      (by decide)).1,
    (startScan_reads_past_keyArray smallParams fullLeafIndex 2
      ⟨[1, 2], [ridOf 1, ridOf 2], 0⟩
      [⟨ridOf 1, 1⟩, ⟨ridOf 2, 2⟩] 5 10 Operator.GTE Operator.LTE rfl rfl
      ⟨by decide, by decide, rfl, [], rfl, rfl⟩ rfl (by decide) (Or.inr rfl) (Or.inr rfl)
      (by decide)).2.1,
    by decide, by decide⟩

/-! ## C35: `IndexScanCompleted` is repeated -/

/-- On a well-formed chain of leaves with the cursor on one of them, a `scanNext` that
ends with `IndexScanCompleted` leaves a state in which `scanNext` ends with
`IndexScanCompleted` again and changes nothing. -/
theorem scanNext_completed_fixed (p : Params) (s s1 : BTreeIndex)
    (chain : List (Nat × List RIDKeyPair)) (ins : List (Int × RecordId))
    (hleaf : LeafInv p s.file chain ins)
    (hcur : s.currentPageNum ∈ chain.map Prod.fst)
    (h : scanNext p s = (s1, .error Exc.IndexScanCompleted)) :
    scanNext p s1 = (s1, .error Exc.IndexScanCompleted) ∧
    (∀ k, scanNext p ((fun t => (scanNext p t).1)^[k] s1)
      = (s1, .error Exc.IndexScanCompleted)) ∧
    (∀ fuel, scanAll p (fuel + 1) s1 = ([], some Exc.IndexScanCompleted)) ∧
    s1.file = s.file ∧ s1.currentPageNum ∈ chain.map Prod.fst := by
  have hmain : scanNext p s1 = (s1, .error Exc.IndexScanCompleted) ∧
      s1.file = s.file ∧ s1.currentPageNum ∈ chain.map Prod.fst := by
    obtain ⟨c, hc, hc1⟩ := List.mem_map.1 hcur
    obtain ⟨pre, post, hsplit⟩ := List.append_of_mem hc
    obtain ⟨pid, es⟩ := c
    simp only at hc1
    subst hsplit
    obtain ⟨n, hrd, hholds, hsib, hpost⟩ := (Chain.append.1 hleaf.2.1).2
    rw [hc1] at hrd
    by_cases hexec : s.scanExecuting = false
    · unfold scanNext at h
      rw [if_pos hexec] at h
      simp at h
    · have hexec' : s.scanExecuting = true := by simpa using hexec
      by_cases hend : p.leafSize ≤ s.nextEntry ∨ n.getKey s.nextEntry = invalidKey
      · by_cases hs0 : n.rightSibPageNo = 0
        · have hs : s1 = s := by
            unfold scanNext at h
            rw [if_neg hexec, hrd] at h
            dsimp only at h
            rw [if_pos hend, if_pos hs0] at h
            exact (Prod.mk.inj h).1.symm
          rw [hs]
          rw [hs] at h
          exact ⟨h, rfl, hcur⟩
        · cases post with
          | nil => exact absurd hsib hs0
          | cons c1 post1 =>
            obtain ⟨pid1, es1⟩ := c1
            obtain ⟨n1, hrd1, hholds1, -, -⟩ := hpost
            have hsib1 : n.rightSibPageNo = pid1 := hsib
            have hes1 : es1 ≠ [] := by
              intro he
              have := hleaf.2.2.2.2.2.1 (pid1, es1) (by simp) he
              simp at this
              omega
            obtain ⟨x, rest, hx⟩ := List.exists_cons_of_ne_nil hes1
            rw [hx] at hholds1
            obtain ⟨-, -, hL, hk0⟩ := @LeafHolds.getKey_at p n1 [] rest x hholds1
            simp only [List.length_nil] at hL hk0
            have hk0' : n1.getKey 0 ≠ invalidKey := by
              have hg : n1.getKey 0 = x.key := (@LeafHolds.getKey_at p n1 [] rest x hholds1).1
              rw [hg]
              exact hk0
            unfold scanNext at h
            rw [if_neg hexec, hrd] at h
            dsimp only at h
            rw [if_pos hend, if_neg hs0, hsib1, hrd1] at h
            dsimp only at h
            by_cases hhigh : (s.highOp = Operator.LT ∧ n1.getKey 0 ≥ s.highValInt) ∨
                (s.highOp = Operator.LTE ∧ n1.getKey 0 > s.highValInt)
            · rw [if_pos hhigh] at h
              have hs := (Prod.mk.inj h).1
              rw [← hs]
              refine ⟨?_, rfl, by simp⟩
              unfold scanNext
              dsimp only
              rw [if_neg hexec, hrd1]
              dsimp only
              rw [if_neg (by
                intro hcon
                rcases hcon with h1 | h1
                · omega
                · exact hk0' h1), if_pos hhigh]
            · rw [if_neg hhigh] at h
              simp at h
      · by_cases hhigh : (s.highOp = Operator.LT ∧ n.getKey s.nextEntry ≥ s.highValInt) ∨
            (s.highOp = Operator.LTE ∧ n.getKey s.nextEntry > s.highValInt)
        · have hs : s1 = s := by
            unfold scanNext at h
            rw [if_neg hexec, hrd] at h
            dsimp only at h
            rw [if_neg hend, if_pos hhigh] at h
            exact (Prod.mk.inj h).1.symm
          rw [hs]
          rw [hs] at h
          exact ⟨h, rfl, hcur⟩
        · unfold scanNext at h
          rw [if_neg hexec, hrd] at h
          dsimp only at h
          rw [if_neg hend, if_neg hhigh] at h
          simp at h
  have hiter : ∀ k, (fun t => (scanNext p t).1)^[k] s1 = s1 := by
    intro k
    induction k with
    | zero => rfl
    | succ k ih =>
      rw [Function.iterate_succ_apply']
      rw [ih, hmain.1]
  refine ⟨hmain.1, ?_, ?_, hmain.2⟩
  · intro k
    rw [hiter k]
    exact hmain.1
  · intro fuel
    simp only [scanAll]
    rw [hmain.1]

/-- On a well-formed chain of leaves with the cursor on one of them, `scanNext` leaves
the file as it is and the cursor on a leaf of the chain. -/
theorem scanNext_cursor (p : Params) (s s1 : BTreeIndex) (r : Except Exc RecordId)
    (chain : List (Nat × List RIDKeyPair)) (ins : List (Int × RecordId))
    (hleaf : LeafInv p s.file chain ins)
    (hcur : s.currentPageNum ∈ chain.map Prod.fst)
    (h : scanNext p s = (s1, r)) :
    s1.file = s.file ∧ s1.currentPageNum ∈ chain.map Prod.fst := by
  obtain ⟨c, hc, hc1⟩ := List.mem_map.1 hcur
  obtain ⟨pre, post, hsplit⟩ := List.append_of_mem hc
  obtain ⟨pid, es⟩ := c
  simp only at hc1
  subst hsplit
  obtain ⟨n, hrd, hholds, hsib, hpost⟩ := (Chain.append.1 hleaf.2.1).2
  rw [hc1] at hrd
  have hsibmem : n.rightSibPageNo ≠ 0 →
      n.rightSibPageNo ∈ (pre ++ (pid, es) :: post).map Prod.fst := by
    intro hs0
    cases post with
    | nil => exact absurd hsib hs0
    | cons c1 post1 =>
      obtain ⟨pid1, es1⟩ := c1
      have hsib1 : n.rightSibPageNo = pid1 := hsib
      rw [hsib1]
      simp
  unfold scanNext at h
  split at h
  · rw [← (Prod.mk.inj h).1]
    exact ⟨rfl, hcur⟩
  · rw [hrd] at h
    dsimp only at h
    split at h
    · split at h
      · rw [← (Prod.mk.inj h).1]
        exact ⟨rfl, hcur⟩
      · rename_i hs0
        split at h
        · rw [← (Prod.mk.inj h).1]
          exact ⟨rfl, hsibmem hs0⟩
        · split at h
          · rw [← (Prod.mk.inj h).1]
            exact ⟨rfl, hsibmem hs0⟩
          · rw [← (Prod.mk.inj h).1]
            exact ⟨rfl, hsibmem hs0⟩
    · split at h
      · rw [← (Prod.mk.inj h).1]
        exact ⟨rfl, hcur⟩
      · rw [← (Prod.mk.inj h).1]
        exact ⟨rfl, hcur⟩

/-- On a well-formed index, a `startScan` that gets past its argument checks and the
page reads leaves the file as it is and the cursor on a leaf of the chain. -/
theorem startScan_cursor (p : Params) (s s1 : BTreeIndex) (r : Except Exc Unit)
    (chain : List (Nat × List RIDKeyPair)) (ins : List (Int × RecordId))
    (lowVal highVal : Int) (lowOp highOp : Operator)
    (hleaf : LeafInv p s.file chain ins)
    (hroot : RootInv p s.file s.metaInfo.rootPageNo chain ins)
    (h : startScan p s lowVal lowOp highVal highOp = (s1, r))
    (hr : r = .ok () ∨ r = .error Exc.IndexScanCompleted) :
    s1.file = s.file ∧ s1.currentPageNum ∈ chain.map Prod.fst := by
  obtain ⟨leaf, path, hfind, hmem, -⟩ := findLeaf_of_inv hleaf hroot lowVal
  have hfind2 : findLeaf2 p s lowVal = .ok leaf := by
    unfold findLeaf2
    unfold findLeaf at hfind
    by_cases h2 : s.metaInfo.rootPageNo = 2
    · rw [if_pos h2] at hfind ⊢
      rw [(Prod.mk.inj (Except.ok.inj hfind)).1]
    · rw [if_neg h2] at hfind ⊢
      rw [findLeafLoop2_eq p s.file lowVal _ _ [], hfind]
      rfl
  have hfind2' : findLeaf2 p
      { s with
        lowOp := lowOp, highOp := highOp, lowValInt := lowVal, highValInt := highVal,
        scanExecuting := true } lowVal = .ok leaf := hfind2
  unfold startScan at h
  split at h
  · rw [← (Prod.mk.inj h).2] at hr
    rcases hr with h1 | h1 <;> simp at h1
  · dsimp only at h
    split at h
    · rw [← (Prod.mk.inj h).2] at hr
      rcases hr with h1 | h1 <;> simp at h1
    · rw [hfind2'] at h
      dsimp only at h
      split at h
      · rename_i e1 h1
        rw [← (Prod.mk.inj h).2] at hr
        rcases hr with h2 | h2
        · simp at h2
        · simp only [Except.error.injEq] at h2
          rw [h2] at h1
          rcases readLeaf_error_cases h1 with h3 | h3 <;> simp at h3
      · split at h
        · split at h
          · rename_i s5 e1 h1
            rw [← (Prod.mk.inj h).1]
            have hc := scanNext_cursor p _ s5 _ chain ins (by exact hleaf) (by exact hmem) h1
            exact hc
          · rename_i s5 r1 h1
            rw [← (Prod.mk.inj h).1]
            have hc := scanNext_cursor p _ s5 _ chain ins (by exact hleaf) (by exact hmem) h1
            exact hc
        · rw [← (Prod.mk.inj h).1]
          exact ⟨rfl, hmem⟩

/-- C35: on a well-formed index, after a `startScan` that returned normally or ended with
`IndexScanCompleted` and any number of `scanNext` calls, a `scanNext` that ends with
`IndexScanCompleted` leaves a state in which `scanNext` ends with `IndexScanCompleted`
again and changes nothing; so every further `scanNext` call ends with
`IndexScanCompleted` and none returns a record id. -/
theorem scan_completion_stable (p : Params) (s0 s : BTreeIndex) (r : Except Exc Unit)
    (ins : List (Int × RecordId)) (lowVal highVal : Int) (lowOp highOp : Operator)
    (hinv : Inv p s0 ins)
    (hstart : startScan p s0 lowVal lowOp highVal highOp = (s, r))
    (hr : r = .ok () ∨ r = .error Exc.IndexScanCompleted) :
    ∀ (k : Nat) (t1 : BTreeIndex),
      scanNext p ((fun t => (scanNext p t).1)^[k] s) = (t1, .error Exc.IndexScanCompleted) →
      scanNext p t1 = (t1, .error Exc.IndexScanCompleted) ∧
      (∀ j, scanNext p ((fun t => (scanNext p t).1)^[j] t1)
        = (t1, .error Exc.IndexScanCompleted)) ∧
      (∀ fuel, scanAll p (fuel + 1) t1 = ([], some Exc.IndexScanCompleted)) := by
  obtain ⟨chain, hleaf, hroot⟩ := hinv
  obtain ⟨hfile, hcur⟩ :=
    startScan_cursor p s0 s r chain ins lowVal highVal lowOp highOp hleaf hroot hstart hr
  have hiter : ∀ k, ((fun t => (scanNext p t).1)^[k] s).file = s0.file ∧
      ((fun t => (scanNext p t).1)^[k] s).currentPageNum ∈ chain.map Prod.fst := by
    intro k
    induction k with
    | zero => exact ⟨hfile, hcur⟩
    | succ k ih =>
      rw [Function.iterate_succ_apply']
      have hc := scanNext_cursor p ((fun t => (scanNext p t).1)^[k] s) _ _ chain ins
        (by rw [ih.1]; exact hleaf) ih.2 rfl
      exact ⟨hc.1.trans ih.1, hc.2⟩
  intro k t1 h
  have hfix := scanNext_completed_fixed p _ t1 chain ins
    (by rw [(hiter k).1]; exact hleaf) (hiter k).2 h
  exact ⟨hfix.1, hfix.2.1, hfix.2.2.1⟩

/-- C35, at an example: two-slot leaves `1 | 2 3` and the scan `startScan(1, GTE, 1, LTE)`;
the first `scanNext` returns `(1,0)`, the second moves to page 3 and ends with
`IndexScanCompleted`, and so does every call after it. -/
theorem scan_completion_stable_witness :
    Inv smallParams { scanInProgress with scanExecuting := false }
      [(1, ridOf 1), (2, ridOf 2), (3, ridOf 3)] ∧
    startScan smallParams { scanInProgress with scanExecuting := false }
        1 Operator.GTE 1 Operator.LTE
      = ({ scanInProgress with nextEntry := 0 }, .ok ()) ∧
    scanNext smallParams
        ((fun t => (scanNext smallParams t).1)^[1] { scanInProgress with nextEntry := 0 })
      = ({ scanInProgress with nextEntry := 0, currentPageNum := 3 },
          .error Exc.IndexScanCompleted) ∧
    scanNext smallParams { scanInProgress with nextEntry := 0, currentPageNum := 3 }
      = ({ scanInProgress with nextEntry := 0, currentPageNum := 3 },
          .error Exc.IndexScanCompleted) :=
  ⟨⟨[(2, [⟨ridOf 1, 1⟩]), (3, [⟨ridOf 2, 2⟩, ⟨ridOf 3, 3⟩])],
      ⟨rfl, ⟨_, rfl, ⟨by decide, by decide, rfl, [ridOf 2], rfl, rfl⟩, rfl,
        ⟨_, rfl, ⟨by decide, by decide, rfl, [], rfl, rfl⟩, rfl, trivial⟩⟩,
        by decide, by decide, by decide, by decide, by decide⟩,
      Or.inr ⟨⟨1, [2, -1], [2, 3, 0]⟩, [⟨3, 2⟩], by decide, by decide, by decide, rfl, rfl,
        ⟨by decide, by decide, rfl, [0], rfl, rfl⟩, by decide, by decide⟩⟩,
    rfl, rfl,
    (scan_completion_stable smallParams { scanInProgress with scanExecuting := false }
      { scanInProgress with nextEntry := 0 } (.ok ())
      [(1, ridOf 1), (2, ridOf 2), (3, ridOf 3)] 1 1 Operator.GTE Operator.LTE
      ⟨[(2, [⟨ridOf 1, 1⟩]), (3, [⟨ridOf 2, 2⟩, ⟨ridOf 3, 3⟩])],
        ⟨rfl, ⟨_, rfl, ⟨by decide, by decide, rfl, [ridOf 2], rfl, rfl⟩, rfl,
          ⟨_, rfl, ⟨by decide, by decide, rfl, [], rfl, rfl⟩, rfl, trivial⟩⟩,
          by decide, by decide, by decide, by decide, by decide⟩,
        Or.inr ⟨⟨1, [2, -1], [2, 3, 0]⟩, [⟨3, 2⟩], by decide, by decide, by decide, rfl, rfl,
          ⟨by decide, by decide, rfl, [0], rfl, rfl⟩, by decide, by decide⟩⟩
      rfl (Or.inl rfl) 1 { scanInProgress with nextEntry := 0, currentPageNum := 3 } rfl).1⟩

/-! ## C31: the sentinel as a user key -/

theorem readLeaf_afterSentinelInsert (pid : Nat) (node : LeafNode)
    (h : readLeaf afterSentinelInsert.file pid = .ok node) :
    node = ⟨7 :: List.replicate 681 (-1), ridOf 7 :: ridOf 3 :: List.replicate 680 ⟨0, 0⟩, 0⟩ := by
  have hle := readLeaf_ok_le h
  have hlen : afterSentinelInsert.file.length = 2 := rfl
  rw [hlen] at hle
  have hpid : pid = 1 ∨ pid = 2 := by omega
  rcases hpid with h1 | h1
  · rw [h1] at h
    have h' : readLeaf afterSentinelInsert.file 1 = .error Exc.Stuck := rfl
    rw [h'] at h
    simp at h
  · rw [h1] at h
    have h' : readLeaf afterSentinelInsert.file 2
        = .ok ⟨7 :: List.replicate 681 (-1),
            ridOf 7 :: ridOf 3 :: List.replicate 680 ⟨0, 0⟩, 0⟩ := rfl
    rw [h'] at h
    exact (Except.ok.inj h).symm

/-- On the file of `afterSentinelInsert`, whatever the scan members are, a record id
returned by `scanNext` is `(7,0)`. -/
theorem scanNext_afterSentinelInsert (t t1 : BTreeIndex) (rid : RecordId)
    (ht : t.file = afterSentinelInsert.file)
    (h : scanNext pageParams t = (t1, .ok rid)) : rid = ridOf 7 := by
  unfold scanNext at h
  split at h
  · simp at h
  · split at h
    · simp at h
    · rename_i node hrd
      rw [ht] at hrd
      have hnode := readLeaf_afterSentinelInsert _ _ hrd
      split at h
      · have hsib : node.rightSibPageNo = 0 := by rw [hnode]
        rw [if_pos hsib] at h
        simp at h
      · rename_i hend
        split at h
        · simp at h
        · have hrid := (Except.ok.inj (Prod.mk.inj h).2).symm
          rw [hrid]
          have hkey : node.getKey t.nextEntry ≠ invalidKey := fun hk => hend (Or.inr hk)
          cases hn : t.nextEntry with
          | zero => rw [hnode]; rfl
          | succ k =>
            exfalso
            apply hkey
            rw [hn, hnode]
            unfold LeafNode.getKey
            rw [List.getD_cons_succ]
            exact getD_replicate_self _ _ _

/-- A full store of a leaf whose last pair has the sentinel as key: for a well-formed leaf
with `L - 1` entries, all keys below the sentinel, the insert of a pair with the
sentinel as key writes all `L` slots and leaves a leaf that `isFull` calls not full. -/
theorem insert_sentinel_not_full (p : Params) (n : LeafNode) (es : List RIDKeyPair)
    (rid : RecordId) (hsize : 1 ≤ p.leafSize) (h : LeafHolds p n es)
    (hlen : es.length + 1 = p.leafSize) (hbelow : ∀ e ∈ es, e.key < invalidKey) :
    (sortRIDKeyPairs (⟨rid, invalidKey⟩ :: n.entries)).length = p.leafSize ∧
    (n.insert p ⟨rid, invalidKey⟩).keyArray
      = (sortRIDKeyPairs (⟨rid, invalidKey⟩ :: n.entries)).map (fun e => e.key) ∧
    (n.insert p ⟨rid, invalidKey⟩).isFull p = false := by
  have hent : n.entries = es := h.entries_eq
  have hplen : (sortRIDKeyPairs (⟨rid, invalidKey⟩ :: es)).length = p.leafSize := by
    rw [(sortRIDKeyPairs_perm _).length_eq, List.length_cons, hlen]
  have hkeys : (n.insert p ⟨rid, invalidKey⟩).keyArray
      = (sortRIDKeyPairs (⟨rid, invalidKey⟩ :: es)).map (fun e => e.key) := by
    unfold LeafNode.insert
    rw [hent]
    dsimp only
    rw [leafStore_eq]
    dsimp only [LeafNode.clear]
    rw [setFrom_eq _ _ _ (by simp [hplen])]
    simp [hplen]
  rw [hent]
  refine ⟨hplen, hkeys, ?_⟩
  unfold LeafNode.isFull LeafNode.getKey
  rw [hkeys]
  have hsorted := sortRIDKeyPairs_sorted (⟨rid, invalidKey⟩ :: es)
  have hmemx : (⟨rid, invalidKey⟩ : RIDKeyPair) ∈ sortRIDKeyPairs (⟨rid, invalidKey⟩ :: es) :=
    (sortRIDKeyPairs_perm _).mem_iff.2 (List.mem_cons_self _ _)
  have hall : ∀ e ∈ sortRIDKeyPairs (⟨rid, invalidKey⟩ :: es), e.key ≤ invalidKey := by
    intro e he
    rcases List.mem_cons.1 ((sortRIDKeyPairs_perm _).mem_iff.1 he) with h1 | h1
    · rw [h1]
    · exact le_of_lt (hbelow e h1)
  generalize sortRIDKeyPairs (⟨rid, invalidKey⟩ :: es) = l at hplen hsorted hmemx hall
  have hlast : p.leafSize - 1 < l.length := by omega
  rw [List.getD_eq_getElem _ _ (by rw [List.length_map]; exact hlast), List.getElem_map]
  obtain ⟨i, hi, hix⟩ := List.getElem_of_mem hmemx
  have hle1 : l[p.leafSize - 1].key ≤ invalidKey := hall _ (List.getElem_mem _)
  have hle2 : invalidKey ≤ l[p.leafSize - 1].key := by
    by_cases hik : i = p.leafSize - 1
    · subst hik
      rw [hix]
    · have hlt : i < p.leafSize - 1 := by omega
      have := List.pairwise_iff_getElem.1 hsorted i (p.leafSize - 1) hi hlast hlt
      rw [hix] at this
      exact this
  have heq : l[p.leafSize - 1].key = invalidKey := le_antisymm hle1 hle2
  simp [heq]

set_option maxRecDepth 100000 in
/-- C31. With 682-slot leaves, after `insertEntry(3, (3,0))` and `insertEntry(-1, (1,0))`
the root leaf has the sentinel in slot 0 and key 3 behind it, so the loop that collects
its entries finds none; after `insertEntry(7, (7,0))` the leaf holds key 7 alone: no
leaf of the file has key 3 in a key slot, and after any `startScan` no `scanNext` call
returns `(3,0)`. And for every leaf size `L >= 1`: the insert of a pair with key `-1`
into a well-formed leaf with `L - 1` entries, all keys below `-1`, writes all `L` slots
and leaves a leaf whose `isFull` is false; with two-slot leaves the inserts of `-5` and
`-1` give such a leaf. -/
theorem sentinel_key_loses_entry :
    (∃ s2 n2, insertAll pageParams (emptyIndex pageParams) [(3, ridOf 3), (-1, ridOf 1)]
        = .ok s2 ∧
      readLeaf s2.file 2 = .ok n2 ∧ n2.getKey 0 = -1 ∧ n2.getKey 1 = 3 ∧
      n2.getRID 1 = ridOf 3 ∧ n2.entries = [] ∧
      insertEntry pageParams s2 7 (ridOf 7) = (afterSentinelInsert, .ok ())) ∧
    insertAll pageParams (emptyIndex pageParams) [(3, ridOf 3), (-1, ridOf 1), (7, ridOf 7)]
      = .ok afterSentinelInsert ∧
    leafChainEntries afterSentinelInsert.file 2 2 = [⟨ridOf 7, 7⟩] ∧
    (∀ pid node, readLeaf afterSentinelInsert.file pid = .ok node →
      (3 : Int) ∉ node.keyArray) ∧
    (∀ (lowVal highVal : Int) (lowOp highOp : Operator) (k : Nat),
      (scanNext pageParams ((fun t => (scanNext pageParams t).1)^[k]
        (startScan pageParams afterSentinelInsert lowVal lowOp highVal highOp).1)).2
        ≠ .ok (ridOf 3)) ∧
    (∀ (p : Params) (n : LeafNode) (es : List RIDKeyPair) (rid : RecordId),
      1 ≤ p.leafSize → LeafHolds p n es → es.length + 1 = p.leafSize →
      (∀ e ∈ es, e.key < invalidKey) →
      (sortRIDKeyPairs (⟨rid, invalidKey⟩ :: n.entries)).length = p.leafSize ∧
      (n.insert p ⟨rid, invalidKey⟩).keyArray
        = (sortRIDKeyPairs (⟨rid, invalidKey⟩ :: n.entries)).map (fun e => e.key) ∧
      (n.insert p ⟨rid, invalidKey⟩).isFull p = false) ∧
    (∃ s n, insertAll smallParams (emptyIndex smallParams) [(-5, ridOf 1), (-1, ridOf 2)]
        = .ok s ∧
      readLeaf s.file 2 = .ok n ∧ n.keyArray = [-5, -1] ∧ n.isFull smallParams = false) := by
  refine ⟨⟨_, _, rfl, rfl, by decide, by decide, by decide, by decide, by decide⟩,
    by decide, by decide, ?_, ?_, ?_, ⟨_, _, rfl, rfl, by decide, by decide⟩⟩
  · intro pid node h
    rw [readLeaf_afterSentinelInsert pid node h]
    intro hmem
    rcases List.mem_cons.1 hmem with h1 | h1
    · exact absurd h1 (by decide)
    · exact absurd (List.eq_of_mem_replicate h1) (by decide)
  · intro lowVal highVal lowOp highOp k
    have hfile : ∀ k, ((fun t => (scanNext pageParams t).1)^[k]
        (startScan pageParams afterSentinelInsert lowVal lowOp highVal highOp).1).file
        = afterSentinelInsert.file := by
      intro k
      induction k with
      | zero => exact (startScan_frame pageParams _ _ _ _ _ _ _ rfl).1
      | succ k ih =>
        rw [Function.iterate_succ_apply']
        exact ((scanNext_frame pageParams _ _ _ rfl).1).trans ih
    intro hcon
    have h7 := scanNext_afterSentinelInsert _ _ (ridOf 3) (hfile k) (Prod.ext rfl hcon)
    exact absurd h7 (by decide)
  · intro p n es rid hsize h hlen hbelow
    exact insert_sentinel_not_full p n es rid hsize h hlen hbelow

end BTree
